import Mathlib

/-!
Shallow embedding of the CPU-Scheduling repository (src/process.py, src/algorithms.py,
src/metrics.py) and verification of its specification claims.

Python integers are modelled as `Int` (the sources use `-1` sentinels and ordinary integer
arithmetic).  Python object mutation is modelled by value update: every Python object lives in
exactly one container at a time in the source (remaining list, ready queue, or completed list),
so updating the value at its position is faithful to in-place mutation.  The `while` loops of
the algorithms are modelled as fuel-indexed iteration of a step function; exhausting the fuel
yields `none`, which models non-termination when the fuel supplied by the top-level wrapper is
provably sufficient for the loop's measure.  Python's `min(iterable)` / `min(iterable, key=k)`
(which keeps the first element attaining the minimum) and stable `list.sort` are modelled by
fold-minima and insertion sort respectively.  Division in `metrics.py` is modelled over `ℚ`.
-/

/-- Mirrors `class Process` (src/process.py lines 1-24): the mutable record the algorithms
schedule.  Field names follow the source. -/
structure Process where
  pid : Int
  arrival_time : Int
  burst_time : Int
  priority : Int
  remaining_time : Int
  start_time : Int
  completion_time : Int
  waiting_time : Int
  turnaround_time : Int
  response_time : Int
deriving Repr, DecidableEq

/-- Mirrors `Process.__init__` (src/process.py lines 5-24): `remaining_time` starts at
`burst_time`, every lifecycle field starts at `-1`. -/
def Process.init (pid arrival_time burst_time priority : Int) : Process :=
  { pid := pid, arrival_time := arrival_time, burst_time := burst_time, priority := priority,
    remaining_time := burst_time, start_time := -1, completion_time := -1,
    waiting_time := -1, turnaround_time := -1, response_time := -1 }

/-- Mirrors the defensive copy `Process(p.pid, p.arrival_time, p.burst_time, p.priority)`
performed at the top of every algorithm (e.g. src/algorithms.py line 18). -/
def copyProcess (p : Process) : Process :=
  Process.init p.pid p.arrival_time p.burst_time p.priority

/-- Mirrors `Process.execute` (src/process.py lines 34-52): run to completion when no quantum is
given, otherwise run for `min(quantum, remaining)`.  Returns the executed time and the updated
process. -/
def Process.execute (p : Process) (time_quantum : Option Int) : Int × Process :=
  match time_quantum with
  | none => (p.remaining_time, { p with remaining_time := 0 })
  | some tq =>
    if tq ≥ p.remaining_time then (p.remaining_time, { p with remaining_time := 0 })
    else (tq, { p with remaining_time := p.remaining_time - tq })

/-- Placeholder value for (provably in-range) list indexing. -/
def dummyProcess : Process := Process.init 0 0 0 0

/-- Mirrors the timeline dictionaries appended by every algorithm: `pid` is `none` for the idle
segments (`'pid': None`). -/
structure Segment where
  pid : Option Int
  start_time : Int
  end_time : Int
  duration : Int
deriving Repr, DecidableEq

/-- Comparison `key=lambda p: p.arrival_time` used by every algorithm's initial sort. -/
def arrivalLE (p q : Process) : Prop := p.arrival_time ≤ q.arrival_time

instance : DecidableRel arrivalLE := fun p q => Int.decLe p.arrival_time q.arrival_time

instance : IsTotal Process arrivalLE := ⟨fun p q => Int.le_total p.arrival_time q.arrival_time⟩

instance : IsTrans Process arrivalLE :=
  ⟨fun _ _ _ h1 h2 => Int.le_trans h1 h2⟩

/-- Mirrors `processes.sort(key=lambda p: p.arrival_time)`: Python's sort is stable, and
insertion sort with `≤` on the key is the stable sort. -/
def sortByArrival (l : List Process) : List Process :=
  List.insertionSort arrivalLE l

/-- Mirrors `min(p.arrival_time for p in remaining_processes)` over a nonempty list (the value
on `[]` is junk, the algorithms only evaluate it with a nonempty argument). -/
def minArrivalTime : List Process → Int
  | [] => 0
  | p :: rest => rest.foldl (fun a q => min a q.arrival_time) p.arrival_time

/-- Mirrors `max(p.completion_time for p in processes)` over a nonempty list (junk on `[]`). -/
def maxCompletionTime : List Process → Int
  | [] => 0
  | p :: rest => rest.foldl (fun a q => max a q.completion_time) p.completion_time

/-- Minimum of the keys of a nonempty list (junk on `[]`): the value Python's
`min(available, key=key)` minimises. -/
def minKeyVal (key : Process → Int) : List Process → Int
  | [] => 0
  | p :: rest => rest.foldl (fun a q => min a (key q)) (key p)

/-- Index, into the full list, of the object Python's `min(available, key=key)` returns, where
`available = [p for p in l if ok p]`: the first `ok` element whose key attains the minimum key
over `available` (Python's `min` keeps the earliest element on ties).  `none` when no element
satisfies `ok`, which is exactly the `if not available_processes` branch of the source. -/
def pyMinIdx (key : Process → Int) (ok : Process → Bool) (l : List Process) : Option Nat :=
  match l.filter ok with
  | [] => none
  | q :: qs => l.findIdx? (fun p => ok p && key p == minKeyVal key (q :: qs))

/-- Mirrors the `next_event_time = float('inf')` scan of src/algorithms.py lines 196-199 and
296-300: least arrival time strictly greater than `current_time`, `none` when there is none. -/
def nextArrivalAfter (current_time : Int) (l : List Process) : Option Int :=
  l.foldl
    (fun acc p =>
      if p.arrival_time > current_time then
        match acc with
        | none => some p.arrival_time
        | some a => if p.arrival_time < a then some p.arrival_time else acc
      else acc)
    none

/-- Mirrors the metric block shared by all algorithms (e.g. src/algorithms.py lines 57-62,
127-133): set `completion_time` to the clock and derive the three dependent metrics. -/
def finalizeProcess (p : Process) (current_time : Int) : Process :=
  let p := { p with completion_time := current_time }
  let p := { p with turnaround_time := p.completion_time - p.arrival_time }
  let p := { p with waiting_time := p.turnaround_time - p.burst_time }
  { p with response_time := p.start_time - p.arrival_time }

/-- Mirrors `if process.start_time == -1: process.start_time = current_time`. -/
def markStarted (p : Process) (current_time : Int) : Process :=
  if p.start_time = -1 then { p with start_time := current_time } else p

/-- Idle timeline dictionary (`'pid': None`) spanning `current_time` to `next_arrival`. -/
def idleSegment (current_time next_arrival : Int) : Segment :=
  { pid := none, start_time := current_time, end_time := next_arrival,
    duration := next_arrival - current_time }

/-- Busy timeline dictionary for `pid` spanning `current_time` to
`current_time + execution_time`. -/
def busySegment (pid current_time execution_time : Int) : Segment :=
  { pid := some pid, start_time := current_time, end_time := current_time + execution_time,
    duration := execution_time }

/-- Accumulator of the `for process in processes` loop of `fcfs`
(src/algorithms.py lines 23-62). -/
structure FcfsAcc where
  current_time : Int
  timeline : List Segment
  completed : List Process
deriving Repr, DecidableEq

/-- One iteration of the `fcfs` for-loop (src/algorithms.py lines 26-62): emit the idle gap
(suppressed while the clock is still 0), dispatch, run to completion, finalize. -/
def fcfsStep (acc : FcfsAcc) (process : Process) : FcfsAcc :=
  let acc :=
    if acc.current_time < process.arrival_time then
      { acc with
        timeline :=
          if acc.current_time > 0 then
            acc.timeline ++ [idleSegment acc.current_time process.arrival_time]
          else acc.timeline,
        current_time := process.arrival_time }
    else acc
  let process := markStarted process acc.current_time
  let (execution_time, process) := process.execute none
  let timeline := acc.timeline ++ [busySegment process.pid acc.current_time execution_time]
  let current_time := acc.current_time + execution_time
  let process := finalizeProcess process current_time
  { current_time := current_time, timeline := timeline,
    completed := acc.completed ++ [process] }

/-- Mirrors `fcfs` (src/algorithms.py lines 5-64). -/
def fcfs (processes : List Process) : List Segment × List Process :=
  let processes := sortByArrival (processes.map copyProcess)
  let acc := processes.foldl fcfsStep { current_time := 0, timeline := [], completed := [] }
  (acc.timeline, acc.completed)

/-- State of the `while remaining_processes` loop of `sjf_non_preemptive`
(src/algorithms.py lines 84-137). -/
structure SjfNPState where
  current_time : Int
  remaining : List Process
  timeline : List Segment
  completed : List Process
deriving Repr, DecidableEq

/-- One iteration of the `sjf_non_preemptive` while-loop (src/algorithms.py lines 89-137);
only reached when `remaining` is nonempty. -/
def sjfNPStep (s : SjfNPState) : SjfNPState :=
  match pyMinIdx (fun p => p.burst_time) (fun p => decide (p.arrival_time ≤ s.current_time))
      s.remaining with
  | none =>
    let next_arrival := minArrivalTime s.remaining
    { s with
      timeline :=
        if s.current_time < next_arrival then s.timeline ++ [idleSegment s.current_time next_arrival]
        else s.timeline,
      current_time := next_arrival }
  | some i =>
    let selected := s.remaining.getD i dummyProcess
    let selected := markStarted selected s.current_time
    let (execution_time, selected) := selected.execute none
    let timeline := s.timeline ++ [busySegment selected.pid s.current_time execution_time]
    let current_time := s.current_time + execution_time
    let selected := finalizeProcess selected current_time
    { current_time := current_time, remaining := s.remaining.eraseIdx i,
      timeline := timeline, completed := s.completed ++ [selected] }

/-- Fuel-indexed iteration of `sjfNPStep` with the source's `while remaining_processes` exit
condition. -/
def sjfNPLoop : Nat → SjfNPState → Option SjfNPState
  | 0, _ => none
  | fuel + 1, s => if s.remaining = [] then some s else sjfNPLoop fuel (sjfNPStep s)

/-- Mirrors `sjf_non_preemptive` (src/algorithms.py lines 66-139).  The fuel `3*n + 1` exceeds
the loop's measure (each iteration removes a process or turns at least one of the at most `n`
not-yet-arrived processes into an arrived one). -/
def sjf_non_preemptive (processes : List Process) : Option (List Segment × List Process) :=
  let processes := sortByArrival (processes.map copyProcess)
  match sjfNPLoop (3 * processes.length + 1)
      { current_time := 0, remaining := processes, timeline := [], completed := [] } with
  | none => none
  | some s => some (s.timeline, s.completed)

/-- State of the `while remaining_processes` loop of `sjf_preemptive`
(src/algorithms.py lines 159-233).  `current` is the index in `remaining` of the
`current_process` object (`none` models `current_process = None`); the index is stable because
the list is only ever shrunk in the same step that resets `current` to `none`. -/
structure SrtfState where
  current_time : Int
  remaining : List Process
  current : Option Nat
  timeline : List Segment
  completed : List Process
deriving Repr, DecidableEq

/-- One iteration of the `sjf_preemptive` while-loop (src/algorithms.py lines 167-232); only
reached when `remaining` is nonempty. -/
def srtfStep (s : SrtfState) : SrtfState :=
  match pyMinIdx (fun p => p.remaining_time) (fun p => decide (p.arrival_time ≤ s.current_time))
      s.remaining with
  | none =>
    let next_arrival := minArrivalTime s.remaining
    { s with
      timeline :=
        if s.current_time < next_arrival then s.timeline ++ [idleSegment s.current_time next_arrival]
        else s.timeline,
      current_time := next_arrival, current := none }
  | some i =>
    let selected := s.remaining.getD i dummyProcess
    let selected := if s.current ≠ some i then markStarted selected s.current_time else selected
    let execution_time :=
      match nextArrivalAfter s.current_time s.remaining with
      | none => selected.remaining_time
      | some next_event_time => min selected.remaining_time (next_event_time - s.current_time)
    let selected := { selected with remaining_time := selected.remaining_time - execution_time }
    let timeline := s.timeline ++ [busySegment selected.pid s.current_time execution_time]
    let current_time := s.current_time + execution_time
    if selected.remaining_time = 0 then
      { current_time := current_time, remaining := s.remaining.eraseIdx i, current := none,
        timeline := timeline, completed := s.completed ++ [finalizeProcess selected current_time] }
    else
      { current_time := current_time, remaining := s.remaining.set i selected, current := some i,
        timeline := timeline, completed := s.completed }

/-- Fuel-indexed iteration of `srtfStep` with the source's exit condition. -/
def srtfLoop : Nat → SrtfState → Option SrtfState
  | 0, _ => none
  | fuel + 1, s => if s.remaining = [] then some s else srtfLoop fuel (srtfStep s)

/-- Mirrors `sjf_preemptive` (src/algorithms.py lines 141-234). -/
def sjf_preemptive (processes : List Process) : Option (List Segment × List Process) :=
  let processes := sortByArrival (processes.map copyProcess)
  match srtfLoop (3 * processes.length + 1)
      { current_time := 0, remaining := processes, current := none,
        timeline := [], completed := [] } with
  | none => none
  | some s => some (s.timeline, s.completed)

/-- State of the `while remaining_processes` loop of `priority_scheduling`
(src/algorithms.py lines 255-337); same shape as `SrtfState`. -/
structure PrioState where
  current_time : Int
  remaining : List Process
  current : Option Nat
  timeline : List Segment
  completed : List Process
deriving Repr, DecidableEq

/-- One iteration of the `priority_scheduling` while-loop (src/algorithms.py lines 263-336);
only reached when `remaining` is nonempty. -/
def prioStep (preemptive : Bool) (s : PrioState) : PrioState :=
  match pyMinIdx (fun p => p.priority) (fun p => decide (p.arrival_time ≤ s.current_time))
      s.remaining with
  | none =>
    let next_arrival := minArrivalTime s.remaining
    { s with
      timeline :=
        if s.current_time < next_arrival then s.timeline ++ [idleSegment s.current_time next_arrival]
        else s.timeline,
      current_time := next_arrival, current := none }
  | some i0 =>
    let i :=
      match s.current with
      | some c =>
        if ¬preemptive ∧ (s.remaining.getD c dummyProcess).arrival_time ≤ s.current_time then c
        else i0
      | none => i0
    let selected := s.remaining.getD i dummyProcess
    let selected := if s.current ≠ some i then markStarted selected s.current_time else selected
    let execution_time :=
      if preemptive then
        match nextArrivalAfter s.current_time s.remaining with
        | none => selected.remaining_time
        | some next_event_time => min selected.remaining_time (next_event_time - s.current_time)
      else selected.remaining_time
    let selected := { selected with remaining_time := selected.remaining_time - execution_time }
    let timeline := s.timeline ++ [busySegment selected.pid s.current_time execution_time]
    let current_time := s.current_time + execution_time
    if selected.remaining_time = 0 then
      { current_time := current_time, remaining := s.remaining.eraseIdx i, current := none,
        timeline := timeline, completed := s.completed ++ [finalizeProcess selected current_time] }
    else
      { current_time := current_time, remaining := s.remaining.set i selected, current := some i,
        timeline := timeline, completed := s.completed }

/-- Fuel-indexed iteration of `prioStep` with the source's exit condition. -/
def prioLoop (preemptive : Bool) : Nat → PrioState → Option PrioState
  | 0, _ => none
  | fuel + 1, s => if s.remaining = [] then some s else prioLoop preemptive fuel (prioStep preemptive s)

/-- Mirrors `priority_scheduling` (src/algorithms.py lines 236-338). -/
def priority_scheduling (processes : List Process) (preemptive : Bool) :
    Option (List Segment × List Process) :=
  let processes := sortByArrival (processes.map copyProcess)
  match prioLoop preemptive (3 * processes.length + 1)
      { current_time := 0, remaining := processes, current := none,
        timeline := [], completed := [] } with
  | none => none
  | some s => some (s.timeline, s.completed)

/-- State of the `while remaining_processes or ready_queue` loop of `round_robin`
(src/algorithms.py lines 359-425). -/
structure RRState where
  current_time : Int
  remaining : List Process
  ready_queue : List Process
  timeline : List Segment
  completed : List Process
deriving Repr, DecidableEq

/-- Mirrors the admission loops of `round_robin` (src/algorithms.py lines 373-374 and 413-414):
pop arrived processes off the front of `remaining` onto the back of `ready_queue`. -/
def admitArrived (current_time : Int) : List Process → List Process → List Process × List Process
  | [], queue => ([], queue)
  | p :: rest, queue =>
    if p.arrival_time ≤ current_time then admitArrived current_time rest (queue ++ [p])
    else (p :: rest, queue)

/-- One iteration of the `round_robin` while-loop (src/algorithms.py lines 371-424); only
reached when `remaining` or `ready_queue` is nonempty.  The unreachable sub-case (empty queue
after admission and empty `remaining`) leaves the state unchanged, exactly as the source's
`continue` would loop forever there. -/
def rrStep (time_quantum : Int) (s : RRState) : RRState :=
  let (remaining, ready_queue) := admitArrived s.current_time s.remaining s.ready_queue
  match ready_queue with
  | [] =>
    match remaining with
    | [] => { s with remaining := remaining, ready_queue := ready_queue }
    | q :: rest =>
      let next_arrival := q.arrival_time
      { current_time := next_arrival, remaining := q :: rest, ready_queue := [],
        timeline :=
          if s.current_time < next_arrival then s.timeline ++ [idleSegment s.current_time next_arrival]
          else s.timeline,
        completed := s.completed }
  | process :: queue_rest =>
    let process := markStarted process s.current_time
    let execution_time := min time_quantum process.remaining_time
    let process := { process with remaining_time := process.remaining_time - execution_time }
    let timeline := s.timeline ++ [busySegment process.pid s.current_time execution_time]
    let current_time := s.current_time + execution_time
    let (remaining, ready_queue) := admitArrived current_time remaining queue_rest
    if process.remaining_time > 0 then
      { current_time := current_time, remaining := remaining,
        ready_queue := ready_queue ++ [process], timeline := timeline, completed := s.completed }
    else
      { current_time := current_time, remaining := remaining, ready_queue := ready_queue,
        timeline := timeline, completed := s.completed ++ [finalizeProcess process current_time] }

/-- Fuel-indexed iteration of `rrStep` with the source's exit condition. -/
def rrLoop (time_quantum : Int) : Nat → RRState → Option RRState
  | 0, _ => none
  | fuel + 1, s =>
    if s.remaining = [] ∧ s.ready_queue = [] then some s
    else rrLoop time_quantum fuel (rrStep time_quantum s)

/-- Total remaining work of a process list, used only to size the round-robin fuel. -/
def sumRemainingNat (l : List Process) : Nat :=
  l.foldl (fun a p => a + p.remaining_time.toNat) 0

/-- Mirrors `round_robin` (src/algorithms.py lines 340-426), including the clock being
initialized to the earliest arrival (lines 368-369).  The fuel dominates the loop measure for
any positive quantum; a non-positive quantum makes the loop spin without progress and the
wrapper returns `none`. -/
def round_robin (processes : List Process) (time_quantum : Int) :
    Option (List Segment × List Process) :=
  let processes := sortByArrival (processes.map copyProcess)
  let current_time := match processes with | [] => 0 | p :: _ => p.arrival_time
  match rrLoop time_quantum (2 * processes.length + 2 * sumRemainingNat processes + 2)
      { current_time := current_time, remaining := processes, ready_queue := [],
        timeline := [], completed := [] } with
  | none => none
  | some s => some (s.timeline, s.completed)

/-- Mirrors the metrics dictionary returned by `calculate_metrics` (src/metrics.py). -/
structure SchedMetrics where
  avg_turnaround_time : ℚ
  avg_waiting_time : ℚ
  avg_response_time : ℚ
  cpu_utilization : ℚ
  throughput : ℚ
deriving Repr, DecidableEq

/-- Mirrors `calculate_metrics` (src/metrics.py lines 4-53); Python's float division is
modelled exactly over `ℚ`. -/
def calculate_metrics (processes : List Process) : SchedMetrics :=
  if processes = [] then
    { avg_turnaround_time := 0, avg_waiting_time := 0, avg_response_time := 0,
      cpu_utilization := 0, throughput := 0 }
  else
    let total_turnaround_time := (processes.map (fun p => p.turnaround_time)).sum
    let total_waiting_time := (processes.map (fun p => p.waiting_time)).sum
    let total_response_time := (processes.map (fun p => p.response_time)).sum
    let total_burst_time := (processes.map (fun p => p.burst_time)).sum
    let total_time := maxCompletionTime processes - minArrivalTime processes
    let cpu_utilization : ℚ :=
      if total_time > 0 then ((total_burst_time : ℚ) / (total_time : ℚ)) * 100 else 0
    let throughput : ℚ :=
      if total_time > 0 then ((processes.length : ℚ) / (total_time : ℚ)) else 0
    let n := processes.length
    { avg_turnaround_time := (total_turnaround_time : ℚ) / (n : ℚ),
      avg_waiting_time := (total_waiting_time : ℚ) / (n : ℚ),
      avg_response_time := (total_response_time : ℚ) / (n : ℚ),
      cpu_utilization := cpu_utilization, throughput := throughput }

/-- Sum of the `duration` fields of a timeline. -/
def sumDur (tl : List Segment) : Int := (tl.map (fun seg => seg.duration)).sum

/-- Busy segments of a timeline carrying a given process id. -/
def pidSegs (tl : List Segment) (pid : Int) : List Segment :=
  tl.filter (fun seg => seg.pid == some pid)

/-- Total duration a timeline charges to a given process id. -/
def pidDurSum (tl : List Segment) (pid : Int) : Int :=
  ((pidSegs tl pid).map (fun seg => seg.duration)).sum

/-- Immutable part of a process record: the quadruple the defensive copy keeps. -/
def quadOf (p : Process) : Int × Int × Int × Int :=
  (p.pid, p.arrival_time, p.burst_time, p.priority)

/-- Valid input in the sense of the specification: positive burst, non-negative arrival. -/
def ValidInput (l : List Process) : Prop :=
  ∀ p ∈ l, 1 ≤ p.burst_time ∧ 0 ≤ p.arrival_time

/-- Ghost record of one busy-branch decision of the `sjf_preemptive` loop: the clock, the
remaining list and `current_process` index as the selection saw them, and the index the
selection returned. -/
structure Decision where
  clock : Int
  remaining : List Process
  current : Option Nat
  selected : Nat
deriving Repr, DecidableEq

/-- The `srtfLoop` iteration instrumented to log every selection the loop performs; the
state evolution is `srtfStep` unchanged. -/
def srtfLoopT : Nat → SrtfState → List Decision → Option (SrtfState × List Decision)
  | 0, _, _ => none
  | fuel + 1, s, ds =>
    if s.remaining = [] then some (s, ds)
    else
      let ds :=
        match pyMinIdx (fun p => p.remaining_time)
            (fun p => decide (p.arrival_time ≤ s.current_time)) s.remaining with
        | none => ds
        | some i =>
          ds ++ [{ clock := s.current_time, remaining := s.remaining,
                   current := s.current, selected := i }]
      srtfLoopT fuel (srtfStep s) ds

/-- The selections performed by a run of `sjf_preemptive` on the given input. -/
def sjf_preemptive_decisions (processes : List Process) : Option (List Decision) :=
  let processes := sortByArrival (processes.map copyProcess)
  match srtfLoopT (3 * processes.length + 1)
      { current_time := 0, remaining := processes, current := none,
        timeline := [], completed := [] } [] with
  | none => none
  | some (_, ds) => some ds

/-- Process at index `j` of a decision's remaining list. -/
def Decision.proc (d : Decision) (j : Nat) : Process := d.remaining.getD j dummyProcess

/-- Index `j` is an available (arrived, not completed) process at decision `d`. -/
def Decision.avail (d : Decision) (j : Nat) : Prop :=
  j < d.remaining.length ∧ (d.proc j).arrival_time ≤ d.clock

/-- The selection discipline claimed for `sjf_preemptive` at one decision point: the
remaining list is in arrival order; the selected index is available with minimal
`remaining_time` among available processes; it is the first such index (hence, among tied
minima, the earliest by arrival); and if the currently-running process is available and tied
for the minimum, it is the one retained. -/
def GoodDecision (d : Decision) : Prop :=
  List.Pairwise arrivalLE d.remaining ∧
  (d.avail d.selected ∧
    ∀ j, d.avail j → (d.proc d.selected).remaining_time ≤ (d.proc j).remaining_time) ∧
  (∀ j, j < d.selected → d.avail j →
    (d.proc d.selected).remaining_time < (d.proc j).remaining_time) ∧
  (∀ c, d.current = some c → d.avail c →
    (∀ j, d.avail j → (d.proc c).remaining_time ≤ (d.proc j).remaining_time) →
    d.selected = c)

/-- List ordered by non-decreasing arrival time (the arrival order the algorithms sort into). -/
def SortedByArrival (l : List Process) : Prop :=
  List.Pairwise arrivalLE l

/-- List ordered by non-decreasing completion time. -/
def SortedByCompletion (l : List Process) : Prop :=
  List.Pairwise (fun a b => a.completion_time ≤ b.completion_time) l

/-- The process state `round_robin` with `time_quantum = 0` produces after its first iteration
on the single process `Process.init 1 0 1 0`; every further iteration reproduces it unchanged. -/
def rrStuckProcess : Process :=
  { pid := 1, arrival_time := 0, burst_time := 1, priority := 0, remaining_time := 1,
    start_time := 0, completion_time := -1, waiting_time := -1, turnaround_time := -1,
    response_time := -1 }

/-- Loop state of the stuck zero-quantum round-robin run, parameterized by the timeline
accumulated so far. -/
def rrStuckState (tl : List Segment) : RRState :=
  { current_time := 0, remaining := [], ready_queue := [rrStuckProcess],
    timeline := tl, completed := [] }

/-- Initial loop state of `round_robin [Process.init 1 0 1 0] 0`. -/
def rrQ0InitState : RRState :=
  { current_time := 0, remaining := [Process.init 1 0 1 0], ready_queue := [],
    timeline := [], completed := [] }

/-- Concrete finalized process record (arrival 0, burst 3, completed at 3), used as a witness
input to the metrics aggregator. -/
def sampleDoneProcess : Process :=
  { pid := 1, arrival_time := 0, burst_time := 3, priority := 0, remaining_time := 0,
    start_time := 0, completion_time := 3, waiting_time := 0, turnaround_time := 3,
    response_time := 0 }

/-- Process ids of a list, in order. -/
def pidsOf (l : List Process) : List Int := l.map (fun p => p.pid)

/-- Loop invariant (non-preemptive): every waiting process is valid and still untouched
(`remaining_time = burst_time`, as set by the defensive copy and never decremented before the
single dispatch that completes it). -/
def ValRemNP (rem : List Process) : Prop :=
  ∀ p ∈ rem, 1 ≤ p.burst_time ∧ 0 ≤ p.arrival_time ∧ p.remaining_time = p.burst_time

/-- Loop invariant (preemptive): every waiting process still has positive remaining work and a
non-negative arrival time. -/
def ValRemP (rem : List Process) : Prop :=
  ∀ p ∈ rem, 1 ≤ p.remaining_time ∧ 0 ≤ p.arrival_time

/-- Every completed process finished no later than the clock. -/
def CompBound (comp : List Process) (t : Int) : Prop :=
  ∀ p ∈ comp, p.completion_time ≤ t

/-- The most recently completed process finished exactly at time `t`. -/
def LastCompAt (comp : List Process) (t : Int) : Prop :=
  ∃ front p, comp = front ++ [p] ∧ p.completion_time = t

/-- Timeline/process bookkeeping of the preemptive loops: work already charged to a pid plus
its remaining work equals its burst; completed pids are fully charged. -/
def PidAccount (tl : List Segment) (rem comp : List Process) : Prop :=
  (∀ q ∈ rem, pidDurSum tl q.pid + q.remaining_time = q.burst_time) ∧
  (∀ q ∈ comp, pidDurSum tl q.pid = q.burst_time)

/-- Timeline/process bookkeeping of the non-preemptive loops: waiting pids own no segment yet,
completed pids own exactly one segment, of duration their full burst. -/
def PidSegsNP (tl : List Segment) (rem comp : List Process) : Prop :=
  (∀ q ∈ rem, pidSegs tl q.pid = []) ∧
  (∀ q ∈ comp, (pidSegs tl q.pid).map (fun seg => seg.duration) = [q.burst_time])

/-! ## Theorems -/

/-- C5: round_robin with time_quantum = 2 on P1(arrival=0, burst=5), P2(arrival=1, burst=3)
produces exactly the timeline [P1: 0-2, P2: 2-4, P1: 4-6, P2: 6-7, P1: 7-8], with
P1.completion_time = 8 and P2.completion_time = 7. -/
theorem claim_C5_round_robin_example :
    (round_robin [Process.init 1 0 5 0, Process.init 2 1 3 0] 2).map
        (fun r => (r.1.map (fun seg => (seg.pid, seg.start_time, seg.end_time)),
                   r.2.map (fun p => (p.pid, p.completion_time)))) =
      some ([(some 1, 0, 2), (some 2, 2, 4), (some 1, 4, 6), (some 2, 6, 7), (some 1, 7, 8)],
            [(2, 7), (1, 8)]) := by
  rfl

/-- C2 (failing input): no algorithm validates its input.  `fcfs` accepts a process with
negative burst time and, far from failing with an InvalidProcess error, returns a timeline
segment of negative duration and a completion time before the arrival time. -/
theorem claim_C2_no_invalid_process_error :
    fcfs [Process.init 1 0 (-3) 0] =
      ([{ pid := some 1, start_time := 0, end_time := -3, duration := -3 }],
       [{ pid := 1, arrival_time := 0, burst_time := -3, priority := 0, remaining_time := 0,
          start_time := 0, completion_time := -3, waiting_time := 0, turnaround_time := -3,
          response_time := 0 }]) := by
  rfl

/-- Helper for C3: with `time_quantum = 0` the round-robin loop reproduces its state (up to a
growing timeline of zero-length segments) forever, so it exhausts any fuel. -/
theorem rrLoop_zero_quantum_stuck (fuel : Nat) :
    ∀ tl, rrLoop 0 fuel (rrStuckState tl) = none := by
  induction fuel with
  | zero => intro tl; rfl
  | succ n ih =>
    intro tl
    have hstep : rrStep 0 (rrStuckState tl) = rrStuckState (tl ++ [busySegment 1 0 0]) := rfl
    have h2 : rrLoop 0 (n + 1) (rrStuckState tl) =
        rrLoop 0 n (rrStuckState (tl ++ [busySegment 1 0 0])) := by
      rw [rrLoop, if_neg (by simp [rrStuckState]), hstep]
    rw [h2, ih]

/-- C3 (failing input): round_robin called with the non-positive time quantum 0 on a single
unit-burst process does not fail with an InvalidParameter error; instead the source loop makes
zero progress forever (the process is popped, runs for min(0, 1) = 0 time and is re-queued, the
clock never advancing).  In the embedding the loop exhausts every fuel, so the wrapper returns
none. -/
theorem claim_C3_no_invalid_parameter_error :
    round_robin [Process.init 1 0 1 0] 0 = none ∧
      ∀ fuel, rrLoop 0 fuel rrQ0InitState = none := by
  constructor
  · rfl
  · intro fuel
    cases fuel with
    | zero => rfl
    | succ n =>
      have hstep : rrStep 0 rrQ0InitState = rrStuckState [busySegment 1 0 0] := rfl
      rw [rrLoop, if_neg (by simp [rrQ0InitState]), hstep, rrLoop_zero_quantum_stuck]

/-- C7: every algorithm begins by rebuilding its working set from the immutable quadruple
(pid, arrival_time, burst_time, priority) of each input process (the defensive copy of
src/algorithms.py lines 18, 79, 154, 250, 353-354), and the embedding is pure, so a run can
never alter the caller's records.  The content of the defensive copy is captured as: any two
input lists that agree on those quadruples — in particular a fresh list and the same list after
arbitrary mutation of remaining_time/start_time/completion_time and the derived fields by
earlier runs — produce identical results under every algorithm, so one input list can be
replayed under all algorithms. -/
theorem claim_C7_no_mutation_replayable (ps qs : List Process)
    (h : ps.map copyProcess = qs.map copyProcess) :
    fcfs ps = fcfs qs ∧
    sjf_non_preemptive ps = sjf_non_preemptive qs ∧
    sjf_preemptive ps = sjf_preemptive qs ∧
    (∀ preemptive, priority_scheduling ps preemptive = priority_scheduling qs preemptive) ∧
    (∀ time_quantum, round_robin ps time_quantum = round_robin qs time_quantum) := by
  refine ⟨?_, ?_, ?_, fun preemptive => ?_, fun time_quantum => ?_⟩
  · unfold fcfs; rw [h]
  · unfold sjf_non_preemptive; rw [h]
  · unfold sjf_preemptive; rw [h]
  · unfold priority_scheduling; rw [h]
  · unfold round_robin; rw [h]

/-- Witness for C7 at a concrete input: a fresh process list and the same list after its
lifecycle fields were overwritten by a previous run agree under every algorithm. -/
theorem claim_C7_no_mutation_replayable_witness :
    ([Process.init 1 0 2 0, Process.init 2 1 4 1].map copyProcess =
      [{ pid := 1, arrival_time := 0, burst_time := 2, priority := 0, remaining_time := 0,
         start_time := 0, completion_time := 2, waiting_time := 0, turnaround_time := 2,
         response_time := 0 },
       { pid := 2, arrival_time := 1, burst_time := 4, priority := 1, remaining_time := 0,
         start_time := 2, completion_time := 6, waiting_time := 1, turnaround_time := 5,
         response_time := 1 }].map copyProcess) ∧
    fcfs [Process.init 1 0 2 0, Process.init 2 1 4 1] =
      fcfs [{ pid := 1, arrival_time := 0, burst_time := 2, priority := 0, remaining_time := 0,
              start_time := 0, completion_time := 2, waiting_time := 0, turnaround_time := 2,
              response_time := 0 },
            { pid := 2, arrival_time := 1, burst_time := 4, priority := 1, remaining_time := 0,
              start_time := 2, completion_time := 6, waiting_time := 1, turnaround_time := 5,
              response_time := 1 }] := by
  refine ⟨by rfl, ?_⟩
  exact (claim_C7_no_mutation_replayable _ _ (by rfl)).1

/-- C8: every algorithm and the metrics aggregator are pure functions of their arguments in
the embedding (the source keeps no state between calls), so two calls on equal inputs return
identical timelines, identical finalized records and identical metrics. -/
theorem claim_C8_deterministic (ps qs : List Process) (h : ps = qs) :
    (fcfs ps = fcfs qs ∧ calculate_metrics (fcfs ps).2 = calculate_metrics (fcfs qs).2) ∧
    (sjf_non_preemptive ps = sjf_non_preemptive qs ∧
      (sjf_non_preemptive ps).map (fun r => calculate_metrics r.2) =
        (sjf_non_preemptive qs).map (fun r => calculate_metrics r.2)) ∧
    (sjf_preemptive ps = sjf_preemptive qs ∧
      (sjf_preemptive ps).map (fun r => calculate_metrics r.2) =
        (sjf_preemptive qs).map (fun r => calculate_metrics r.2)) ∧
    (∀ preemptive, priority_scheduling ps preemptive = priority_scheduling qs preemptive ∧
      (priority_scheduling ps preemptive).map (fun r => calculate_metrics r.2) =
        (priority_scheduling qs preemptive).map (fun r => calculate_metrics r.2)) ∧
    (∀ time_quantum, round_robin ps time_quantum = round_robin qs time_quantum ∧
      (round_robin ps time_quantum).map (fun r => calculate_metrics r.2) =
        (round_robin qs time_quantum).map (fun r => calculate_metrics r.2)) := by
  subst h
  exact ⟨⟨rfl, rfl⟩, ⟨rfl, rfl⟩, ⟨rfl, rfl⟩, fun _ => ⟨rfl, rfl⟩, fun _ => ⟨rfl, rfl⟩⟩

/-- Witness for C8 at a concrete input. -/
theorem claim_C8_deterministic_witness :
    fcfs [Process.init 1 0 3 0] = fcfs [Process.init 1 0 3 0] ∧
      calculate_metrics (fcfs [Process.init 1 0 3 0]).2 =
        calculate_metrics (fcfs [Process.init 1 0 3 0]).2 :=
  (claim_C8_deterministic [Process.init 1 0 3 0] [Process.init 1 0 3 0] rfl).1

/-- C9: calculate_metrics on the empty list returns the all-zero record (src/metrics.py lines
14-21) without failing, and on a nonempty list computes cpu_utilization and throughput by the
guarded formulas over max completion_time - min arrival_time, each 0 when that denominator is
not positive. -/
theorem claim_C9_metrics_formulas :
    calculate_metrics [] =
      { avg_turnaround_time := 0, avg_waiting_time := 0, avg_response_time := 0,
        cpu_utilization := 0, throughput := 0 } ∧
    ∀ ps : List Process, ps ≠ [] →
      (calculate_metrics ps).cpu_utilization =
        (if maxCompletionTime ps - minArrivalTime ps > 0 then
          ((((ps.map (fun p => p.burst_time)).sum : Int) : ℚ) /
            ((maxCompletionTime ps - minArrivalTime ps : Int) : ℚ)) * 100
        else 0) ∧
      (calculate_metrics ps).throughput =
        (if maxCompletionTime ps - minArrivalTime ps > 0 then
          ((ps.length : ℚ) / ((maxCompletionTime ps - minArrivalTime ps : Int) : ℚ))
        else 0) := by
  refine ⟨rfl, fun ps h => ?_⟩
  rw [calculate_metrics, if_neg h]
  exact ⟨rfl, rfl⟩

/-- Witness for C9 at a concrete nonempty input (denominator 3, utilization 100, throughput
1/3). -/
theorem claim_C9_metrics_formulas_witness :
    (calculate_metrics [sampleDoneProcess]).cpu_utilization =
      (if maxCompletionTime [sampleDoneProcess] - minArrivalTime [sampleDoneProcess] > 0 then
        (((([sampleDoneProcess].map (fun p => p.burst_time)).sum : Int) : ℚ) /
          ((maxCompletionTime [sampleDoneProcess] -
            minArrivalTime [sampleDoneProcess] : Int) : ℚ)) * 100
      else 0) :=
  ((claim_C9_metrics_formulas.2 [sampleDoneProcess] (by simp)).1)

/-! ### Field bookkeeping of the small process transformers -/

theorem markStarted_quad (p : Process) (t : Int) : quadOf (markStarted p t) = quadOf p := by
  unfold markStarted; split <;> rfl

theorem markStarted_remaining (p : Process) (t : Int) :
    (markStarted p t).remaining_time = p.remaining_time := by
  unfold markStarted; split <;> rfl

theorem markStarted_pid (p : Process) (t : Int) : (markStarted p t).pid = p.pid := by
  unfold markStarted; split <;> rfl

theorem markStarted_arrival (p : Process) (t : Int) :
    (markStarted p t).arrival_time = p.arrival_time := by
  unfold markStarted; split <;> rfl

theorem markStarted_burst (p : Process) (t : Int) :
    (markStarted p t).burst_time = p.burst_time := by
  unfold markStarted; split <;> rfl

theorem finalizeProcess_quad (p : Process) (t : Int) :
    quadOf (finalizeProcess p t) = quadOf p := rfl

theorem finalizeProcess_completion (p : Process) (t : Int) :
    (finalizeProcess p t).completion_time = t := rfl

theorem finalizeProcess_pid (p : Process) (t : Int) : (finalizeProcess p t).pid = p.pid := rfl

theorem finalizeProcess_burst (p : Process) (t : Int) :
    (finalizeProcess p t).burst_time = p.burst_time := rfl

/-! ### Sums of segment durations -/

theorem sumDur_append (tl tl' : List Segment) : sumDur (tl ++ tl') = sumDur tl + sumDur tl' := by
  simp [sumDur]

theorem sumDur_idle (a b : Int) : sumDur [idleSegment a b] = b - a := by
  simp [sumDur, idleSegment]

theorem sumDur_busy (pid a e : Int) : sumDur [busySegment pid a e] = e := by
  simp [sumDur, busySegment]

theorem pidSegs_append (tl tl' : List Segment) (pid : Int) :
    pidSegs (tl ++ tl') pid = pidSegs tl pid ++ pidSegs tl' pid := by
  simp [pidSegs]

theorem pidSegs_idle (a b : Int) (pid : Int) : pidSegs [idleSegment a b] pid = [] := by
  simp [pidSegs, idleSegment]

theorem pidSegs_busy_self (pid a e : Int) :
    pidSegs [busySegment pid a e] pid = [busySegment pid a e] := by
  simp [pidSegs, busySegment]

theorem pidSegs_busy_ne (pid pid' a e : Int) (h : pid' ≠ pid) :
    pidSegs [busySegment pid' a e] pid = [] := by
  simp [pidSegs, busySegment, h]

theorem pidDurSum_append (tl tl' : List Segment) (pid : Int) :
    pidDurSum (tl ++ tl') pid = pidDurSum tl pid + pidDurSum tl' pid := by
  simp [pidDurSum, pidSegs_append]

theorem pidDurSum_idle (tl : List Segment) (a b : Int) (pid : Int) :
    pidDurSum (tl ++ [idleSegment a b]) pid = pidDurSum tl pid := by
  rw [pidDurSum_append]
  simp [pidDurSum, pidSegs_idle]

theorem pidDurSum_busy_self (tl : List Segment) (pid a e : Int) :
    pidDurSum (tl ++ [busySegment pid a e]) pid = pidDurSum tl pid + e := by
  rw [pidDurSum_append]
  have h : pidDurSum [busySegment pid a e] pid = e := by
    rw [pidDurSum, pidSegs_busy_self]
    simp [busySegment]
  rw [h]

theorem pidDurSum_busy_ne (tl : List Segment) (pid pid' a e : Int) (h : pid' ≠ pid) :
    pidDurSum (tl ++ [busySegment pid' a e]) pid = pidDurSum tl pid := by
  rw [pidDurSum_append]
  simp [pidDurSum, pidSegs_busy_ne _ _ _ _ h]

/-! ### Permutation of an indexed removal -/

theorem perm_getD_cons_eraseIdx :
    ∀ (l : List Process) (i : Nat), i < l.length →
      l.Perm (l.getD i dummyProcess :: l.eraseIdx i) := by
  intro l
  induction l with
  | nil => intro i hi; cases hi
  | cons p rest ih =>
    intro i hi
    cases i with
    | zero => simp
    | succ j =>
      have hj : j < rest.length := by simpa using hi
      have h1 : (p :: rest).Perm (p :: rest.getD j dummyProcess :: rest.eraseIdx j) :=
        (ih j hj).cons p
      have h2 := List.Perm.swap (rest.getD j dummyProcess) p (rest.eraseIdx j)
      have h3 : (p :: rest).Perm (rest.getD j dummyProcess :: p :: rest.eraseIdx j) :=
        h1.trans h2
      simpa using h3

/-! ### Fold-based minima and maxima -/

theorem foldl_min_le_init (key : Process → Int) :
    ∀ (l : List Process) (a : Int), l.foldl (fun x q => min x (key q)) a ≤ a := by
  intro l
  induction l with
  | nil => intro a; exact le_refl a
  | cons p rest ih =>
    intro a
    exact le_trans (ih (min a (key p))) (min_le_left _ _)

theorem foldl_min_le_mem (key : Process → Int) :
    ∀ (l : List Process) (a : Int) (p : Process), p ∈ l →
      l.foldl (fun x q => min x (key q)) a ≤ key p := by
  intro l
  induction l with
  | nil => intro a p hp; cases hp
  | cons q rest ih =>
    intro a p hp
    rcases List.mem_cons.mp hp with h | h
    · subst h; exact le_trans (foldl_min_le_init key rest _) (min_le_right _ _)
    · exact ih _ p h

theorem foldl_min_attained (key : Process → Int) :
    ∀ (l : List Process) (a : Int),
      l.foldl (fun x q => min x (key q)) a = a ∨
        ∃ p ∈ l, l.foldl (fun x q => min x (key q)) a = key p := by
  intro l
  induction l with
  | nil => intro a; exact Or.inl rfl
  | cons q rest ih =>
    intro a
    rcases ih (min a (key q)) with h | ⟨p, hp, h⟩
    · rcases le_total a (key q) with hle | hle
      · left; rw [List.foldl_cons, h, min_eq_left hle]
      · right; exact ⟨q, List.mem_cons_self q rest, by rw [List.foldl_cons, h, min_eq_right hle]⟩
    · right; exact ⟨p, List.mem_cons_of_mem q hp, by rw [List.foldl_cons, h]⟩

theorem foldl_max_ge_init :
    ∀ (l : List Process) (a : Int), a ≤ l.foldl (fun x q => max x q.completion_time) a := by
  intro l
  induction l with
  | nil => intro a; exact le_refl a
  | cons p rest ih =>
    intro a
    exact le_trans (le_max_left _ _) (ih (max a p.completion_time))

theorem foldl_max_ge_mem :
    ∀ (l : List Process) (a : Int) (p : Process), p ∈ l →
      p.completion_time ≤ l.foldl (fun x q => max x q.completion_time) a := by
  intro l
  induction l with
  | nil => intro a p hp; cases hp
  | cons q rest ih =>
    intro a p hp
    rcases List.mem_cons.mp hp with h | h
    · subst h; exact le_trans (le_max_right _ _) (foldl_max_ge_init rest _)
    · exact ih _ p h

theorem foldl_max_attained :
    ∀ (l : List Process) (a : Int),
      l.foldl (fun x q => max x q.completion_time) a = a ∨
        ∃ p ∈ l, l.foldl (fun x q => max x q.completion_time) a = p.completion_time := by
  intro l
  induction l with
  | nil => intro a; exact Or.inl rfl
  | cons q rest ih =>
    intro a
    rcases ih (max a q.completion_time) with h | ⟨p, hp, h⟩
    · rcases le_total a q.completion_time with hle | hle
      · right
        exact ⟨q, List.mem_cons_self q rest, by rw [List.foldl_cons, h, max_eq_right hle]⟩
      · left; rw [List.foldl_cons, h, max_eq_left hle]
    · right; exact ⟨p, List.mem_cons_of_mem q hp, by rw [List.foldl_cons, h]⟩

theorem minKeyVal_le (key : Process → Int) {l : List Process} {p : Process} (hp : p ∈ l) :
    minKeyVal key l ≤ key p := by
  cases l with
  | nil => cases hp
  | cons q rest =>
    rcases List.mem_cons.mp hp with h | h
    · subst h; exact foldl_min_le_init key rest _
    · exact foldl_min_le_mem key rest _ p h

theorem minKeyVal_attained (key : Process → Int) {l : List Process} (h : l ≠ []) :
    ∃ p ∈ l, key p = minKeyVal key l := by
  cases l with
  | nil => exact absurd rfl h
  | cons q rest =>
    rcases foldl_min_attained key rest (key q) with h1 | ⟨p, hp, h1⟩
    · exact ⟨q, List.mem_cons_self q rest, by rw [minKeyVal, h1]⟩
    · exact ⟨p, List.mem_cons_of_mem q hp, by rw [minKeyVal, h1]⟩

theorem minArrivalTime_eq_minKeyVal (l : List Process) :
    minArrivalTime l = minKeyVal (fun p => p.arrival_time) l := by
  cases l <;> rfl

theorem minArrivalTime_le {l : List Process} {p : Process} (hp : p ∈ l) :
    minArrivalTime l ≤ p.arrival_time := by
  rw [minArrivalTime_eq_minKeyVal]
  exact minKeyVal_le _ hp

theorem minArrivalTime_attained {l : List Process} (h : l ≠ []) :
    ∃ p ∈ l, p.arrival_time = minArrivalTime l := by
  rw [minArrivalTime_eq_minKeyVal]
  exact minKeyVal_attained _ h

theorem maxCompletionTime_ge {l : List Process} {p : Process} (hp : p ∈ l) :
    p.completion_time ≤ maxCompletionTime l := by
  cases l with
  | nil => cases hp
  | cons q rest =>
    rcases List.mem_cons.mp hp with h | h
    · subst h; exact foldl_max_ge_init rest _
    · exact foldl_max_ge_mem rest _ p h

theorem maxCompletionTime_le {l : List Process} {c : Int} (h : l ≠ [])
    (hall : ∀ p ∈ l, p.completion_time ≤ c) : maxCompletionTime l ≤ c := by
  cases l with
  | nil => exact absurd rfl h
  | cons q rest =>
    rcases foldl_max_attained rest q.completion_time with h1 | ⟨p, hp, h1⟩
    · rw [maxCompletionTime, h1]
      exact hall q (List.mem_cons_self q rest)
    · rw [maxCompletionTime, h1]
      exact hall p (List.mem_cons_of_mem q hp)

theorem maxCompletionTime_eq_of_bound_mem {l : List Process} {c : Int}
    (hall : ∀ p ∈ l, p.completion_time ≤ c) {p : Process} (hp : p ∈ l)
    (hpc : p.completion_time = c) : maxCompletionTime l = c := by
  have h1 : maxCompletionTime l ≤ c :=
    maxCompletionTime_le (by rintro rfl; cases hp) hall
  have h2 : c ≤ maxCompletionTime l := hpc ▸ maxCompletionTime_ge hp
  exact le_antisymm h1 h2

/-- Sorted lists have their head's arrival as the arrival minimum. -/
theorem minArrivalTime_sorted_head {p : Process} {rest : List Process}
    (hs : SortedByArrival (p :: rest)) : minArrivalTime (p :: rest) = p.arrival_time := by
  have hle : minArrivalTime (p :: rest) ≤ p.arrival_time :=
    minArrivalTime_le (List.mem_cons_self p rest)
  rcases minArrivalTime_attained (l := p :: rest) (by simp) with ⟨q, hq, hqa⟩
  rcases List.mem_cons.mp hq with h | h
  · subst h; exact hqa.symm ▸ rfl
  · have : p.arrival_time ≤ q.arrival_time := (List.pairwise_cons.mp hs).1 q h
    exact le_antisymm hle (hqa ▸ this)

/-! ### Characterization of the Python min-by-key selection -/

theorem pyMinIdx_eq_none_of_filter (key : Process → Int) (ok : Process → Bool)
    (l : List Process) (h : l.filter ok = []) : pyMinIdx key ok l = none := by
  unfold pyMinIdx
  rw [h]

theorem filter_eq_nil_of_pyMinIdx_none (key : Process → Int) (ok : Process → Bool)
    (l : List Process) (h : pyMinIdx key ok l = none) : l.filter ok = [] := by
  unfold pyMinIdx at h
  cases hf : l.filter ok with
  | nil => rfl
  | cons q qs =>
    rw [hf] at h
    exfalso
    rcases minKeyVal_attained key (l := q :: qs) (by simp) with ⟨p, hp, hkey⟩
    have hp2 : p ∈ l.filter ok := by rw [hf]; exact hp
    have hpl : p ∈ l := (List.mem_filter.mp hp2).1
    have hok : ok p = true := (List.mem_filter.mp hp2).2
    rw [List.findIdx?_eq_none_iff] at h
    have hx := h p hpl
    rw [hok] at hx
    simp [hkey] at hx

theorem pyMinIdx_spec (key : Process → Int) (ok : Process → Bool) (l : List Process) (i : Nat)
    (h : pyMinIdx key ok l = some i) :
    i < l.length ∧ ok (l.getD i dummyProcess) = true ∧
      (∀ p ∈ l, ok p = true → key (l.getD i dummyProcess) ≤ key p) ∧
      (∀ j, j < i → ok (l.getD j dummyProcess) = true →
        key (l.getD i dummyProcess) < key (l.getD j dummyProcess)) := by
  unfold pyMinIdx at h
  cases hf : l.filter ok with
  | nil => rw [hf] at h; cases h
  | cons q qs =>
    rw [hf] at h
    rw [List.findIdx?_eq_some_iff_getElem] at h
    obtain ⟨hlen, hpred, hbefore⟩ := h
    have hgetD : l.getD i dummyProcess = l[i] := by
      simp [List.getD_eq_getElem?_getD, List.getElem?_eq_getElem hlen]
    have hok : ok l[i] = true ∧ (key l[i] == minKeyVal key (q :: qs)) = true := by
      simpa [Bool.and_eq_true] using hpred
    have hkeyi : key l[i] = minKeyVal key (q :: qs) := by
      exact eq_of_beq hok.2
    have hmin : ∀ p ∈ l, ok p = true → minKeyVal key (q :: qs) ≤ key p := by
      intro p hpl hokp
      have hp2 : p ∈ l.filter ok := List.mem_filter.mpr ⟨hpl, hokp⟩
      rw [hf] at hp2
      exact minKeyVal_le key hp2
    refine ⟨hlen, by rw [hgetD]; exact hok.1, ?_, ?_⟩
    · intro p hpl hokp
      rw [hgetD, hkeyi]
      exact hmin p hpl hokp
    · intro j hj hokj
      have hjlen : j < l.length := lt_trans hj hlen
      have hgetDj : l.getD j dummyProcess = l[j] := by
        simp [List.getD_eq_getElem?_getD, List.getElem?_eq_getElem hjlen]
      have hnot := hbefore j hj
      rw [hgetDj] at hokj ⊢
      rw [hgetD, hkeyi]
      have hne : key l[j] ≠ minKeyVal key (q :: qs) := by
        intro heq
        apply hnot
        simp [hokj, heq]
      have hge : minKeyVal key (q :: qs) ≤ key l[j] :=
        hmin l[j] (List.getElem_mem hjlen) hokj
      exact lt_of_le_of_ne hge (fun hh => hne hh.symm)

/-! ### Characterization of the next-arrival scan -/


theorem nextArrivalAfter_go_none (t : Int) :
    ∀ (l : List Process) (acc : Option Int),
      l.foldl (fun acc p =>
        if p.arrival_time > t then
          match acc with
          | none => some p.arrival_time
          | some a => if p.arrival_time < a then some p.arrival_time else acc
        else acc) acc = none →
      acc = none ∧ ∀ p ∈ l, p.arrival_time ≤ t := by
  intro l
  induction l with
  | nil => intro acc h; exact ⟨h, by intro p hp; cases hp⟩
  | cons q rest ih =>
    intro acc h
    rw [List.foldl_cons] at h
    obtain ⟨h1, h2⟩ := ih _ h
    by_cases hq : q.arrival_time > t
    · exfalso
      rw [if_pos hq] at h1
      cases acc with
      | none => cases h1
      | some a =>
        by_cases hlt : q.arrival_time < a
        · simp only [if_pos hlt] at h1
          cases h1
        · simp only [if_neg hlt] at h1
          cases h1
    · rw [if_neg hq] at h1
      subst h1
      refine ⟨rfl, ?_⟩
      intro p hp
      rcases List.mem_cons.mp hp with hh | hh
      · subst hh; exact not_lt.mp hq
      · exact h2 p hh

theorem nextArrivalAfter_go_gt (t : Int) :
    ∀ (l : List Process) (acc : Option Int),
      (∀ a, acc = some a → t < a) →
      ∀ b, l.foldl (fun acc p =>
        if p.arrival_time > t then
          match acc with
          | none => some p.arrival_time
          | some a => if p.arrival_time < a then some p.arrival_time else acc
        else acc) acc = some b → t < b := by
  intro l
  induction l with
  | nil => intro acc hacc b h; exact hacc b h
  | cons q rest ih =>
    intro acc hacc b h
    rw [List.foldl_cons] at h
    refine ih _ ?_ b h
    intro a ha
    by_cases hq : q.arrival_time > t
    · rw [if_pos hq] at ha
      cases acc with
      | none =>
        cases ha
        exact hq
      | some c =>
        by_cases hlt : q.arrival_time < c
        · simp only [if_pos hlt] at ha
          cases ha
          exact hq
        · simp only [if_neg hlt] at ha
          cases ha
          exact hacc _ rfl
    · rw [if_neg hq] at ha
      exact hacc a ha

theorem nextArrivalAfter_go_le (t : Int) :
    ∀ (l : List Process) (acc : Option Int) (b : Int),
      l.foldl (fun acc p =>
        if p.arrival_time > t then
          match acc with
          | none => some p.arrival_time
          | some a => if p.arrival_time < a then some p.arrival_time else acc
        else acc) acc = some b →
      (∀ a, acc = some a → b ≤ a) ∧ (∀ p ∈ l, t < p.arrival_time → b ≤ p.arrival_time) := by
  intro l
  induction l with
  | nil =>
    intro acc b h
    refine ⟨?_, by intro p hp; cases hp⟩
    intro a ha
    rw [ha] at h
    cases h
    exact le_refl _
  | cons q rest ih =>
    intro acc b h
    rw [List.foldl_cons] at h
    obtain ⟨ih1, ih2⟩ := ih _ b h
    constructor
    · intro a ha
      subst ha
      by_cases hq : q.arrival_time > t
      · by_cases hlt : q.arrival_time < a
        · have := ih1 q.arrival_time (by simp [hq, hlt])
          exact le_trans this (le_of_lt hlt)
        · exact ih1 a (by simp [hq, hlt])
      · exact ih1 a (by simp [hq])
    · intro p hp hpt
      rcases List.mem_cons.mp hp with hh | hh
      · subst hh
        by_cases hq : p.arrival_time > t
        · cases acc with
          | none => exact ih1 p.arrival_time (by simp [hq])
          | some c =>
            by_cases hlt : p.arrival_time < c
            · exact ih1 p.arrival_time (by simp [hq, hlt])
            · have := ih1 c (by simp [hq, hlt])
              exact le_trans this (not_lt.mp hlt)
        · exact absurd hpt hq
      · exact ih2 p hh hpt

theorem nextArrivalAfter_go_attained (t : Int) :
    ∀ (l : List Process) (acc : Option Int) (b : Int),
      l.foldl (fun acc p =>
        if p.arrival_time > t then
          match acc with
          | none => some p.arrival_time
          | some a => if p.arrival_time < a then some p.arrival_time else acc
        else acc) acc = some b →
      acc = some b ∨ ∃ p ∈ l, p.arrival_time = b := by
  intro l
  induction l with
  | nil => intro acc b h; exact Or.inl h
  | cons q rest ih =>
    intro acc b h
    rw [List.foldl_cons] at h
    rcases ih _ b h with hacc | ⟨p, hp, hpb⟩
    · by_cases hq : q.arrival_time > t
      · rw [if_pos hq] at hacc
        cases acc with
        | none =>
          cases hacc
          exact Or.inr ⟨q, List.mem_cons_self q rest, rfl⟩
        | some c =>
          by_cases hlt : q.arrival_time < c
          · simp only [if_pos hlt] at hacc
            cases hacc
            exact Or.inr ⟨q, List.mem_cons_self q rest, rfl⟩
          · simp only [if_neg hlt] at hacc
            exact Or.inl hacc
      · rw [if_neg hq] at hacc
        exact Or.inl hacc
    · exact Or.inr ⟨p, List.mem_cons_of_mem q hp, hpb⟩

theorem nextArrivalAfter_go_isSome (t : Int) :
    ∀ (l : List Process) (acc : Option Int),
      ((∃ p ∈ l, t < p.arrival_time) ∨ ∃ a, acc = some a) →
      ∃ b, l.foldl (fun acc p =>
        if p.arrival_time > t then
          match acc with
          | none => some p.arrival_time
          | some a => if p.arrival_time < a then some p.arrival_time else acc
        else acc) acc = some b := by
  intro l
  induction l with
  | nil =>
    intro acc h
    rcases h with ⟨p, hp, _⟩ | ⟨a, ha⟩
    · cases hp
    · exact ⟨a, ha⟩
  | cons q rest ih =>
    intro acc h
    rw [List.foldl_cons]
    apply ih
    rcases h with ⟨p, hp, hpt⟩ | ⟨a, ha⟩
    · rcases List.mem_cons.mp hp with hh | hh
      · subst hh
        right
        rw [if_pos hpt]
        cases acc with
        | none => exact ⟨p.arrival_time, rfl⟩
        | some c =>
          by_cases hlt : p.arrival_time < c
          · exact ⟨p.arrival_time, by simp [hlt]⟩
          · exact ⟨c, by simp [hlt]⟩
      · exact Or.inl ⟨p, hh, hpt⟩
    · right
      subst ha
      by_cases hq : q.arrival_time > t
      · by_cases hlt : q.arrival_time < a
        · exact ⟨q.arrival_time, by simp [hq, hlt]⟩
        · exact ⟨a, by simp [hq, hlt]⟩
      · exact ⟨a, by simp [hq]⟩

theorem nextArrivalAfter_none (t : Int) (l : List Process)
    (h : nextArrivalAfter t l = none) : ∀ p ∈ l, p.arrival_time ≤ t :=
  (nextArrivalAfter_go_none t l none h).2

theorem nextArrivalAfter_some_gt (t : Int) (l : List Process) (b : Int)
    (h : nextArrivalAfter t l = some b) : t < b :=
  nextArrivalAfter_go_gt t l none (by intro a ha; cases ha) b h

theorem nextArrivalAfter_some_le (t : Int) (l : List Process) (b : Int)
    (h : nextArrivalAfter t l = some b) :
    ∀ p ∈ l, t < p.arrival_time → b ≤ p.arrival_time :=
  (nextArrivalAfter_go_le t l none b h).2

theorem nextArrivalAfter_some_attained (t : Int) (l : List Process) (b : Int)
    (h : nextArrivalAfter t l = some b) : ∃ p ∈ l, p.arrival_time = b := by
  rcases nextArrivalAfter_go_attained t l none b h with hacc | hh
  · cases hacc
  · exact hh

theorem nextArrivalAfter_isSome_of_mem (t : Int) (l : List Process) (p : Process)
    (hp : p ∈ l) (hpt : t < p.arrival_time) : ∃ b, nextArrivalAfter t l = some b :=
  nextArrivalAfter_go_isSome t l none (Or.inl ⟨p, hp, hpt⟩)

/-! ### Indexing helpers -/

theorem getD_eq_getElem {l : List Process} {i : Nat} (h : i < l.length) :
    l.getD i dummyProcess = l[i] := by
  simp [List.getD_eq_getElem?_getD, List.getElem?_eq_getElem h]

theorem getD_mem {l : List Process} {i : Nat} (h : i < l.length) :
    l.getD i dummyProcess ∈ l := by
  rw [getD_eq_getElem h]
  exact List.getElem_mem h

/-! ### The sjf_non_preemptive loop -/

theorem sjfNPStep_idle (s : SjfNPState)
    (h : pyMinIdx (fun p => p.burst_time)
      (fun p => decide (p.arrival_time ≤ s.current_time)) s.remaining = none) :
    sjfNPStep s =
      { s with
        current_time := minArrivalTime s.remaining,
        timeline :=
          if s.current_time < minArrivalTime s.remaining then
            s.timeline ++ [idleSegment s.current_time (minArrivalTime s.remaining)]
          else s.timeline } := by
  unfold sjfNPStep
  rw [h]

theorem quadOf_set_remaining (p : Process) (x : Int) :
    quadOf { p with remaining_time := x } = quadOf p := rfl

theorem sjfNPStep_busy_spec (s : SjfNPState) (i : Nat)
    (h : pyMinIdx (fun p => p.burst_time)
      (fun p => decide (p.arrival_time ≤ s.current_time)) s.remaining = some i) :
    (sjfNPStep s).current_time =
        s.current_time + (s.remaining.getD i dummyProcess).remaining_time ∧
    (sjfNPStep s).remaining = s.remaining.eraseIdx i ∧
    (sjfNPStep s).timeline = s.timeline ++
        [busySegment (s.remaining.getD i dummyProcess).pid s.current_time
          (s.remaining.getD i dummyProcess).remaining_time] ∧
    (sjfNPStep s).completed = s.completed ++
        [finalizeProcess
          { markStarted (s.remaining.getD i dummyProcess) s.current_time with
            remaining_time := 0 }
          (s.current_time + (s.remaining.getD i dummyProcess).remaining_time)] := by
  unfold sjfNPStep
  rw [h]
  refine ⟨?_, ?_, ?_, ?_⟩
  · simp [Process.execute, markStarted_remaining]
  · simp [Process.execute]
  · simp [Process.execute, markStarted_remaining, markStarted_pid]
  · simp [Process.execute, markStarted_remaining]

theorem sjfNPLoop_spec :
    ∀ (fuel : Nat) (s sF : SjfNPState),
      sjfNPLoop fuel s = some sF →
      ValRemNP s.remaining →
      CompBound s.completed s.current_time →
      (s.remaining = [] → s.completed = [] ∨ LastCompAt s.completed s.current_time) →
      SortedByCompletion s.completed →
      sF.remaining = [] ∧
      s.current_time ≤ sF.current_time ∧
      sumDur sF.timeline - sumDur s.timeline = sF.current_time - s.current_time ∧
      CompBound sF.completed sF.current_time ∧
      (sF.completed = [] ∨ LastCompAt sF.completed sF.current_time) ∧
      SortedByCompletion sF.completed ∧
      (sF.completed.map quadOf).Perm ((s.completed ++ s.remaining).map quadOf) := by
  intro fuel
  induction fuel with
  | zero => intro s sF h; cases h
  | succ n ih =>
    intro s sF h hval hcb hlast hsort
    rw [sjfNPLoop] at h
    by_cases hrem : s.remaining = []
    · rw [if_pos hrem] at h
      cases h
      refine ⟨hrem, le_refl _, by rw [sub_self, sub_self], hcb, hlast hrem, hsort, ?_⟩
      rw [hrem, List.append_nil]
    · rw [if_neg hrem] at h
      cases hsel : pyMinIdx (fun p => p.burst_time)
          (fun p => decide (p.arrival_time ≤ s.current_time)) s.remaining with
      | none =>
        have hstep := sjfNPStep_idle s hsel
        have hallgt : ∀ p ∈ s.remaining, s.current_time < p.arrival_time := by
          have hfilter := filter_eq_nil_of_pyMinIdx_none _ _ _ hsel
          intro p hp
          have := List.filter_eq_nil_iff.mp hfilter p hp
          simpa using this
        have hgt : s.current_time < minArrivalTime s.remaining := by
          rcases minArrivalTime_attained hrem with ⟨p, hp, hpa⟩
          rw [← hpa]
          exact hallgt p hp
        have hs' := ih (sjfNPStep s) sF h
        rw [hstep] at hs'
        have hout := hs' hval
          (by
            intro p hp
            exact le_trans (hcb p hp) (le_of_lt hgt))
          (by intro hcontra; exact absurd hcontra hrem)
          hsort
        obtain ⟨hf1, hf2, hf3, hf4, hf5, hf6, hf7⟩ := hout
        simp only [if_pos hgt] at hf2 hf3 hf7
        refine ⟨hf1, le_trans (le_of_lt hgt) hf2, ?_, hf4, hf5, hf6, hf7⟩
        rw [sumDur_append, sumDur_idle] at hf3
        omega
      | some i =>
        obtain ⟨hilen, hiok, himin, hifirst⟩ := pyMinIdx_spec _ _ _ _ hsel
        obtain ⟨hct, hrm, htl, hcomp⟩ := sjfNPStep_busy_spec s i hsel
        have hselmem : s.remaining.getD i dummyProcess ∈ s.remaining := getD_mem hilen
        obtain ⟨hburst, harr, hremeq⟩ := hval _ hselmem
        have hex : 1 ≤ (s.remaining.getD i dummyProcess).remaining_time := by
          rw [hremeq]; exact hburst
        have hcct : (finalizeProcess
            { markStarted (s.remaining.getD i dummyProcess) s.current_time with
              remaining_time := 0 }
            (s.current_time + (s.remaining.getD i dummyProcess).remaining_time)).completion_time =
            s.current_time + (s.remaining.getD i dummyProcess).remaining_time :=
          finalizeProcess_completion _ _
        have hcquad : quadOf (finalizeProcess
            { markStarted (s.remaining.getD i dummyProcess) s.current_time with
              remaining_time := 0 }
            (s.current_time + (s.remaining.getD i dummyProcess).remaining_time)) =
            quadOf (s.remaining.getD i dummyProcess) := by
          rw [finalizeProcess_quad, quadOf_set_remaining, markStarted_quad]
        have hs' := ih (sjfNPStep s) sF h
        rw [hct, hrm, htl, hcomp] at hs'
        have hout := hs'
          (by
            intro p hp
            exact hval p ((List.eraseIdx_sublist s.remaining i).subset hp))
          (by
            intro p hp
            rcases List.mem_append.mp hp with hh | hh
            · exact le_trans (hcb p hh) (by omega)
            · rw [List.mem_singleton.mp hh, hcct])
          (by
            intro _
            exact Or.inr ⟨s.completed, _, rfl, hcct⟩)
          (by
            rw [SortedByCompletion, List.pairwise_append]
            refine ⟨hsort, List.pairwise_singleton _ _, ?_⟩
            intro a ha b hb
            rw [List.mem_singleton.mp hb, hcct]
            exact le_trans (hcb a ha) (by omega))
        obtain ⟨hf1, hf2, hf3, hf4, hf5, hf6, hf7⟩ := hout
        refine ⟨hf1, by omega, ?_, hf4, hf5, hf6, ?_⟩
        · rw [sumDur_append, sumDur_busy] at hf3
          omega
        · refine hf7.trans ?_
          have hpermr : (s.remaining.map quadOf).Perm
              (quadOf (s.remaining.getD i dummyProcess) ::
                (s.remaining.eraseIdx i).map quadOf) :=
            (perm_getD_cons_eraseIdx s.remaining i hilen).map quadOf
          have hx1 : ((s.completed ++
              [finalizeProcess
                { markStarted (s.remaining.getD i dummyProcess) s.current_time with
                  remaining_time := 0 }
                (s.current_time + (s.remaining.getD i dummyProcess).remaining_time)]) ++
              s.remaining.eraseIdx i).map quadOf
              = s.completed.map quadOf ++
                (quadOf (finalizeProcess
                  { markStarted (s.remaining.getD i dummyProcess) s.current_time with
                    remaining_time := 0 }
                  (s.current_time + (s.remaining.getD i dummyProcess).remaining_time)) ::
                  (s.remaining.eraseIdx i).map quadOf) := by
            simp
          have hx2 : (s.completed ++ s.remaining).map quadOf =
              s.completed.map quadOf ++ s.remaining.map quadOf := by
            simp
          rw [hx1, hcquad, hx2]
          exact List.Perm.append_left _ hpermr.symm

/-! ### The sjf_preemptive loop -/

theorem map_quadOf_set :
    ∀ (l : List Process) (i : Nat) (a : Process), i < l.length →
      quadOf a = quadOf (l.getD i dummyProcess) → (l.set i a).map quadOf = l.map quadOf := by
  intro l
  induction l with
  | nil => intro i a h; cases h
  | cons p rest ih =>
    intro i a h hq
    cases i with
    | zero =>
      simp only [List.set, List.map_cons]
      rw [show quadOf a = quadOf p from hq]
    | succ j =>
      simp only [List.set, List.map_cons]
      rw [ih j a (by simpa using h) hq]

theorem srtfStep_idle (s : SrtfState)
    (h : pyMinIdx (fun p => p.remaining_time)
      (fun p => decide (p.arrival_time ≤ s.current_time)) s.remaining = none) :
    srtfStep s =
      { s with
        current_time := minArrivalTime s.remaining,
        current := none,
        timeline :=
          if s.current_time < minArrivalTime s.remaining then
            s.timeline ++ [idleSegment s.current_time (minArrivalTime s.remaining)]
          else s.timeline } := by
  unfold srtfStep
  rw [h]

theorem srtfStep_busy_eq (s : SrtfState) (i : Nat)
    (h : pyMinIdx (fun p => p.remaining_time)
      (fun p => decide (p.arrival_time ≤ s.current_time)) s.remaining = some i) :
    srtfStep s =
      (let M := if s.current ≠ some i then
          markStarted (s.remaining.getD i dummyProcess) s.current_time
        else s.remaining.getD i dummyProcess
      let E := match nextArrivalAfter s.current_time s.remaining with
        | none => M.remaining_time
        | some next_event_time => min M.remaining_time (next_event_time - s.current_time)
      if M.remaining_time - E = 0 then
        { current_time := s.current_time + E, remaining := s.remaining.eraseIdx i,
          current := none,
          timeline := s.timeline ++ [busySegment M.pid s.current_time E],
          completed := s.completed ++
            [finalizeProcess { M with remaining_time := M.remaining_time - E }
              (s.current_time + E)] }
      else
        { current_time := s.current_time + E,
          remaining := s.remaining.set i { M with remaining_time := M.remaining_time - E },
          current := some i,
          timeline := s.timeline ++ [busySegment M.pid s.current_time E],
          completed := s.completed }) := by
  unfold srtfStep
  rw [h]

theorem condMark_remaining (c : Prop) [Decidable c] (p : Process) (t : Int) :
    (if c then markStarted p t else p).remaining_time = p.remaining_time := by
  split
  · exact markStarted_remaining p t
  · rfl

theorem condMark_pid (c : Prop) [Decidable c] (p : Process) (t : Int) :
    (if c then markStarted p t else p).pid = p.pid := by
  split
  · exact markStarted_pid p t
  · rfl

theorem condMark_arrival (c : Prop) [Decidable c] (p : Process) (t : Int) :
    (if c then markStarted p t else p).arrival_time = p.arrival_time := by
  split
  · exact markStarted_arrival p t
  · rfl

theorem condMark_burst (c : Prop) [Decidable c] (p : Process) (t : Int) :
    (if c then markStarted p t else p).burst_time = p.burst_time := by
  split
  · exact markStarted_burst p t
  · rfl

theorem condMark_quad (c : Prop) [Decidable c] (p : Process) (t : Int) :
    quadOf (if c then markStarted p t else p) = quadOf p := by
  split
  · exact markStarted_quad p t
  · rfl

theorem srtfLoop_spec :
    ∀ (fuel : Nat) (s sF : SrtfState),
      srtfLoop fuel s = some sF →
      ValRemP s.remaining →
      CompBound s.completed s.current_time →
      (s.remaining = [] → s.completed = [] ∨ LastCompAt s.completed s.current_time) →
      SortedByCompletion s.completed →
      sF.remaining = [] ∧
      s.current_time ≤ sF.current_time ∧
      sumDur sF.timeline - sumDur s.timeline = sF.current_time - s.current_time ∧
      CompBound sF.completed sF.current_time ∧
      (sF.completed = [] ∨ LastCompAt sF.completed sF.current_time) ∧
      SortedByCompletion sF.completed ∧
      (sF.completed.map quadOf).Perm ((s.completed ++ s.remaining).map quadOf) := by
  intro fuel
  induction fuel with
  | zero => intro s sF h; cases h
  | succ n ih =>
    intro s sF h hval hcb hlast hsort
    rw [srtfLoop] at h
    by_cases hrem : s.remaining = []
    · rw [if_pos hrem] at h
      cases h
      refine ⟨hrem, le_refl _, by rw [sub_self, sub_self], hcb, hlast hrem, hsort, ?_⟩
      rw [hrem, List.append_nil]
    · rw [if_neg hrem] at h
      cases hsel : pyMinIdx (fun p => p.remaining_time)
          (fun p => decide (p.arrival_time ≤ s.current_time)) s.remaining with
      | none =>
        have hstep := srtfStep_idle s hsel
        have hallgt : ∀ p ∈ s.remaining, s.current_time < p.arrival_time := by
          have hfilter := filter_eq_nil_of_pyMinIdx_none _ _ _ hsel
          intro p hp
          have := List.filter_eq_nil_iff.mp hfilter p hp
          simpa using this
        have hgt : s.current_time < minArrivalTime s.remaining := by
          rcases minArrivalTime_attained hrem with ⟨p, hp, hpa⟩
          rw [← hpa]
          exact hallgt p hp
        have hs' := ih (srtfStep s) sF h
        rw [hstep] at hs'
        have hout := hs' hval
          (by
            intro p hp
            exact le_trans (hcb p hp) (le_of_lt hgt))
          (by intro hcontra; exact absurd hcontra hrem)
          hsort
        obtain ⟨hf1, hf2, hf3, hf4, hf5, hf6, hf7⟩ := hout
        simp only [if_pos hgt] at hf2 hf3 hf7
        refine ⟨hf1, le_trans (le_of_lt hgt) hf2, ?_, hf4, hf5, hf6, hf7⟩
        rw [sumDur_append, sumDur_idle] at hf3
        omega
      | some i =>
        obtain ⟨hilen, hiok, himin, hifirst⟩ := pyMinIdx_spec _ _ _ _ hsel
        have hSmem : s.remaining.getD i dummyProcess ∈ s.remaining := getD_mem hilen
        obtain ⟨hSrem, hSarr⟩ := hval _ hSmem
        rw [srtfStep_busy_eq s i hsel] at h
        simp only [] at h
        obtain ⟨M, hMdef⟩ : ∃ M, (if s.current ≠ some i then
            markStarted (s.remaining.getD i dummyProcess) s.current_time
          else s.remaining.getD i dummyProcess) = M := ⟨_, rfl⟩
        rw [hMdef] at h
        have hMrem : M.remaining_time = (s.remaining.getD i dummyProcess).remaining_time := by
          rw [← hMdef]; exact condMark_remaining _ _ _
        have hMquad : quadOf M = quadOf (s.remaining.getD i dummyProcess) := by
          rw [← hMdef]; exact condMark_quad _ _ _
        have hMarr : M.arrival_time = (s.remaining.getD i dummyProcess).arrival_time := by
          rw [← hMdef]; exact condMark_arrival _ _ _
        obtain ⟨E, hEdef⟩ : ∃ E, (match nextArrivalAfter s.current_time s.remaining with
          | none => M.remaining_time
          | some next_event_time => min M.remaining_time (next_event_time - s.current_time)) =
            E := ⟨_, rfl⟩
        rw [hEdef] at h
        have hE1 : 1 ≤ E := by
          rw [← hEdef]
          cases hnaa : nextArrivalAfter s.current_time s.remaining with
          | none => simp only []; rw [hMrem]; exact hSrem
          | some t2 =>
            simp only []
            have hgt := nextArrivalAfter_some_gt _ _ _ hnaa
            rw [hMrem]
            exact le_min hSrem (by omega)
        have hEle : E ≤ M.remaining_time := by
          rw [← hEdef]
          cases hnaa : nextArrivalAfter s.current_time s.remaining with
          | none => simp only []; exact le_refl _
          | some t2 => simp only []; exact min_le_left _ _
        by_cases hdone : M.remaining_time - E = 0
        · rw [if_pos hdone] at h
          have hcct : (finalizeProcess { M with remaining_time := M.remaining_time - E }
              (s.current_time + E)).completion_time = s.current_time + E :=
            finalizeProcess_completion _ _
          have hcquad : quadOf (finalizeProcess
              { M with remaining_time := M.remaining_time - E } (s.current_time + E)) =
              quadOf (s.remaining.getD i dummyProcess) := by
            rw [finalizeProcess_quad, quadOf_set_remaining, hMquad]
          have hs' := ih _ sF h
          have hout := hs'
            (by
              intro p hp
              exact hval p ((List.eraseIdx_sublist s.remaining i).subset hp))
            (by
              intro p hp
              rcases List.mem_append.mp hp with hh | hh
              · exact le_trans (hcb p hh) (by show s.current_time ≤ s.current_time + E; omega)
              · rw [List.mem_singleton.mp hh, hcct])
            (by
              intro _
              exact Or.inr ⟨s.completed, _, rfl, hcct⟩)
            (by
              rw [SortedByCompletion, List.pairwise_append]
              refine ⟨hsort, List.pairwise_singleton _ _, ?_⟩
              intro a ha b hb
              rw [List.mem_singleton.mp hb, hcct]
              exact le_trans (hcb a ha) (by omega))
          obtain ⟨hf1, hf2, hf3, hf4, hf5, hf6, hf7⟩ := hout
          simp only [] at hf2 hf3 hf7
          refine ⟨hf1, by omega, ?_, hf4, hf5, hf6, ?_⟩
          · rw [sumDur_append, sumDur_busy] at hf3
            omega
          · refine hf7.trans ?_
            have hpermr : (s.remaining.map quadOf).Perm
                (quadOf (s.remaining.getD i dummyProcess) ::
                  (s.remaining.eraseIdx i).map quadOf) :=
              (perm_getD_cons_eraseIdx s.remaining i hilen).map quadOf
            have hx1 : ((s.completed ++
                [finalizeProcess { M with remaining_time := M.remaining_time - E }
                  (s.current_time + E)]) ++ s.remaining.eraseIdx i).map quadOf
                = s.completed.map quadOf ++
                  (quadOf (finalizeProcess { M with remaining_time := M.remaining_time - E }
                    (s.current_time + E)) :: (s.remaining.eraseIdx i).map quadOf) := by
              simp
            have hx2 : (s.completed ++ s.remaining).map quadOf =
                s.completed.map quadOf ++ s.remaining.map quadOf := by
              simp
            rw [hx1, hcquad, hx2]
            exact List.Perm.append_left _ hpermr.symm
        · rw [if_neg hdone] at h
          have hs' := ih _ sF h
          have hout := hs'
            (by
              intro p hp
              rcases List.mem_or_eq_of_mem_set hp with hmem | heq
              · exact hval p hmem
              · subst heq
                constructor
                · show 1 ≤ M.remaining_time - E
                  omega
                · show 0 ≤ M.arrival_time
                  rw [hMarr]; exact hSarr)
            (by
              intro p hp
              exact le_trans (hcb p hp) (by show s.current_time ≤ s.current_time + E; omega))
            (by
              intro hcontra
              exfalso
              apply hrem
              have hc2 : s.remaining.set i
                  { M with remaining_time := M.remaining_time - E } = [] := hcontra
              have hlen := congrArg List.length hc2
              simp only [List.length_set, List.length_nil] at hlen
              exact List.length_eq_zero.mp hlen)
            hsort
          obtain ⟨hf1, hf2, hf3, hf4, hf5, hf6, hf7⟩ := hout
          simp only [] at hf2 hf3 hf7
          have hsetquad : (s.remaining.set i
              { M with remaining_time := M.remaining_time - E }).map quadOf =
              s.remaining.map quadOf :=
            map_quadOf_set s.remaining i _ hilen (by rw [quadOf_set_remaining, hMquad])
          refine ⟨hf1, by omega, ?_, hf4, hf5, hf6, ?_⟩
          · rw [sumDur_append, sumDur_busy] at hf3
            omega
          · refine hf7.trans ?_
            have hx1 : (s.completed ++ s.remaining.set i
                { M with remaining_time := M.remaining_time - E }).map quadOf =
                (s.completed ++ s.remaining).map quadOf := by
              rw [List.map_append, List.map_append, hsetquad]
            rw [hx1]

/-! ### The priority_scheduling loop -/

theorem prioStep_idle (preemptive : Bool) (s : PrioState)
    (h : pyMinIdx (fun p => p.priority)
      (fun p => decide (p.arrival_time ≤ s.current_time)) s.remaining = none) :
    prioStep preemptive s =
      { s with
        current_time := minArrivalTime s.remaining,
        current := none,
        timeline :=
          if s.current_time < minArrivalTime s.remaining then
            s.timeline ++ [idleSegment s.current_time (minArrivalTime s.remaining)]
          else s.timeline } := by
  unfold prioStep
  rw [h]

theorem prioStep_busy_eq (preemptive : Bool) (s : PrioState) (i0 : Nat)
    (h : pyMinIdx (fun p => p.priority)
      (fun p => decide (p.arrival_time ≤ s.current_time)) s.remaining = some i0) :
    prioStep preemptive s =
      (let i := match s.current with
        | some c =>
          if ¬preemptive ∧ (s.remaining.getD c dummyProcess).arrival_time ≤ s.current_time then c
          else i0
        | none => i0
      let M := if s.current ≠ some i then
          markStarted (s.remaining.getD i dummyProcess) s.current_time
        else s.remaining.getD i dummyProcess
      let E := if preemptive then
          match nextArrivalAfter s.current_time s.remaining with
          | none => M.remaining_time
          | some next_event_time => min M.remaining_time (next_event_time - s.current_time)
        else M.remaining_time
      if M.remaining_time - E = 0 then
        { current_time := s.current_time + E, remaining := s.remaining.eraseIdx i,
          current := none,
          timeline := s.timeline ++ [busySegment M.pid s.current_time E],
          completed := s.completed ++
            [finalizeProcess { M with remaining_time := M.remaining_time - E }
              (s.current_time + E)] }
      else
        { current_time := s.current_time + E,
          remaining := s.remaining.set i { M with remaining_time := M.remaining_time - E },
          current := some i,
          timeline := s.timeline ++ [busySegment M.pid s.current_time E],
          completed := s.completed }) := by
  unfold prioStep
  rw [h]

theorem prioLoop_spec (preemptive : Bool) :
    ∀ (fuel : Nat) (s sF : PrioState),
      prioLoop preemptive fuel s = some sF →
      ValRemP s.remaining →
      (∀ c, s.current = some c → c < s.remaining.length) →
      CompBound s.completed s.current_time →
      (s.remaining = [] → s.completed = [] ∨ LastCompAt s.completed s.current_time) →
      SortedByCompletion s.completed →
      sF.remaining = [] ∧
      s.current_time ≤ sF.current_time ∧
      sumDur sF.timeline - sumDur s.timeline = sF.current_time - s.current_time ∧
      CompBound sF.completed sF.current_time ∧
      (sF.completed = [] ∨ LastCompAt sF.completed sF.current_time) ∧
      SortedByCompletion sF.completed ∧
      (sF.completed.map quadOf).Perm ((s.completed ++ s.remaining).map quadOf) := by
  intro fuel
  induction fuel with
  | zero => intro s sF h; cases h
  | succ n ih =>
    intro s sF h hval hcur hcb hlast hsort
    rw [prioLoop] at h
    by_cases hrem : s.remaining = []
    · rw [if_pos hrem] at h
      cases h
      refine ⟨hrem, le_refl _, by rw [sub_self, sub_self], hcb, hlast hrem, hsort, ?_⟩
      rw [hrem, List.append_nil]
    · rw [if_neg hrem] at h
      cases hsel : pyMinIdx (fun p => p.priority)
          (fun p => decide (p.arrival_time ≤ s.current_time)) s.remaining with
      | none =>
        have hstep := prioStep_idle preemptive s hsel
        have hallgt : ∀ p ∈ s.remaining, s.current_time < p.arrival_time := by
          have hfilter := filter_eq_nil_of_pyMinIdx_none _ _ _ hsel
          intro p hp
          have := List.filter_eq_nil_iff.mp hfilter p hp
          simpa using this
        have hgt : s.current_time < minArrivalTime s.remaining := by
          rcases minArrivalTime_attained hrem with ⟨p, hp, hpa⟩
          rw [← hpa]
          exact hallgt p hp
        have hs' := ih (prioStep preemptive s) sF h
        rw [hstep] at hs'
        have hout := hs' hval
          (by intro c hc; cases hc)
          (by
            intro p hp
            exact le_trans (hcb p hp) (le_of_lt hgt))
          (by intro hcontra; exact absurd hcontra hrem)
          hsort
        obtain ⟨hf1, hf2, hf3, hf4, hf5, hf6, hf7⟩ := hout
        simp only [if_pos hgt] at hf2 hf3 hf7
        refine ⟨hf1, le_trans (le_of_lt hgt) hf2, ?_, hf4, hf5, hf6, hf7⟩
        rw [sumDur_append, sumDur_idle] at hf3
        omega
      | some i0 =>
        obtain ⟨hi0len, hi0ok, hi0min, hi0first⟩ := pyMinIdx_spec _ _ _ _ hsel
        rw [prioStep_busy_eq preemptive s i0 hsel] at h
        simp only [] at h
        obtain ⟨I, hIdef⟩ : ∃ I, (match s.current with
          | some c =>
            if ¬preemptive ∧ (s.remaining.getD c dummyProcess).arrival_time ≤ s.current_time
            then c else i0
          | none => i0) = I := ⟨_, rfl⟩
        rw [hIdef] at h
        have hIlen : I < s.remaining.length := by
          rw [← hIdef]
          cases hc : s.current with
          | none => simp only []; exact hi0len
          | some c =>
            simp only []
            split
            · exact hcur c hc
            · exact hi0len
        have hSmem : s.remaining.getD I dummyProcess ∈ s.remaining := getD_mem hIlen
        obtain ⟨hSrem, hSarr⟩ := hval _ hSmem
        obtain ⟨M, hMdef⟩ : ∃ M, (if s.current ≠ some I then
            markStarted (s.remaining.getD I dummyProcess) s.current_time
          else s.remaining.getD I dummyProcess) = M := ⟨_, rfl⟩
        rw [hMdef] at h
        have hMrem : M.remaining_time = (s.remaining.getD I dummyProcess).remaining_time := by
          rw [← hMdef]; exact condMark_remaining _ _ _
        have hMquad : quadOf M = quadOf (s.remaining.getD I dummyProcess) := by
          rw [← hMdef]; exact condMark_quad _ _ _
        have hMarr : M.arrival_time = (s.remaining.getD I dummyProcess).arrival_time := by
          rw [← hMdef]; exact condMark_arrival _ _ _
        obtain ⟨E, hEdef⟩ : ∃ E, (if preemptive then
            match nextArrivalAfter s.current_time s.remaining with
            | none => M.remaining_time
            | some next_event_time => min M.remaining_time (next_event_time - s.current_time)
          else M.remaining_time) = E := ⟨_, rfl⟩
        rw [hEdef] at h
        have hE1 : 1 ≤ E := by
          rw [← hEdef]
          cases hpre : preemptive with
          | false => simp only [Bool.false_eq_true, if_false]; rw [hMrem]; exact hSrem
          | true =>
            simp only [if_true]
            cases hnaa : nextArrivalAfter s.current_time s.remaining with
            | none => simp only []; rw [hMrem]; exact hSrem
            | some t2 =>
              simp only []
              have hgt := nextArrivalAfter_some_gt _ _ _ hnaa
              rw [hMrem]
              exact le_min hSrem (by omega)
        have hEle : E ≤ M.remaining_time := by
          rw [← hEdef]
          cases hpre : preemptive with
          | false => simp only [Bool.false_eq_true, if_false]; exact le_refl _
          | true =>
            simp only [if_true]
            cases hnaa : nextArrivalAfter s.current_time s.remaining with
            | none => simp only []; exact le_refl _
            | some t2 => simp only []; exact min_le_left _ _
        by_cases hdone : M.remaining_time - E = 0
        · rw [if_pos hdone] at h
          have hcct : (finalizeProcess { M with remaining_time := M.remaining_time - E }
              (s.current_time + E)).completion_time = s.current_time + E :=
            finalizeProcess_completion _ _
          have hcquad : quadOf (finalizeProcess
              { M with remaining_time := M.remaining_time - E } (s.current_time + E)) =
              quadOf (s.remaining.getD I dummyProcess) := by
            rw [finalizeProcess_quad, quadOf_set_remaining, hMquad]
          have hs' := ih _ sF h
          have hout := hs'
            (by
              intro p hp
              exact hval p ((List.eraseIdx_sublist s.remaining I).subset hp))
            (by intro c hc; cases hc)
            (by
              intro p hp
              rcases List.mem_append.mp hp with hh | hh
              · exact le_trans (hcb p hh) (by show s.current_time ≤ s.current_time + E; omega)
              · rw [List.mem_singleton.mp hh, hcct])
            (by
              intro _
              exact Or.inr ⟨s.completed, _, rfl, hcct⟩)
            (by
              rw [SortedByCompletion, List.pairwise_append]
              refine ⟨hsort, List.pairwise_singleton _ _, ?_⟩
              intro a ha b hb
              rw [List.mem_singleton.mp hb, hcct]
              exact le_trans (hcb a ha) (by omega))
          obtain ⟨hf1, hf2, hf3, hf4, hf5, hf6, hf7⟩ := hout
          simp only [] at hf2 hf3 hf7
          refine ⟨hf1, by omega, ?_, hf4, hf5, hf6, ?_⟩
          · rw [sumDur_append, sumDur_busy] at hf3
            omega
          · refine hf7.trans ?_
            have hpermr : (s.remaining.map quadOf).Perm
                (quadOf (s.remaining.getD I dummyProcess) ::
                  (s.remaining.eraseIdx I).map quadOf) :=
              (perm_getD_cons_eraseIdx s.remaining I hIlen).map quadOf
            have hx1 : ((s.completed ++
                [finalizeProcess { M with remaining_time := M.remaining_time - E }
                  (s.current_time + E)]) ++ s.remaining.eraseIdx I).map quadOf
                = s.completed.map quadOf ++
                  (quadOf (finalizeProcess { M with remaining_time := M.remaining_time - E }
                    (s.current_time + E)) :: (s.remaining.eraseIdx I).map quadOf) := by
              simp
            have hx2 : (s.completed ++ s.remaining).map quadOf =
                s.completed.map quadOf ++ s.remaining.map quadOf := by
              simp
            rw [hx1, hcquad, hx2]
            exact List.Perm.append_left _ hpermr.symm
        · rw [if_neg hdone] at h
          have hs' := ih _ sF h
          have hout := hs'
            (by
              intro p hp
              rcases List.mem_or_eq_of_mem_set hp with hmem | heq
              · exact hval p hmem
              · subst heq
                constructor
                · show 1 ≤ M.remaining_time - E
                  omega
                · show 0 ≤ M.arrival_time
                  rw [hMarr]; exact hSarr)
            (by
              intro c hc
              have hc2 : I = c := by
                have : some I = some c := hc
                exact Option.some.inj this
              subst hc2
              show I < (s.remaining.set I _).length
              rw [List.length_set]
              exact hIlen)
            (by
              intro p hp
              exact le_trans (hcb p hp) (by show s.current_time ≤ s.current_time + E; omega))
            (by
              intro hcontra
              exfalso
              apply hrem
              have hc2 : s.remaining.set I
                  { M with remaining_time := M.remaining_time - E } = [] := hcontra
              have hlen := congrArg List.length hc2
              simp only [List.length_set, List.length_nil] at hlen
              exact List.length_eq_zero.mp hlen)
            hsort
          obtain ⟨hf1, hf2, hf3, hf4, hf5, hf6, hf7⟩ := hout
          simp only [] at hf2 hf3 hf7
          have hsetquad : (s.remaining.set I
              { M with remaining_time := M.remaining_time - E }).map quadOf =
              s.remaining.map quadOf :=
            map_quadOf_set s.remaining I _ hIlen (by rw [quadOf_set_remaining, hMquad])
          refine ⟨hf1, by omega, ?_, hf4, hf5, hf6, ?_⟩
          · rw [sumDur_append, sumDur_busy] at hf3
            omega
          · refine hf7.trans ?_
            have hx1 : (s.completed ++ s.remaining.set I
                { M with remaining_time := M.remaining_time - E }).map quadOf =
                (s.completed ++ s.remaining).map quadOf := by
              rw [List.map_append, List.map_append, hsetquad]
            rw [hx1]

/-! ### The round_robin loop -/

theorem admitArrived_spec (t : Int) :
    ∀ (rem queue : List Process),
      ∃ adm, rem = adm ++ (admitArrived t rem queue).1 ∧
        (admitArrived t rem queue).2 = queue ++ adm ∧
        (∀ p rest2, (admitArrived t rem queue).1 = p :: rest2 → t < p.arrival_time) := by
  intro rem
  induction rem with
  | nil =>
    intro queue
    refine ⟨[], rfl, by simp [admitArrived], ?_⟩
    intro p rest2 hcontra
    cases hcontra
  | cons p rest ih =>
    intro queue
    by_cases hp : p.arrival_time ≤ t
    · have hred : admitArrived t (p :: rest) queue = admitArrived t rest (queue ++ [p]) := by
        simp only [admitArrived]
        rw [if_pos hp]
      obtain ⟨adm, h1, h2, h3⟩ := ih (queue ++ [p])
      refine ⟨p :: adm, ?_, ?_, ?_⟩
      · rw [hred, List.cons_append, ← h1]
      · rw [hred, h2]
        simp
      · rw [hred]
        exact h3
    · have hred : admitArrived t (p :: rest) queue = (p :: rest, queue) := by
        simp only [admitArrived]
        rw [if_neg hp]
      refine ⟨[], by rw [hred]; simp, by rw [hred]; simp, ?_⟩
      intro p2 rest2 hcons
      rw [hred] at hcons
      cases hcons
      exact not_le.mp hp

theorem perm_shuffle_requeue {α : Type} (C R2 QR A1 A2 P Q : List α)
    (hq : Q ++ A1 = P ++ QR) :
    (C ++ R2 ++ (QR ++ A2 ++ P)).Perm (C ++ (A1 ++ (A2 ++ R2)) ++ Q) := by
  rw [← Multiset.coe_eq_coe]
  have hqm : (Q : Multiset α) + (A1 : Multiset α) = (P : Multiset α) + (QR : Multiset α) := by
    have := congrArg (fun (l : List α) => (l : Multiset α)) hq
    simpa [← Multiset.coe_add] using this
  simp only [← Multiset.coe_add]
  have h1 : (C : Multiset α) + R2 + (QR + A2 + P) = (C : Multiset α) + A2 + R2 + (P + QR) := by
    abel
  have h2 : (C : Multiset α) + (A1 + (A2 + R2)) + Q = (C : Multiset α) + A2 + R2 + (Q + A1) := by
    abel
  rw [h1, h2, hqm]

theorem perm_shuffle_complete {α : Type} (C R2 QR A1 A2 P Q : List α)
    (hq : Q ++ A1 = P ++ QR) :
    ((C ++ P) ++ R2 ++ (QR ++ A2)).Perm (C ++ (A1 ++ (A2 ++ R2)) ++ Q) := by
  rw [← Multiset.coe_eq_coe]
  have hqm : (Q : Multiset α) + (A1 : Multiset α) = (P : Multiset α) + (QR : Multiset α) := by
    have := congrArg (fun (l : List α) => (l : Multiset α)) hq
    simpa [← Multiset.coe_add] using this
  simp only [← Multiset.coe_add]
  have h1 : (C : Multiset α) + P + R2 + (QR + A2) = (C : Multiset α) + A2 + R2 + (P + QR) := by
    abel
  have h2 : (C : Multiset α) + (A1 + (A2 + R2)) + Q = (C : Multiset α) + A2 + R2 + (Q + A1) := by
    abel
  rw [h1, h2, hqm]

theorem quadOf_eq_pid {p q : Process} (h : quadOf p = quadOf q) : p.pid = q.pid :=
  congrArg (fun x => x.1) h

theorem quadOf_eq_arrival {p q : Process} (h : quadOf p = quadOf q) :
    p.arrival_time = q.arrival_time :=
  congrArg (fun x => x.2.1) h

theorem quadOf_eq_burst {p q : Process} (h : quadOf p = quadOf q) :
    p.burst_time = q.burst_time :=
  congrArg (fun x => x.2.2.1) h

theorem rrLoop_spec (time_quantum : Int) (htq : 1 ≤ time_quantum) :
    ∀ (fuel : Nat) (s sF : RRState),
      rrLoop time_quantum fuel s = some sF →
      ValRemP (s.remaining ++ s.ready_queue) →
      CompBound s.completed s.current_time →
      (s.remaining = [] → s.ready_queue = [] →
        s.completed = [] ∨ LastCompAt s.completed s.current_time) →
      SortedByCompletion s.completed →
      sF.remaining = [] ∧ sF.ready_queue = [] ∧
      s.current_time ≤ sF.current_time ∧
      sumDur sF.timeline - sumDur s.timeline = sF.current_time - s.current_time ∧
      CompBound sF.completed sF.current_time ∧
      (sF.completed = [] ∨ LastCompAt sF.completed sF.current_time) ∧
      SortedByCompletion sF.completed ∧
      (sF.completed.map quadOf).Perm
        ((s.completed ++ s.remaining ++ s.ready_queue).map quadOf) := by
  intro fuel
  induction fuel with
  | zero => intro s sF h; cases h
  | succ n ih =>
    intro s sF h hval hcb hlast hsort
    rw [rrLoop] at h
    by_cases hterm : s.remaining = [] ∧ s.ready_queue = []
    · rw [if_pos hterm] at h
      cases h
      refine ⟨hterm.1, hterm.2, le_refl _, by rw [sub_self, sub_self], hcb,
        hlast hterm.1 hterm.2, hsort, ?_⟩
      rw [hterm.1, hterm.2]
      simp
    · rw [if_neg hterm] at h
      obtain ⟨adm1, hadm1, hq1eq, hhead1⟩ :=
        admitArrived_spec s.current_time s.remaining s.ready_queue
      cases hA : admitArrived s.current_time s.remaining s.ready_queue with
      | mk rem1 q1 =>
        rw [hA] at hadm1 hq1eq hhead1
        simp only [] at hadm1 hq1eq hhead1
        cases q1 with
        | nil =>
          obtain ⟨hqnil, hadm1nil⟩ := List.append_eq_nil.mp hq1eq.symm
          cases rem1 with
          | nil =>
            exfalso
            apply hterm
            refine ⟨?_, hqnil⟩
            rw [hadm1, hadm1nil]
            rfl
          | cons q rest =>
            have hstep : rrStep time_quantum s =
                { current_time := q.arrival_time, remaining := q :: rest, ready_queue := [],
                  timeline :=
                    if s.current_time < q.arrival_time then
                      s.timeline ++ [idleSegment s.current_time q.arrival_time]
                    else s.timeline,
                  completed := s.completed } := by
              unfold rrStep
              simp only [hA]
            rw [hstep] at h
            have hgt : s.current_time < q.arrival_time := hhead1 q rest rfl
            have hremfull : s.remaining = q :: rest := by
              rw [hadm1, hadm1nil]
              rfl
            have hs' := ih _ sF h
            have hout := hs'
              (by
                intro p hp
                rw [List.append_nil] at hp
                apply hval
                rw [← hremfull] at hp
                exact List.mem_append_left _ hp)
              (by
                intro p hp
                exact le_trans (hcb p hp) (le_of_lt hgt))
              (by intro h1 _; cases h1)
              hsort
            obtain ⟨hf1, hf2, hf3, hf4, hf5, hf6, hf7, hf8⟩ := hout
            simp only [] at hf3 hf4 hf8
            rw [if_pos hgt] at hf4
            refine ⟨hf1, hf2, le_trans (le_of_lt hgt) hf3, ?_, hf5, hf6, hf7, ?_⟩
            · rw [sumDur_append, sumDur_idle] at hf4
              omega
            · refine hf8.trans ?_
              rw [hremfull, hqnil]
        | cons process queue_rest =>
          have hstep : rrStep time_quantum s =
              (let process := markStarted process s.current_time
              let execution_time := min time_quantum process.remaining_time
              let process :=
                { process with remaining_time := process.remaining_time - execution_time }
              let timeline :=
                s.timeline ++ [busySegment process.pid s.current_time execution_time]
              let current_time := s.current_time + execution_time
              let (remaining, ready_queue) := admitArrived current_time rem1 queue_rest
              if process.remaining_time > 0 then
                { current_time := current_time, remaining := remaining,
                  ready_queue := ready_queue ++ [process], timeline := timeline,
                  completed := s.completed }
              else
                { current_time := current_time, remaining := remaining,
                  ready_queue := ready_queue, timeline := timeline,
                  completed := s.completed ++ [finalizeProcess process current_time] }) := by
            unfold rrStep
            simp only [hA]
          rw [hstep] at h
          simp only [] at h
          obtain ⟨P1, hP1def⟩ : ∃ P1, markStarted process s.current_time = P1 := ⟨_, rfl⟩
          rw [hP1def] at h
          obtain ⟨E, hEdef⟩ : ∃ E, min time_quantum P1.remaining_time = E := ⟨_, rfl⟩
          rw [hEdef] at h
          obtain ⟨P2, hP2def⟩ : ∃ P2,
            { P1 with remaining_time := P1.remaining_time - E } = P2 := ⟨_, rfl⟩
          rw [hP2def] at h
          have hpmem : process ∈ s.remaining ++ s.ready_queue := by
            have hmem1 : process ∈ s.ready_queue ++ adm1 := by
              rw [← hq1eq]
              exact List.mem_cons_self _ _
            rcases List.mem_append.mp hmem1 with hh | hh
            · exact List.mem_append_right _ hh
            · refine List.mem_append_left _ ?_
              rw [hadm1]
              exact List.mem_append_left _ hh
          obtain ⟨hprem, hparr⟩ := hval process hpmem
          have hP1rem : P1.remaining_time = process.remaining_time := by
            rw [← hP1def]; exact markStarted_remaining _ _
          have hP1quad : quadOf P1 = quadOf process := by
            rw [← hP1def]; exact markStarted_quad _ _
          have hE1 : 1 ≤ E := by
            rw [← hEdef]
            exact le_min htq (by rw [hP1rem]; exact hprem)
          have hEleP : E ≤ P1.remaining_time := by
            rw [← hEdef]; exact min_le_right _ _
          have hP2rem : P2.remaining_time = P1.remaining_time - E := by
            rw [← hP2def]
          have hP2quad : quadOf P2 = quadOf process := by
            rw [← hP2def, quadOf_set_remaining, hP1quad]
          have hP2arr : P2.arrival_time = process.arrival_time := quadOf_eq_arrival hP2quad
          obtain ⟨adm2, hadm2, hq2eq, hhead2⟩ :=
            admitArrived_spec (s.current_time + E) rem1 queue_rest
          cases hA2 : admitArrived (s.current_time + E) rem1 queue_rest with
          | mk rem2 q2 =>
            rw [hA2] at hadm2 hq2eq hhead2 h
            simp only [] at hadm2 hq2eq hhead2 h
            have hremfull : s.remaining = adm1 ++ (adm2 ++ rem2) := by
              rw [hadm1, hadm2]
            have hsub_rem1 : ∀ p ∈ rem1, p ∈ s.remaining := by
              intro p hp
              rw [hadm1]
              exact List.mem_append_right _ hp
            have hsub_rem2 : ∀ p ∈ rem2, p ∈ s.remaining := by
              intro p hp
              refine hsub_rem1 p ?_
              rw [hadm2]
              exact List.mem_append_right _ hp
            have hsub_adm2 : ∀ p ∈ adm2, p ∈ s.remaining := by
              intro p hp
              refine hsub_rem1 p ?_
              rw [hadm2]
              exact List.mem_append_left _ hp
            have hsub_qr : ∀ p ∈ queue_rest, p ∈ s.remaining ++ s.ready_queue := by
              intro p hp
              have hmem1 : p ∈ s.ready_queue ++ adm1 := by
                rw [← hq1eq]
                exact List.mem_cons_of_mem _ hp
              rcases List.mem_append.mp hmem1 with hh | hh
              · exact List.mem_append_right _ hh
              · refine List.mem_append_left _ ?_
                rw [hadm1]
                exact List.mem_append_left _ hh
            have hsub_q2 : ∀ p ∈ q2, p ∈ s.remaining ++ s.ready_queue := by
              intro p hp
              rw [hq2eq] at hp
              rcases List.mem_append.mp hp with hh | hh
              · exact hsub_qr p hh
              · exact List.mem_append_left _ (hsub_adm2 p hh)
            have e2m : s.ready_queue.map quadOf ++ adm1.map quadOf =
                [quadOf P2] ++ queue_rest.map quadOf := by
              rw [← List.map_append, ← hq1eq]
              simp [hP2quad]
            by_cases hreq : P1.remaining_time - E > 0
            · rw [if_pos hreq] at h
              have hs' := ih _ sF h
              have hout := hs'
                (by
                  intro p hp
                  rcases List.mem_append.mp hp with hh | hh
                  · exact hval p (List.mem_append_left _ (hsub_rem2 p hh))
                  · rcases List.mem_append.mp hh with hh2 | hh2
                    · exact hval p (hsub_q2 p hh2)
                    · rw [List.mem_singleton.mp hh2]
                      refine ⟨by omega, ?_⟩
                      rw [hP2arr]
                      exact hparr)
                (by
                  intro p hp
                  exact le_trans (hcb p hp)
                    (by show s.current_time ≤ s.current_time + E; omega))
                (by
                  intro _ h2
                  exfalso
                  obtain ⟨_, hP2nil⟩ := List.append_eq_nil.mp h2
                  cases hP2nil)
                hsort
              obtain ⟨hf1, hf2, hf3, hf4, hf5, hf6, hf7, hf8⟩ := hout
              simp only [] at hf3 hf4 hf8
              refine ⟨hf1, hf2, by omega, ?_, hf5, hf6, hf7, ?_⟩
              · rw [sumDur_append, sumDur_busy] at hf4
                omega
              · refine hf8.trans ?_
                rw [hq2eq, hremfull]
                simp only [List.map_append, List.map_cons, List.map_nil]
                exact perm_shuffle_requeue _ _ _ _ _ _ _ e2m
            · rw [if_neg hreq] at h
              have hcct : (finalizeProcess P2 (s.current_time + E)).completion_time =
                  s.current_time + E := finalizeProcess_completion _ _
              have hcquad : quadOf (finalizeProcess P2 (s.current_time + E)) =
                  quadOf process := by
                rw [finalizeProcess_quad, hP2quad]
              have hs' := ih _ sF h
              have hout := hs'
                (by
                  intro p hp
                  rcases List.mem_append.mp hp with hh | hh
                  · exact hval p (List.mem_append_left _ (hsub_rem2 p hh))
                  · exact hval p (hsub_q2 p hh))
                (by
                  intro p hp
                  rcases List.mem_append.mp hp with hh | hh
                  · exact le_trans (hcb p hh)
                      (by show s.current_time ≤ s.current_time + E; omega)
                  · rw [List.mem_singleton.mp hh, hcct])
                (by
                  intro _ _
                  exact Or.inr ⟨s.completed, _, rfl, hcct⟩)
                (by
                  rw [SortedByCompletion, List.pairwise_append]
                  refine ⟨hsort, List.pairwise_singleton _ _, ?_⟩
                  intro a ha b hb
                  rw [List.mem_singleton.mp hb, hcct]
                  exact le_trans (hcb a ha) (by omega))
              obtain ⟨hf1, hf2, hf3, hf4, hf5, hf6, hf7, hf8⟩ := hout
              simp only [] at hf3 hf4 hf8
              have e2mc : s.ready_queue.map quadOf ++ adm1.map quadOf =
                  [quadOf (finalizeProcess P2 (s.current_time + E))] ++
                    queue_rest.map quadOf := by
                rw [← List.map_append, ← hq1eq]
                simp [hcquad]
              refine ⟨hf1, hf2, by omega, ?_, hf5, hf6, hf7, ?_⟩
              · rw [sumDur_append, sumDur_busy] at hf4
                omega
              · refine hf8.trans ?_
                rw [hq2eq, hremfull]
                simp only [List.map_append, List.map_cons, List.map_nil]
                exact perm_shuffle_complete _ _ _ _ _ _ _ e2mc

/-! ### The fcfs fold -/

theorem finalMarked_quad (p : Process) (t e : Int) :
    quadOf (finalizeProcess { markStarted p t with remaining_time := 0 } e) = quadOf p := by
  rw [finalizeProcess_quad, quadOf_set_remaining, markStarted_quad]

theorem fcfsStep_gap (acc : FcfsAcc) (p : Process) (hc : acc.current_time < p.arrival_time)
    (h0 : acc.current_time > 0) :
    fcfsStep acc p =
      { current_time := p.arrival_time + p.remaining_time,
        timeline := (acc.timeline ++ [idleSegment acc.current_time p.arrival_time]) ++
          [busySegment p.pid p.arrival_time p.remaining_time],
        completed := acc.completed ++
          [finalizeProcess { markStarted p p.arrival_time with remaining_time := 0 }
            (p.arrival_time + p.remaining_time)] } := by
  unfold fcfsStep
  rw [if_pos hc, if_pos h0]
  simp [Process.execute, markStarted_remaining, markStarted_pid]

theorem fcfsStep_first_gap (acc : FcfsAcc) (p : Process)
    (hc : acc.current_time < p.arrival_time) (h0 : ¬acc.current_time > 0) :
    fcfsStep acc p =
      { current_time := p.arrival_time + p.remaining_time,
        timeline := acc.timeline ++ [busySegment p.pid p.arrival_time p.remaining_time],
        completed := acc.completed ++
          [finalizeProcess { markStarted p p.arrival_time with remaining_time := 0 }
            (p.arrival_time + p.remaining_time)] } := by
  unfold fcfsStep
  rw [if_pos hc, if_neg h0]
  simp [Process.execute, markStarted_remaining, markStarted_pid]

theorem fcfsStep_nogap (acc : FcfsAcc) (p : Process) (hc : ¬acc.current_time < p.arrival_time) :
    fcfsStep acc p =
      { current_time := acc.current_time + p.remaining_time,
        timeline := acc.timeline ++ [busySegment p.pid acc.current_time p.remaining_time],
        completed := acc.completed ++
          [finalizeProcess { markStarted p acc.current_time with remaining_time := 0 }
            (acc.current_time + p.remaining_time)] } := by
  unfold fcfsStep
  rw [if_neg hc]
  simp [Process.execute, markStarted_remaining, markStarted_pid]

theorem fcfsFold_spec :
    ∀ (l : List Process) (acc : FcfsAcc),
      ValRemNP l →
      0 < acc.current_time →
      CompBound acc.completed acc.current_time →
      LastCompAt acc.completed acc.current_time →
      SortedByCompletion acc.completed →
      0 < (l.foldl fcfsStep acc).current_time ∧
      acc.current_time ≤ (l.foldl fcfsStep acc).current_time ∧
      sumDur (l.foldl fcfsStep acc).timeline - sumDur acc.timeline =
        (l.foldl fcfsStep acc).current_time - acc.current_time ∧
      CompBound (l.foldl fcfsStep acc).completed (l.foldl fcfsStep acc).current_time ∧
      LastCompAt (l.foldl fcfsStep acc).completed (l.foldl fcfsStep acc).current_time ∧
      SortedByCompletion (l.foldl fcfsStep acc).completed ∧
      (l.foldl fcfsStep acc).completed.map quadOf =
        acc.completed.map quadOf ++ l.map quadOf ∧
      (((pidsOf (l ++ acc.completed)).Nodup ∧
        (∀ q ∈ l, pidSegs acc.timeline q.pid = []) ∧
        (∀ q ∈ acc.completed,
          (pidSegs acc.timeline q.pid).map (fun seg => seg.duration) = [q.burst_time])) →
       ∀ q ∈ (l.foldl fcfsStep acc).completed,
         (pidSegs (l.foldl fcfsStep acc).timeline q.pid).map (fun seg => seg.duration) =
           [q.burst_time]) := by
  intro l
  induction l with
  | nil =>
    intro acc hval h0 hcb hlastc hsort
    refine ⟨h0, le_refl _, by simp, hcb, hlastc, hsort, by simp, ?_⟩
    intro hx q hq
    exact hx.2.2 q hq
  | cons p rest ih =>
    intro acc hval h0 hcb hlastc hsort
    obtain ⟨hpburst, hparr, hprem⟩ := hval p (List.mem_cons_self p rest)
    have hvalrest : ValRemNP rest := fun q hq => hval q (List.mem_cons_of_mem p hq)
    have hrem1 : (1 : Int) ≤ p.remaining_time := by rw [hprem]; exact hpburst
    rw [List.foldl_cons]
    by_cases hc : acc.current_time < p.arrival_time
    · rw [fcfsStep_gap acc p hc h0]
      set c := finalizeProcess { markStarted p p.arrival_time with remaining_time := 0 }
        (p.arrival_time + p.remaining_time) with hcdef
      set tl2 := (acc.timeline ++ [idleSegment acc.current_time p.arrival_time]) ++
        [busySegment p.pid p.arrival_time p.remaining_time] with htl2def
      set acc2 : FcfsAcc :=
        { current_time := p.arrival_time + p.remaining_time,
          timeline := tl2, completed := acc.completed ++ [c] } with hacc2def
      have hcct : c.completion_time = p.arrival_time + p.remaining_time := by
        rw [hcdef]; exact finalizeProcess_completion _ _
      have hcquad : quadOf c = quadOf p := by rw [hcdef]; exact finalMarked_quad _ _ _
      have hcpid : c.pid = p.pid := quadOf_eq_pid hcquad
      have hcburst : c.burst_time = p.burst_time := quadOf_eq_burst hcquad
      have hout := ih acc2 hvalrest
        (by show (0 : Int) < p.arrival_time + p.remaining_time; omega)
        (by
          show CompBound (acc.completed ++ [c]) (p.arrival_time + p.remaining_time)
          intro x hx
          rcases List.mem_append.mp hx with hh | hh
          · exact le_trans (hcb x hh) (by omega)
          · rw [List.mem_singleton.mp hh, hcct])
        (by
          show LastCompAt (acc.completed ++ [c]) (p.arrival_time + p.remaining_time)
          exact ⟨acc.completed, c, rfl, hcct⟩)
        (by
          show SortedByCompletion (acc.completed ++ [c])
          rw [SortedByCompletion, List.pairwise_append]
          refine ⟨hsort, List.pairwise_singleton _ _, ?_⟩
          intro a ha b hb
          rw [List.mem_singleton.mp hb, hcct]
          exact le_trans (hcb a ha) (by omega))
      obtain ⟨hf1, hf2, hf3, hf4, hf5, hf6, hf7, hf8⟩ := hout
      have hacc2t : acc2.current_time = p.arrival_time + p.remaining_time := rfl
      have hacc2tl : acc2.timeline = tl2 := rfl
      have hacc2comp : acc2.completed = acc.completed ++ [c] := rfl
      rw [hacc2t] at hf2 hf3
      rw [hacc2tl, htl2def] at hf3
      rw [hacc2comp] at hf7
      refine ⟨hf1, by omega, ?_, hf4, hf5, hf6, ?_, ?_⟩
      · rw [sumDur_append, sumDur_append, sumDur_idle, sumDur_busy] at hf3
        omega
      · rw [hf7]
        simp [hcquad]
      · intro hx q hq
        obtain ⟨hnodup, hremsegs, hcompsegs⟩ := hx
        have hn2 : (p.pid :: (pidsOf rest ++ pidsOf acc.completed)).Nodup := by
          simpa [pidsOf] using hnodup
        have hpidnotin : p.pid ∉ pidsOf rest ++ pidsOf acc.completed :=
          (List.nodup_cons.mp hn2).1
        refine hf8 ⟨?_, ?_, ?_⟩ q hq
        · show (pidsOf (rest ++ (acc.completed ++ [c]))).Nodup
          have hperm : (pidsOf (rest ++ (acc.completed ++ [c]))).Perm
              (p.pid :: (pidsOf rest ++ pidsOf acc.completed)) := by
            simp only [pidsOf, List.map_append, List.map_cons, List.map_nil]
            rw [hcpid, ← List.append_assoc]
            exact List.perm_append_singleton _ _
          exact hperm.symm.nodup hn2
        · intro x hx2
          show pidSegs tl2 x.pid = []
          have hxne : x.pid ≠ p.pid := by
            intro heq
            apply hpidnotin
            apply List.mem_append_left
            rw [← heq]
            exact List.mem_map_of_mem (fun r => r.pid) hx2
          rw [htl2def, pidSegs_append, pidSegs_append, pidSegs_idle,
            pidSegs_busy_ne _ _ _ _ (fun hh => hxne hh.symm),
            hremsegs x (List.mem_cons_of_mem p hx2)]
          rfl
        · intro x hx2
          show (pidSegs tl2 x.pid).map (fun seg => seg.duration) = [x.burst_time]
          rcases List.mem_append.mp hx2 with hh | hh
          · have hxne : x.pid ≠ p.pid := by
              intro heq
              apply hpidnotin
              apply List.mem_append_right
              rw [← heq]
              exact List.mem_map_of_mem (fun r => r.pid) hh
            rw [htl2def, pidSegs_append, pidSegs_append, pidSegs_idle,
              pidSegs_busy_ne _ _ _ _ (fun hh2 => hxne hh2.symm)]
            rw [List.append_nil, List.append_nil]
            exact hcompsegs x hh
          · rw [List.mem_singleton.mp hh]
            rw [htl2def, hcpid, hcburst, pidSegs_append, pidSegs_append, pidSegs_idle,
              pidSegs_busy_self, hremsegs p (List.mem_cons_self p rest)]
            simp [busySegment, hprem]
    · rw [fcfsStep_nogap acc p hc]
      set c := finalizeProcess { markStarted p acc.current_time with remaining_time := 0 }
        (acc.current_time + p.remaining_time) with hcdef
      set tl2 := acc.timeline ++ [busySegment p.pid acc.current_time p.remaining_time]
        with htl2def
      set acc2 : FcfsAcc :=
        { current_time := acc.current_time + p.remaining_time,
          timeline := tl2, completed := acc.completed ++ [c] } with hacc2def
      have hcct : c.completion_time = acc.current_time + p.remaining_time := by
        rw [hcdef]; exact finalizeProcess_completion _ _
      have hcquad : quadOf c = quadOf p := by rw [hcdef]; exact finalMarked_quad _ _ _
      have hcpid : c.pid = p.pid := quadOf_eq_pid hcquad
      have hcburst : c.burst_time = p.burst_time := quadOf_eq_burst hcquad
      have hout := ih acc2 hvalrest
        (by show (0 : Int) < acc.current_time + p.remaining_time; omega)
        (by
          show CompBound (acc.completed ++ [c]) (acc.current_time + p.remaining_time)
          intro x hx
          rcases List.mem_append.mp hx with hh | hh
          · exact le_trans (hcb x hh) (by omega)
          · rw [List.mem_singleton.mp hh, hcct])
        (by
          show LastCompAt (acc.completed ++ [c]) (acc.current_time + p.remaining_time)
          exact ⟨acc.completed, c, rfl, hcct⟩)
        (by
          show SortedByCompletion (acc.completed ++ [c])
          rw [SortedByCompletion, List.pairwise_append]
          refine ⟨hsort, List.pairwise_singleton _ _, ?_⟩
          intro a ha b hb
          rw [List.mem_singleton.mp hb, hcct]
          exact le_trans (hcb a ha) (by omega))
      obtain ⟨hf1, hf2, hf3, hf4, hf5, hf6, hf7, hf8⟩ := hout
      have hacc2t : acc2.current_time = acc.current_time + p.remaining_time := rfl
      have hacc2tl : acc2.timeline = tl2 := rfl
      have hacc2comp : acc2.completed = acc.completed ++ [c] := rfl
      rw [hacc2t] at hf2 hf3
      rw [hacc2tl, htl2def] at hf3
      rw [hacc2comp] at hf7
      refine ⟨hf1, by omega, ?_, hf4, hf5, hf6, ?_, ?_⟩
      · rw [sumDur_append, sumDur_busy] at hf3
        omega
      · rw [hf7]
        simp [hcquad]
      · intro hx q hq
        obtain ⟨hnodup, hremsegs, hcompsegs⟩ := hx
        have hn2 : (p.pid :: (pidsOf rest ++ pidsOf acc.completed)).Nodup := by
          simpa [pidsOf] using hnodup
        have hpidnotin : p.pid ∉ pidsOf rest ++ pidsOf acc.completed :=
          (List.nodup_cons.mp hn2).1
        refine hf8 ⟨?_, ?_, ?_⟩ q hq
        · show (pidsOf (rest ++ (acc.completed ++ [c]))).Nodup
          have hperm : (pidsOf (rest ++ (acc.completed ++ [c]))).Perm
              (p.pid :: (pidsOf rest ++ pidsOf acc.completed)) := by
            simp only [pidsOf, List.map_append, List.map_cons, List.map_nil]
            rw [hcpid, ← List.append_assoc]
            exact List.perm_append_singleton _ _
          exact hperm.symm.nodup hn2
        · intro x hx2
          show pidSegs tl2 x.pid = []
          have hxne : x.pid ≠ p.pid := by
            intro heq
            apply hpidnotin
            apply List.mem_append_left
            rw [← heq]
            exact List.mem_map_of_mem (fun r => r.pid) hx2
          rw [htl2def, pidSegs_append,
            pidSegs_busy_ne _ _ _ _ (fun hh => hxne hh.symm),
            hremsegs x (List.mem_cons_of_mem p hx2)]
          rfl
        · intro x hx2
          show (pidSegs tl2 x.pid).map (fun seg => seg.duration) = [x.burst_time]
          rcases List.mem_append.mp hx2 with hh | hh
          · have hxne : x.pid ≠ p.pid := by
              intro heq
              apply hpidnotin
              apply List.mem_append_right
              rw [← heq]
              exact List.mem_map_of_mem (fun r => r.pid) hh
            rw [htl2def, pidSegs_append,
              pidSegs_busy_ne _ _ _ _ (fun hh2 => hxne hh2.symm)]
            rw [List.append_nil]
            exact hcompsegs x hh
          · rw [List.mem_singleton.mp hh]
            rw [htl2def, hcpid, hcburst, pidSegs_append,
              pidSegs_busy_self, hremsegs p (List.mem_cons_self p rest)]
            simp [busySegment, hprem]

/-! ### Bridging the top-level wrappers to the loop lemmas -/

theorem copyProcess_quad (p : Process) : quadOf (copyProcess p) = quadOf p := rfl

theorem sortByArrival_sorted (l : List Process) : SortedByArrival (sortByArrival l) :=
  List.sorted_insertionSort arrivalLE l

theorem sortByArrival_perm (l : List Process) : (sortByArrival l).Perm l :=
  List.perm_insertionSort arrivalLE l

theorem sorted_copy_valRemNP (ps : List Process) (hval : ValidInput ps) :
    ValRemNP (sortByArrival (ps.map copyProcess)) := by
  intro p hp
  have hp2 : p ∈ ps.map copyProcess := (sortByArrival_perm _).subset hp
  obtain ⟨q, hq, hqeq⟩ := List.mem_map.mp hp2
  obtain ⟨h1, h2⟩ := hval q hq
  subst hqeq
  exact ⟨h1, h2, rfl⟩

theorem sorted_copy_valRemP (ps : List Process) (hval : ValidInput ps) :
    ValRemP (sortByArrival (ps.map copyProcess)) := by
  intro p hp
  obtain ⟨h1, h2, h3⟩ := sorted_copy_valRemNP ps hval p hp
  rw [h3]
  exact ⟨h1, h2⟩

theorem sorted_copy_ne (ps : List Process) (hne : ps ≠ []) :
    sortByArrival (ps.map copyProcess) ≠ [] := by
  intro h
  apply hne
  have hperm := sortByArrival_perm (ps.map copyProcess)
  rw [h] at hperm
  have h2 := List.perm_nil.mp hperm.symm
  exact List.map_eq_nil_iff.mp h2

theorem maxCompletionTime_of_lastCompAt {comp : List Process} {t : Int}
    (hcb : CompBound comp t) (hl : LastCompAt comp t) : maxCompletionTime comp = t := by
  obtain ⟨front, x, heq, hx⟩ := hl
  subst heq
  exact maxCompletionTime_eq_of_bound_mem hcb
    (List.mem_append_right front (List.mem_singleton_self x)) hx

theorem minArrivalTime_eq_of_quads_perm {l₁ l₂ : List Process}
    (h : (l₁.map quadOf).Perm (l₂.map quadOf)) (hne : l₁ ≠ []) :
    minArrivalTime l₁ = minArrivalTime l₂ := by
  have hne2 : l₂ ≠ [] := by
    intro hcontra
    rw [hcontra] at h
    simp at h
    exact hne h
  apply le_antisymm
  · rcases minArrivalTime_attained hne2 with ⟨p, hp, hpa⟩
    have hq : quadOf p ∈ l₁.map quadOf := h.mem_iff.mpr (List.mem_map_of_mem quadOf hp)
    obtain ⟨q, hq2, hqe⟩ := List.mem_map.mp hq
    have harr : q.arrival_time = p.arrival_time := quadOf_eq_arrival hqe
    rw [← hpa, ← harr]
    exact minArrivalTime_le hq2
  · rcases minArrivalTime_attained hne with ⟨p, hp, hpa⟩
    have hq : quadOf p ∈ l₂.map quadOf := h.mem_iff.mp (List.mem_map_of_mem quadOf hp)
    obtain ⟨q, hq2, hqe⟩ := List.mem_map.mp hq
    have harr : q.arrival_time = p.arrival_time := quadOf_eq_arrival hqe
    rw [← hpa, ← harr]
    exact minArrivalTime_le hq2

theorem pids_perm_of_quads_perm {l₁ l₂ : List Process}
    (h : (l₁.map quadOf).Perm (l₂.map quadOf)) : (pidsOf l₁).Perm (pidsOf l₂) := by
  have h2 := h.map (fun x : Int × Int × Int × Int => x.1)
  rw [List.map_map, List.map_map] at h2
  exact h2

theorem pidsOf_map_copy (ps : List Process) : pidsOf (ps.map copyProcess) = pidsOf ps := by
  rw [pidsOf, pidsOf, List.map_map]
  rfl

theorem sjf_non_preemptive_eq_loop (ps : List Process) (tl : List Segment) (cs : List Process)
    (h : sjf_non_preemptive ps = some (tl, cs)) :
    ∃ sF, sjfNPLoop (3 * (sortByArrival (ps.map copyProcess)).length + 1)
      { current_time := 0, remaining := sortByArrival (ps.map copyProcess),
        timeline := [], completed := [] } = some sF ∧ sF.timeline = tl ∧ sF.completed = cs := by
  unfold sjf_non_preemptive at h
  simp only [] at h
  cases hloop : sjfNPLoop (3 * (sortByArrival (ps.map copyProcess)).length + 1)
      { current_time := 0, remaining := sortByArrival (ps.map copyProcess),
        timeline := [], completed := [] } with
  | none => rw [hloop] at h; cases h
  | some sF =>
    rw [hloop] at h
    simp only [Option.some.injEq, Prod.mk.injEq] at h
    exact ⟨sF, rfl, h.1, h.2⟩

theorem sjf_preemptive_eq_loop (ps : List Process) (tl : List Segment) (cs : List Process)
    (h : sjf_preemptive ps = some (tl, cs)) :
    ∃ sF, srtfLoop (3 * (sortByArrival (ps.map copyProcess)).length + 1)
      { current_time := 0, remaining := sortByArrival (ps.map copyProcess), current := none,
        timeline := [], completed := [] } = some sF ∧ sF.timeline = tl ∧ sF.completed = cs := by
  unfold sjf_preemptive at h
  simp only [] at h
  cases hloop : srtfLoop (3 * (sortByArrival (ps.map copyProcess)).length + 1)
      { current_time := 0, remaining := sortByArrival (ps.map copyProcess), current := none,
        timeline := [], completed := [] } with
  | none => rw [hloop] at h; cases h
  | some sF =>
    rw [hloop] at h
    simp only [Option.some.injEq, Prod.mk.injEq] at h
    exact ⟨sF, rfl, h.1, h.2⟩

theorem priority_scheduling_eq_loop (ps : List Process) (preemptive : Bool)
    (tl : List Segment) (cs : List Process)
    (h : priority_scheduling ps preemptive = some (tl, cs)) :
    ∃ sF, prioLoop preemptive (3 * (sortByArrival (ps.map copyProcess)).length + 1)
      { current_time := 0, remaining := sortByArrival (ps.map copyProcess), current := none,
        timeline := [], completed := [] } = some sF ∧ sF.timeline = tl ∧ sF.completed = cs := by
  unfold priority_scheduling at h
  simp only [] at h
  cases hloop : prioLoop preemptive (3 * (sortByArrival (ps.map copyProcess)).length + 1)
      { current_time := 0, remaining := sortByArrival (ps.map copyProcess), current := none,
        timeline := [], completed := [] } with
  | none => rw [hloop] at h; cases h
  | some sF =>
    rw [hloop] at h
    simp only [Option.some.injEq, Prod.mk.injEq] at h
    exact ⟨sF, rfl, h.1, h.2⟩

theorem round_robin_eq_loop (ps : List Process) (time_quantum : Int)
    (tl : List Segment) (cs : List Process)
    (h : round_robin ps time_quantum = some (tl, cs)) :
    ∃ sF, rrLoop time_quantum
      (2 * (sortByArrival (ps.map copyProcess)).length +
        2 * sumRemainingNat (sortByArrival (ps.map copyProcess)) + 2)
      { current_time :=
          match sortByArrival (ps.map copyProcess) with
          | [] => 0
          | p :: _ => p.arrival_time,
        remaining := sortByArrival (ps.map copyProcess), ready_queue := [],
        timeline := [], completed := [] } = some sF ∧ sF.timeline = tl ∧ sF.completed = cs := by
  unfold round_robin at h
  simp only [] at h
  cases hloop : rrLoop time_quantum
      (2 * (sortByArrival (ps.map copyProcess)).length +
        2 * sumRemainingNat (sortByArrival (ps.map copyProcess)) + 2)
      { current_time :=
          match sortByArrival (ps.map copyProcess) with
          | [] => 0
          | p :: _ => p.arrival_time,
        remaining := sortByArrival (ps.map copyProcess), ready_queue := [],
        timeline := [], completed := [] } with
  | none => rw [hloop] at h; cases h
  | some sF =>
    rw [hloop] at h
    simp only [Option.some.injEq, Prod.mk.injEq] at h
    exact ⟨sF, rfl, h.1, h.2⟩

theorem fcfsStep_first (p0 : Process) (harr : 0 ≤ p0.arrival_time) :
    fcfsStep { current_time := 0, timeline := [], completed := [] } p0 =
      { current_time := p0.arrival_time + p0.remaining_time,
        timeline := [busySegment p0.pid p0.arrival_time p0.remaining_time],
        completed := [finalizeProcess { markStarted p0 p0.arrival_time with remaining_time := 0 }
          (p0.arrival_time + p0.remaining_time)] } := by
  by_cases hc : (0 : Int) < p0.arrival_time
  · rw [fcfsStep_first_gap { current_time := 0, timeline := [], completed := [] } p0
      (by exact hc) (by show ¬(0 : Int) > 0; omega)]
    simp
  · have h0 : p0.arrival_time = 0 := le_antisymm (not_lt.mp hc) harr
    rw [fcfsStep_nogap { current_time := 0, timeline := [], completed := [] } p0 (by exact hc)]
    simp [h0]

theorem ne_nil_of_quads_perm {l₁ l₂ : List Process}
    (h : (l₁.map quadOf).Perm (l₂.map quadOf)) (hne : l₂ ≠ []) : l₁ ≠ [] := by
  intro hcontra
  rw [hcontra] at h
  simp only [List.map_nil] at h
  have h2 := List.perm_nil.mp h.symm
  exact hne (List.map_eq_nil_iff.mp h2)

theorem final_sum_eq_maxC {tl : List Segment} {comp : List Process} {t t₀ : Int}
    (hsum : sumDur tl - sumDur ([] : List Segment) = t - t₀)
    (hcb : CompBound comp t)
    (hlast : comp = [] ∨ LastCompAt comp t)
    (hne : comp ≠ []) :
    sumDur tl = maxCompletionTime comp - t₀ := by
  rcases hlast with h | h
  · exact absurd h hne
  · rw [maxCompletionTime_of_lastCompAt hcb h]
    have h0 : sumDur ([] : List Segment) = 0 := rfl
    omega

/-- C1 (counterexample to the original claim): on the single valid process
`Process(pid=1, arrival_time=2, burst_time=3)`, `sjf_non_preemptive` emits an idle segment
from clock 0 to the arrival at 2 plus a busy segment of length 3, so the total timeline
duration is 5, while max(completion_time) - min(arrival_time) over the finalized processes
is 5 - 2 = 3.  The middle three algorithms start their idle accounting at clock 0, not at the
earliest arrival, so the claimed identity fails whenever the earliest arrival is positive. -/
theorem claim_C1_counterexample :
    (sjf_non_preemptive [Process.init 1 2 3 0]).map
        (fun r => (sumDur r.1, maxCompletionTime r.2 - minArrivalTime r.2)) =
      some (5, 3) ∧ (5 : Int) ≠ 3 := by
  constructor
  · rfl
  · decide

/-- C1 (amended): for every non-empty valid input, the total duration of the emitted
timeline (idle segments included) equals max(completion_time) - min(arrival_time) over the
finalized processes for `fcfs` and `round_robin` (whose clocks start at the earliest
arrival), and equals max(completion_time) - 0 for `sjf_non_preemptive`, `sjf_preemptive`
and `priority_scheduling` (whose clocks start at 0, emitting a leading idle segment when
the earliest arrival is positive); the loop-based algorithms are stated conditionally on
the fuelled loop returning a result, and `round_robin` under its documented contract
`time_quantum ≥ 1`. -/
theorem claim_C1_sum_accounts_full_span (ps : List Process) (hne : ps ≠ [])
    (hval : ValidInput ps) :
    (sumDur (fcfs ps).1 = maxCompletionTime (fcfs ps).2 - minArrivalTime (fcfs ps).2) ∧
    (∀ tl cs, sjf_non_preemptive ps = some (tl, cs) → sumDur tl = maxCompletionTime cs) ∧
    (∀ tl cs, sjf_preemptive ps = some (tl, cs) → sumDur tl = maxCompletionTime cs) ∧
    (∀ preemptive tl cs, priority_scheduling ps preemptive = some (tl, cs) →
      sumDur tl = maxCompletionTime cs) ∧
    (∀ time_quantum tl cs, 1 ≤ time_quantum → round_robin ps time_quantum = some (tl, cs) →
      sumDur tl = maxCompletionTime cs - minArrivalTime cs) := by
  have hvalNP := sorted_copy_valRemNP ps hval
  have hvalP := sorted_copy_valRemP ps hval
  have hsne := sorted_copy_ne ps hne
  have hsorted := sortByArrival_sorted (ps.map copyProcess)
  refine ⟨?_, ?_, ?_, ?_, ?_⟩
  · -- fcfs
    cases hs : sortByArrival (ps.map copyProcess) with
    | nil => exact absurd hs hsne
    | cons p0 rest =>
      rw [hs] at hvalNP hsorted
      obtain ⟨hp0b, hp0a, hp0r⟩ := hvalNP p0 (List.mem_cons_self p0 rest)
      have hfc : fcfs ps =
          (((sortByArrival (ps.map copyProcess)).foldl fcfsStep
              { current_time := 0, timeline := [], completed := [] }).timeline,
           ((sortByArrival (ps.map copyProcess)).foldl fcfsStep
              { current_time := 0, timeline := [], completed := [] }).completed) := rfl
      rw [hs] at hfc
      have hstep := fcfsStep_first p0 hp0a
      have hc0quad : quadOf (finalizeProcess
          { markStarted p0 p0.arrival_time with remaining_time := 0 }
          (p0.arrival_time + p0.remaining_time)) = quadOf p0 := by
        rw [finalizeProcess_quad, quadOf_set_remaining, markStarted_quad]
      set acc1 : FcfsAcc :=
        { current_time := p0.arrival_time + p0.remaining_time,
          timeline := [busySegment p0.pid p0.arrival_time p0.remaining_time],
          completed := [finalizeProcess
            { markStarted p0 p0.arrival_time with remaining_time := 0 }
            (p0.arrival_time + p0.remaining_time)] } with hacc1
      have hfold := fcfsFold_spec rest acc1
        (fun q hq => hvalNP q (List.mem_cons_of_mem p0 hq))
        (by rw [hacc1]; show 0 < p0.arrival_time + p0.remaining_time; omega)
        (by
          rw [hacc1]
          intro q hq
          simp only [List.mem_singleton] at hq
          subst hq
          exact le_of_eq (finalizeProcess_completion _ _))
        (by rw [hacc1]; exact ⟨[], _, rfl, finalizeProcess_completion _ _⟩)
        (by rw [hacc1]; simp [SortedByCompletion])
      obtain ⟨hpos, hmono, hsum, hcbF, hlastF, hsortF, hquadeq, hsegs⟩ := hfold
      have e1 : sumDur acc1.timeline = p0.remaining_time := by
        rw [hacc1]; exact sumDur_busy _ _ _
      have e2 : acc1.current_time = p0.arrival_time + p0.remaining_time := by rw [hacc1]
      rw [e1, e2] at hsum
      have hmaxc := maxCompletionTime_of_lastCompAt hcbF hlastF
      have hquad2 : (List.foldl fcfsStep acc1 rest).completed.map quadOf =
          (p0 :: rest).map quadOf := by
        rw [hquadeq, hacc1]
        simp [hc0quad]
      have hcne := ne_nil_of_quads_perm (List.Perm.of_eq hquad2) (List.cons_ne_nil p0 rest)
      have hminA := minArrivalTime_eq_of_quads_perm (List.Perm.of_eq hquad2) hcne
      have hminhead := minArrivalTime_sorted_head hsorted
      rw [hfc]
      simp only []
      rw [List.foldl_cons, hstep, hmaxc, hminA, hminhead]
      omega
  · -- sjf_non_preemptive
    intro tl cs hrun
    obtain ⟨sF, hloop, htl, hcs⟩ := sjf_non_preemptive_eq_loop ps tl cs hrun
    have hout := sjfNPLoop_spec _ _ sF hloop
      (by exact hvalNP)
      (by intro p hp; simp at hp)
      (by intro h1; exact Or.inl rfl)
      (by exact List.Pairwise.nil)
    obtain ⟨hremF, hmono, hsum, hcbF, hlastF, hsortF, hperm⟩ := hout
    have hperm2 : (sF.completed.map quadOf).Perm
        ((sortByArrival (ps.map copyProcess)).map quadOf) := by
      simpa using hperm
    have hcne : sF.completed ≠ [] := ne_nil_of_quads_perm hperm2 hsne
    simp only [] at hsum
    rw [← htl, ← hcs]
    have hfin := final_sum_eq_maxC hsum hcbF hlastF hcne
    simpa using hfin
  · -- sjf_preemptive
    intro tl cs hrun
    obtain ⟨sF, hloop, htl, hcs⟩ := sjf_preemptive_eq_loop ps tl cs hrun
    have hout := srtfLoop_spec _ _ sF hloop
      (by exact hvalP)
      (by intro p hp; simp at hp)
      (by intro h1; exact Or.inl rfl)
      (by exact List.Pairwise.nil)
    obtain ⟨hremF, hmono, hsum, hcbF, hlastF, hsortF, hperm⟩ := hout
    have hperm2 : (sF.completed.map quadOf).Perm
        ((sortByArrival (ps.map copyProcess)).map quadOf) := by
      simpa using hperm
    have hcne : sF.completed ≠ [] := ne_nil_of_quads_perm hperm2 hsne
    simp only [] at hsum
    rw [← htl, ← hcs]
    have hfin := final_sum_eq_maxC hsum hcbF hlastF hcne
    simpa using hfin
  · -- priority_scheduling
    intro preemptive tl cs hrun
    obtain ⟨sF, hloop, htl, hcs⟩ := priority_scheduling_eq_loop ps preemptive tl cs hrun
    have hout := prioLoop_spec preemptive _ _ sF hloop
      (by exact hvalP)
      (by intro c hc; exact Option.noConfusion hc)
      (by intro p hp; simp at hp)
      (by intro h1; exact Or.inl rfl)
      (by exact List.Pairwise.nil)
    obtain ⟨hremF, hmono, hsum, hcbF, hlastF, hsortF, hperm⟩ := hout
    have hperm2 : (sF.completed.map quadOf).Perm
        ((sortByArrival (ps.map copyProcess)).map quadOf) := by
      simpa using hperm
    have hcne : sF.completed ≠ [] := ne_nil_of_quads_perm hperm2 hsne
    simp only [] at hsum
    rw [← htl, ← hcs]
    have hfin := final_sum_eq_maxC hsum hcbF hlastF hcne
    simpa using hfin
  · -- round_robin
    intro time_quantum tl cs htq hrun
    obtain ⟨sF, hloop, htl, hcs⟩ := round_robin_eq_loop ps time_quantum tl cs hrun
    cases hs : sortByArrival (ps.map copyProcess) with
    | nil => exact absurd hs hsne
    | cons p0 rest =>
      rw [hs] at hloop hvalP hsorted
      simp only [] at hloop
      have hout := rrLoop_spec time_quantum htq _ _ sF hloop
        (by show ValRemP ((p0 :: rest) ++ []); rw [List.append_nil]; exact hvalP)
        (by intro p hp; simp at hp)
        (by intro h1 h2; exact Or.inl rfl)
        (by exact List.Pairwise.nil)
      obtain ⟨hremF, hreadyF, hmono, hsum, hcbF, hlastF, hsortF, hperm⟩ := hout
      have hperm2 : (sF.completed.map quadOf).Perm ((p0 :: rest).map quadOf) := by
        simpa using hperm
      have hcne : sF.completed ≠ [] := ne_nil_of_quads_perm hperm2 (List.cons_ne_nil p0 rest)
      have hminA := minArrivalTime_eq_of_quads_perm hperm2 hcne
      have hminhead := minArrivalTime_sorted_head hsorted
      have hmaxc : maxCompletionTime sF.completed = sF.current_time := by
        rcases hlastF with h | h
        · exact absurd h hcne
        · exact maxCompletionTime_of_lastCompAt hcbF h
      simp only [] at hsum
      have h0 : sumDur ([] : List Segment) = 0 := rfl
      rw [← htl, ← hcs, hmaxc, hminA, hminhead]
      omega

/-- C1 witness: the amended accounting identity evaluated on the concrete single-process
input `Process(pid=1, arrival_time=2, burst_time=3)` for `fcfs`. -/
theorem claim_C1_sum_accounts_full_span_witness :
    ([Process.init 1 2 3 0] ≠ [] ∧ ValidInput [Process.init 1 2 3 0]) ∧
    sumDur (fcfs [Process.init 1 2 3 0]).1 =
      maxCompletionTime (fcfs [Process.init 1 2 3 0]).2 -
        minArrivalTime (fcfs [Process.init 1 2 3 0]).2 :=
  ⟨⟨by decide, by unfold ValidInput; decide⟩,
   (claim_C1_sum_accounts_full_span [Process.init 1 2 3 0] (by decide)
     (by unfold ValidInput; decide)).1⟩

theorem fcfs_output_quads (ps : List Process) (hval : ValidInput ps) :
    (fcfs ps).2.map quadOf = (sortByArrival (ps.map copyProcess)).map quadOf := by
  have hvalNP := sorted_copy_valRemNP ps hval
  have hfc : fcfs ps =
      (((sortByArrival (ps.map copyProcess)).foldl fcfsStep
          { current_time := 0, timeline := [], completed := [] }).timeline,
       ((sortByArrival (ps.map copyProcess)).foldl fcfsStep
          { current_time := 0, timeline := [], completed := [] }).completed) := rfl
  cases hs : sortByArrival (ps.map copyProcess) with
  | nil =>
    rw [hs] at hfc
    rw [hfc]
    rfl
  | cons p0 rest =>
    rw [hs] at hvalNP hfc
    obtain ⟨hp0b, hp0a, hp0r⟩ := hvalNP p0 (List.mem_cons_self p0 rest)
    have hstep := fcfsStep_first p0 hp0a
    have hc0quad : quadOf (finalizeProcess
        { markStarted p0 p0.arrival_time with remaining_time := 0 }
        (p0.arrival_time + p0.remaining_time)) = quadOf p0 := by
      rw [finalizeProcess_quad, quadOf_set_remaining, markStarted_quad]
    set acc1 : FcfsAcc :=
      { current_time := p0.arrival_time + p0.remaining_time,
        timeline := [busySegment p0.pid p0.arrival_time p0.remaining_time],
        completed := [finalizeProcess
          { markStarted p0 p0.arrival_time with remaining_time := 0 }
          (p0.arrival_time + p0.remaining_time)] } with hacc1
    have hfold := fcfsFold_spec rest acc1
      (fun q hq => hvalNP q (List.mem_cons_of_mem p0 hq))
      (by rw [hacc1]; show 0 < p0.arrival_time + p0.remaining_time; omega)
      (by
        rw [hacc1]
        intro q hq
        simp only [List.mem_singleton] at hq
        subst hq
        exact le_of_eq (finalizeProcess_completion _ _))
      (by rw [hacc1]; exact ⟨[], _, rfl, finalizeProcess_completion _ _⟩)
      (by rw [hacc1]; simp [SortedByCompletion])
    obtain ⟨hpos, hmono, hsum, hcbF, hlastF, hsortF, hquadeq, hsegs⟩ := hfold
    rw [hfc]
    simp only []
    rw [List.foldl_cons, hstep, hquadeq, hacc1]
    simp [hc0quad]

theorem sortedByArrival_of_quads_eq {l₁ l₂ : List Process}
    (h : l₁.map quadOf = l₂.map quadOf) (hs : SortedByArrival l₂) : SortedByArrival l₁ := by
  have h2 : List.Pairwise (fun a b : Int × Int × Int × Int => a.2.1 ≤ b.2.1)
      (l₂.map quadOf) := by
    rw [List.pairwise_map]
    exact hs
  rw [← h] at h2
  rw [List.pairwise_map] at h2
  exact h2

theorem quads_map_copy (ps : List Process) :
    (ps.map copyProcess).map quadOf = ps.map quadOf := by
  rw [List.map_map]
  rfl

theorem output_quads_perm_input {cs : List Process} (ps : List Process)
    (h : (cs.map quadOf).Perm ((sortByArrival (ps.map copyProcess)).map quadOf)) :
    (pidsOf cs).Perm (pidsOf ps) := by
  have h2 : ((sortByArrival (ps.map copyProcess)).map quadOf).Perm (ps.map quadOf) := by
    have h3 := (sortByArrival_perm (ps.map copyProcess)).map quadOf
    rw [quads_map_copy] at h3
    exact h3
  exact pids_perm_of_quads_perm (h.trans h2)

/-- C10: `fcfs` returns its finalized processes sorted by arrival time, while the four
loop-based algorithms append each process to `completed_processes` at the moment it
finishes, so their returned lists are sorted by completion time; in every case the
returned list carries exactly the input's process ids (as a multiset — nothing added or
dropped).  The loop-based algorithms are stated conditionally on the fuelled loop
returning a result, and `round_robin` under its documented contract `time_quantum ≥ 1`. -/
theorem claim_C10_output_order (ps : List Process) (hval : ValidInput ps) :
    (SortedByArrival (fcfs ps).2 ∧ (pidsOf (fcfs ps).2).Perm (pidsOf ps)) ∧
    (∀ tl cs, sjf_non_preemptive ps = some (tl, cs) →
      SortedByCompletion cs ∧ (pidsOf cs).Perm (pidsOf ps)) ∧
    (∀ tl cs, sjf_preemptive ps = some (tl, cs) →
      SortedByCompletion cs ∧ (pidsOf cs).Perm (pidsOf ps)) ∧
    (∀ preemptive tl cs, priority_scheduling ps preemptive = some (tl, cs) →
      SortedByCompletion cs ∧ (pidsOf cs).Perm (pidsOf ps)) ∧
    (∀ time_quantum tl cs, 1 ≤ time_quantum → round_robin ps time_quantum = some (tl, cs) →
      SortedByCompletion cs ∧ (pidsOf cs).Perm (pidsOf ps)) := by
  have hvalNP := sorted_copy_valRemNP ps hval
  have hvalP := sorted_copy_valRemP ps hval
  refine ⟨?_, ?_, ?_, ?_, ?_⟩
  · have hq := fcfs_output_quads ps hval
    constructor
    · exact sortedByArrival_of_quads_eq hq (sortByArrival_sorted _)
    · exact output_quads_perm_input ps (List.Perm.of_eq hq)
  · intro tl cs hrun
    obtain ⟨sF, hloop, htl, hcs⟩ := sjf_non_preemptive_eq_loop ps tl cs hrun
    have hout := sjfNPLoop_spec _ _ sF hloop
      (by exact hvalNP)
      (by intro p hp; simp at hp)
      (by intro h1; exact Or.inl rfl)
      (by exact List.Pairwise.nil)
    obtain ⟨-, -, -, -, -, hsortF, hperm⟩ := hout
    have hperm2 : (sF.completed.map quadOf).Perm
        ((sortByArrival (ps.map copyProcess)).map quadOf) := by
      simpa using hperm
    rw [← hcs]
    exact ⟨hsortF, output_quads_perm_input ps hperm2⟩
  · intro tl cs hrun
    obtain ⟨sF, hloop, htl, hcs⟩ := sjf_preemptive_eq_loop ps tl cs hrun
    have hout := srtfLoop_spec _ _ sF hloop
      (by exact hvalP)
      (by intro p hp; simp at hp)
      (by intro h1; exact Or.inl rfl)
      (by exact List.Pairwise.nil)
    obtain ⟨-, -, -, -, -, hsortF, hperm⟩ := hout
    have hperm2 : (sF.completed.map quadOf).Perm
        ((sortByArrival (ps.map copyProcess)).map quadOf) := by
      simpa using hperm
    rw [← hcs]
    exact ⟨hsortF, output_quads_perm_input ps hperm2⟩
  · intro preemptive tl cs hrun
    obtain ⟨sF, hloop, htl, hcs⟩ := priority_scheduling_eq_loop ps preemptive tl cs hrun
    have hout := prioLoop_spec preemptive _ _ sF hloop
      (by exact hvalP)
      (by intro c hc; exact Option.noConfusion hc)
      (by intro p hp; simp at hp)
      (by intro h1; exact Or.inl rfl)
      (by exact List.Pairwise.nil)
    obtain ⟨-, -, -, -, -, hsortF, hperm⟩ := hout
    have hperm2 : (sF.completed.map quadOf).Perm
        ((sortByArrival (ps.map copyProcess)).map quadOf) := by
      simpa using hperm
    rw [← hcs]
    exact ⟨hsortF, output_quads_perm_input ps hperm2⟩
  · intro time_quantum tl cs htq hrun
    obtain ⟨sF, hloop, htl, hcs⟩ := round_robin_eq_loop ps time_quantum tl cs hrun
    have hout := rrLoop_spec time_quantum htq _ _ sF hloop
      (by show ValRemP ((sortByArrival (ps.map copyProcess)) ++ []);
          rw [List.append_nil]; exact hvalP)
      (by intro p hp; simp at hp)
      (by intro h1 h2; exact Or.inl rfl)
      (by exact List.Pairwise.nil)
    obtain ⟨-, -, -, -, -, -, hsortF, hperm⟩ := hout
    have hperm2 : (sF.completed.map quadOf).Perm
        ((sortByArrival (ps.map copyProcess)).map quadOf) := by
      simpa using hperm
    rw [← hcs]
    exact ⟨hsortF, output_quads_perm_input ps hperm2⟩

/-- C10 witness: the output-order property evaluated on the concrete single-process input
`Process(pid=1, arrival_time=0, burst_time=2)` for `fcfs`. -/
theorem claim_C10_output_order_witness :
    ValidInput [Process.init 1 0 2 0] ∧
    (SortedByArrival (fcfs [Process.init 1 0 2 0]).2 ∧
     (pidsOf (fcfs [Process.init 1 0 2 0]).2).Perm (pidsOf [Process.init 1 0 2 0])) :=
  ⟨by unfold ValidInput; decide,
   (claim_C10_output_order [Process.init 1 0 2 0] (by unfold ValidInput; decide)).1⟩

/-! ### Pid bookkeeping for C6 -/

theorem pidsOf_append (l l' : List Process) : pidsOf (l ++ l') = pidsOf l ++ pidsOf l' :=
  List.map_append _ l l'

theorem perm_cons_middle {α : Type} (a : α) (l₁ l₂ : List α) :
    (l₁ ++ (l₂ ++ [a])).Perm (a :: (l₁ ++ l₂)) := by
  rw [← List.append_assoc]
  exact List.perm_append_comm

theorem set_perm_cons_eraseIdx :
    ∀ (l : List Process) (i : Nat) (a : Process), i < l.length →
      (l.set i a).Perm (a :: l.eraseIdx i) := by
  intro l
  induction l with
  | nil => intro i a hi; cases hi
  | cons p rest ih =>
    intro i a hi
    cases i with
    | zero => exact List.Perm.refl _
    | succ j =>
      have hj : j < rest.length := by simpa using hi
      have h1 : (p :: rest.set j a).Perm (p :: (a :: rest.eraseIdx j)) :=
        (ih j a hj).cons p
      have h2 : (p :: a :: rest.eraseIdx j).Perm (a :: p :: rest.eraseIdx j) :=
        List.Perm.swap a p _
      exact h1.trans h2

theorem pid_disjoint_of_nodup {rem comp : List Process}
    (h : (pidsOf (rem ++ comp)).Nodup) {p : Process} (hp : p ∈ rem) {q : Process}
    (hq : q ∈ comp) : q.pid ≠ p.pid := by
  rw [pidsOf_append] at h
  obtain ⟨h1, h2, hdisj⟩ := List.nodup_append.mp h
  intro hcontra
  exact hdisj (List.mem_map_of_mem _ hp) (hcontra ▸ List.mem_map_of_mem (fun r => r.pid) hq)

theorem pid_ne_of_mem_eraseIdx {l : List Process} {i : Nat} (hi : i < l.length)
    (hnd : (pidsOf l).Nodup) {q : Process} (hq : q ∈ l.eraseIdx i) :
    q.pid ≠ (l.getD i dummyProcess).pid := by
  have hperm : (pidsOf l).Perm ((l.getD i dummyProcess).pid :: pidsOf (l.eraseIdx i)) :=
    (perm_getD_cons_eraseIdx l i hi).map (fun p : Process => p.pid)
  have hnd2 := hperm.nodup hnd
  have hnotin := (List.nodup_cons.mp hnd2).1
  intro hcontra
  exact hnotin (hcontra ▸ List.mem_map_of_mem (fun r => r.pid) hq)

theorem nodup_step_complete {rem comp : List Process} {i : Nat} (hi : i < rem.length)
    (hnd : (pidsOf (rem ++ comp)).Nodup) (c : Process)
    (hcpid : c.pid = (rem.getD i dummyProcess).pid) :
    (pidsOf (rem.eraseIdx i ++ (comp ++ [c]))).Nodup := by
  have hperm1 : (pidsOf rem).Perm ((rem.getD i dummyProcess).pid :: pidsOf (rem.eraseIdx i)) :=
    (perm_getD_cons_eraseIdx rem i hi).map (fun p : Process => p.pid)
  have htarget : (pidsOf (rem ++ comp)).Perm (pidsOf (rem.eraseIdx i ++ (comp ++ [c]))) := by
    rw [pidsOf_append, pidsOf_append, pidsOf_append]
    have h1 := hperm1.append_right (pidsOf comp)
    have h3 : pidsOf [c] = [c.pid] := rfl
    rw [h3, hcpid]
    exact h1.trans
      (perm_cons_middle (rem.getD i dummyProcess).pid (pidsOf (rem.eraseIdx i))
        (pidsOf comp)).symm
  exact htarget.nodup hnd

theorem nodup_step_set {rem comp : List Process} {i : Nat} (hi : i < rem.length)
    (hnd : (pidsOf (rem ++ comp)).Nodup) (a : Process)
    (hapid : a.pid = (rem.getD i dummyProcess).pid) :
    (pidsOf (rem.set i a ++ comp)).Nodup := by
  have hperm1 : (pidsOf rem).Perm ((rem.getD i dummyProcess).pid :: pidsOf (rem.eraseIdx i)) :=
    (perm_getD_cons_eraseIdx rem i hi).map (fun p : Process => p.pid)
  have hperm2 : (pidsOf (rem.set i a)).Perm (a.pid :: pidsOf (rem.eraseIdx i)) :=
    (set_perm_cons_eraseIdx rem i a hi).map (fun p : Process => p.pid)
  have h4 : (pidsOf rem).Perm (pidsOf (rem.set i a)) := by
    refine hperm1.trans ?_
    rw [← hapid]
    exact hperm2.symm
  rw [pidsOf_append] at hnd ⊢
  exact ((h4.append_right (pidsOf comp)).nodup) hnd

theorem sjfNPLoop_pidsegs :
    ∀ (fuel : Nat) (s sF : SjfNPState),
      sjfNPLoop fuel s = some sF →
      ValRemNP s.remaining →
      (pidsOf (s.remaining ++ s.completed)).Nodup →
      PidSegsNP s.timeline s.remaining s.completed →
      PidSegsNP sF.timeline sF.remaining sF.completed := by
  intro fuel
  induction fuel with
  | zero => intro s sF h; cases h
  | succ n ih =>
    intro s sF h hval hnd hinv
    rw [sjfNPLoop] at h
    by_cases hrem : s.remaining = []
    · rw [if_pos hrem] at h
      cases h
      exact hinv
    · rw [if_neg hrem] at h
      cases hsel : pyMinIdx (fun p => p.burst_time)
          (fun p => decide (p.arrival_time ≤ s.current_time)) s.remaining with
      | none =>
        have hstep := sjfNPStep_idle s hsel
        have hs' := ih (sjfNPStep s) sF h
        rw [hstep] at hs'
        apply hs' hval hnd
        constructor
        · intro q hq
          show pidSegs (if s.current_time < minArrivalTime s.remaining then
              s.timeline ++ [idleSegment s.current_time (minArrivalTime s.remaining)]
            else s.timeline) q.pid = []
          split
          · rw [pidSegs_append, hinv.1 q hq, pidSegs_idle, List.nil_append]
          · exact hinv.1 q hq
        · intro q hq
          show (pidSegs (if s.current_time < minArrivalTime s.remaining then
              s.timeline ++ [idleSegment s.current_time (minArrivalTime s.remaining)]
            else s.timeline) q.pid).map (fun seg => seg.duration) = [q.burst_time]
          split
          · rw [pidSegs_append, pidSegs_idle, List.append_nil]
            exact hinv.2 q hq
          · exact hinv.2 q hq
      | some i =>
        obtain ⟨hilen, hiok, himin, hifirst⟩ := pyMinIdx_spec _ _ _ _ hsel
        obtain ⟨hct, hrm, htl, hcomp⟩ := sjfNPStep_busy_spec s i hsel
        have hselmem : s.remaining.getD i dummyProcess ∈ s.remaining := getD_mem hilen
        obtain ⟨hburst, harr, hremeq⟩ := hval _ hselmem
        have hnd' := hnd
        rw [pidsOf_append] at hnd'
        obtain ⟨hndrem, hndcomp, hnddisj⟩ := List.nodup_append.mp hnd'
        have hcpid : (finalizeProcess
            { markStarted (s.remaining.getD i dummyProcess) s.current_time with
              remaining_time := 0 }
            (s.current_time + (s.remaining.getD i dummyProcess).remaining_time)).pid =
            (s.remaining.getD i dummyProcess).pid := by
          rw [finalizeProcess_pid]
          exact markStarted_pid _ _
        have hcburst : (finalizeProcess
            { markStarted (s.remaining.getD i dummyProcess) s.current_time with
              remaining_time := 0 }
            (s.current_time + (s.remaining.getD i dummyProcess).remaining_time)).burst_time =
            (s.remaining.getD i dummyProcess).burst_time := by
          rw [finalizeProcess_burst]
          exact markStarted_burst _ _
        have hs' := ih (sjfNPStep s) sF h
        rw [hrm, htl, hcomp] at hs'
        apply hs'
        · intro q hq
          exact hval q ((List.eraseIdx_sublist s.remaining i).subset hq)
        · exact nodup_step_complete hilen hnd _ hcpid
        · constructor
          · intro q hq
            have hqmem : q ∈ s.remaining := (List.eraseIdx_sublist s.remaining i).subset hq
            have hqne : q.pid ≠ (s.remaining.getD i dummyProcess).pid :=
              pid_ne_of_mem_eraseIdx hilen hndrem hq
            rw [pidSegs_append, hinv.1 q hqmem, pidSegs_busy_ne _ _ _ _ hqne.symm,
              List.nil_append]
          · intro q hq
            rcases List.mem_append.mp hq with hh | hh
            · have hqne : q.pid ≠ (s.remaining.getD i dummyProcess).pid :=
                pid_disjoint_of_nodup hnd hselmem hh
              rw [pidSegs_append, pidSegs_busy_ne _ _ _ _ hqne.symm, List.append_nil]
              exact hinv.2 q hh
            · rw [List.mem_singleton.mp hh, hcpid, hcburst]
              rw [pidSegs_append, hinv.1 _ hselmem, pidSegs_busy_self]
              simp [busySegment]
              simpa only [List.getD_eq_getElem?_getD] using hremeq

theorem srtfLoop_pidaccount :
    ∀ (fuel : Nat) (s sF : SrtfState),
      srtfLoop fuel s = some sF →
      (pidsOf (s.remaining ++ s.completed)).Nodup →
      PidAccount s.timeline s.remaining s.completed →
      PidAccount sF.timeline sF.remaining sF.completed := by
  intro fuel
  induction fuel with
  | zero => intro s sF h; cases h
  | succ n ih =>
    intro s sF h hnd hinv
    rw [srtfLoop] at h
    by_cases hrem : s.remaining = []
    · rw [if_pos hrem] at h
      cases h
      exact hinv
    · rw [if_neg hrem] at h
      cases hsel : pyMinIdx (fun p => p.remaining_time)
          (fun p => decide (p.arrival_time ≤ s.current_time)) s.remaining with
      | none =>
        have hstep := srtfStep_idle s hsel
        have hs' := ih (srtfStep s) sF h
        rw [hstep] at hs'
        apply hs' hnd
        constructor
        · intro q hq
          show pidDurSum (if s.current_time < minArrivalTime s.remaining then
              s.timeline ++ [idleSegment s.current_time (minArrivalTime s.remaining)]
            else s.timeline) q.pid + q.remaining_time = q.burst_time
          split
          · rw [pidDurSum_idle]
            exact hinv.1 q hq
          · exact hinv.1 q hq
        · intro q hq
          show pidDurSum (if s.current_time < minArrivalTime s.remaining then
              s.timeline ++ [idleSegment s.current_time (minArrivalTime s.remaining)]
            else s.timeline) q.pid = q.burst_time
          split
          · rw [pidDurSum_idle]
            exact hinv.2 q hq
          · exact hinv.2 q hq
      | some i =>
        obtain ⟨hilen, hiok, himin, hifirst⟩ := pyMinIdx_spec _ _ _ _ hsel
        have hselmem : s.remaining.getD i dummyProcess ∈ s.remaining := getD_mem hilen
        rw [srtfStep_busy_eq s i hsel] at h
        simp only [] at h
        obtain ⟨M, hMdef⟩ : ∃ M, (if s.current ≠ some i then
            markStarted (s.remaining.getD i dummyProcess) s.current_time
          else s.remaining.getD i dummyProcess) = M := ⟨_, rfl⟩
        rw [hMdef] at h
        have hMrem : M.remaining_time = (s.remaining.getD i dummyProcess).remaining_time := by
          rw [← hMdef]; exact condMark_remaining _ _ _
        have hMpid : M.pid = (s.remaining.getD i dummyProcess).pid := by
          rw [← hMdef]; exact condMark_pid _ _ _
        have hMburst : M.burst_time = (s.remaining.getD i dummyProcess).burst_time := by
          rw [← hMdef]; exact condMark_burst _ _ _
        obtain ⟨E, hEdef⟩ : ∃ E, (match nextArrivalAfter s.current_time s.remaining with
          | none => M.remaining_time
          | some next_event_time => min M.remaining_time (next_event_time - s.current_time)) =
            E := ⟨_, rfl⟩
        rw [hEdef] at h
        have hnd' := hnd
        rw [pidsOf_append] at hnd'
        obtain ⟨hndrem, hndcomp, hnddisj⟩ := List.nodup_append.mp hnd'
        have hPacc := hinv.1 _ hselmem
        by_cases hdone : M.remaining_time - E = 0
        · rw [if_pos hdone] at h
          have hcpid : (finalizeProcess { M with remaining_time := M.remaining_time - E }
              (s.current_time + E)).pid = (s.remaining.getD i dummyProcess).pid := by
            rw [finalizeProcess_pid]
            exact hMpid
          have hcburst : (finalizeProcess { M with remaining_time := M.remaining_time - E }
              (s.current_time + E)).burst_time =
              (s.remaining.getD i dummyProcess).burst_time := by
            rw [finalizeProcess_burst]
            exact hMburst
          have hs' := ih _ sF h
          apply hs'
          · exact nodup_step_complete hilen hnd _ hcpid
          · constructor
            · intro q hq
              have hqne : q.pid ≠ (s.remaining.getD i dummyProcess).pid :=
                pid_ne_of_mem_eraseIdx hilen hndrem hq
              show pidDurSum (s.timeline ++ [busySegment M.pid s.current_time E]) q.pid +
                  q.remaining_time = q.burst_time
              rw [hMpid, pidDurSum_busy_ne _ _ _ _ _ hqne.symm]
              exact hinv.1 q ((List.eraseIdx_sublist s.remaining i).subset hq)
            · intro q hq
              rcases List.mem_append.mp hq with hh | hh
              · have hqne : q.pid ≠ (s.remaining.getD i dummyProcess).pid :=
                  pid_disjoint_of_nodup hnd hselmem hh
                show pidDurSum (s.timeline ++ [busySegment M.pid s.current_time E]) q.pid =
                    q.burst_time
                rw [hMpid, pidDurSum_busy_ne _ _ _ _ _ hqne.symm]
                exact hinv.2 q hh
              · rw [List.mem_singleton.mp hh]
                show pidDurSum (s.timeline ++ [busySegment M.pid s.current_time E])
                    (finalizeProcess { M with remaining_time := M.remaining_time - E }
                      (s.current_time + E)).pid =
                    (finalizeProcess { M with remaining_time := M.remaining_time - E }
                      (s.current_time + E)).burst_time
                rw [hcpid, hcburst, ← hMpid, pidDurSum_busy_self, hMpid]
                omega
        · rw [if_neg hdone] at h
          have hs' := ih _ sF h
          apply hs'
          · exact nodup_step_set hilen hnd _ hMpid
          · constructor
            · intro q hq
              rcases List.mem_cons.mp
                  ((set_perm_cons_eraseIdx s.remaining i _ hilen).subset hq) with heq | hmem
              · subst heq
                show pidDurSum (s.timeline ++ [busySegment M.pid s.current_time E]) M.pid +
                    (M.remaining_time - E) = M.burst_time
                rw [hMpid, pidDurSum_busy_self]
                omega
              · have hqne : q.pid ≠ (s.remaining.getD i dummyProcess).pid :=
                  pid_ne_of_mem_eraseIdx hilen hndrem hmem
                show pidDurSum (s.timeline ++ [busySegment M.pid s.current_time E]) q.pid +
                    q.remaining_time = q.burst_time
                rw [hMpid, pidDurSum_busy_ne _ _ _ _ _ hqne.symm]
                exact hinv.1 q ((List.eraseIdx_sublist s.remaining i).subset hmem)
            · intro q hq
              have hqne : q.pid ≠ (s.remaining.getD i dummyProcess).pid :=
                pid_disjoint_of_nodup hnd hselmem hq
              show pidDurSum (s.timeline ++ [busySegment M.pid s.current_time E]) q.pid =
                  q.burst_time
              rw [hMpid, pidDurSum_busy_ne _ _ _ _ _ hqne.symm]
              exact hinv.2 q hq

theorem prioLoop_pidaccount (preemptive : Bool) :
    ∀ (fuel : Nat) (s sF : PrioState),
      prioLoop preemptive fuel s = some sF →
      (∀ c, s.current = some c → c < s.remaining.length) →
      (pidsOf (s.remaining ++ s.completed)).Nodup →
      PidAccount s.timeline s.remaining s.completed →
      PidAccount sF.timeline sF.remaining sF.completed := by
  intro fuel
  induction fuel with
  | zero => intro s sF h; cases h
  | succ n ih =>
    intro s sF h hcur hnd hinv
    rw [prioLoop] at h
    by_cases hrem : s.remaining = []
    · rw [if_pos hrem] at h
      cases h
      exact hinv
    · rw [if_neg hrem] at h
      cases hsel : pyMinIdx (fun p => p.priority)
          (fun p => decide (p.arrival_time ≤ s.current_time)) s.remaining with
      | none =>
        have hstep := prioStep_idle preemptive s hsel
        have hs' := ih (prioStep preemptive s) sF h
        rw [hstep] at hs'
        apply hs' (by intro c hc; exact Option.noConfusion hc) hnd
        constructor
        · intro q hq
          show pidDurSum (if s.current_time < minArrivalTime s.remaining then
              s.timeline ++ [idleSegment s.current_time (minArrivalTime s.remaining)]
            else s.timeline) q.pid + q.remaining_time = q.burst_time
          split
          · rw [pidDurSum_idle]
            exact hinv.1 q hq
          · exact hinv.1 q hq
        · intro q hq
          show pidDurSum (if s.current_time < minArrivalTime s.remaining then
              s.timeline ++ [idleSegment s.current_time (minArrivalTime s.remaining)]
            else s.timeline) q.pid = q.burst_time
          split
          · rw [pidDurSum_idle]
            exact hinv.2 q hq
          · exact hinv.2 q hq
      | some i0 =>
        obtain ⟨hi0len, hi0ok, hi0min, hi0first⟩ := pyMinIdx_spec _ _ _ _ hsel
        rw [prioStep_busy_eq preemptive s i0 hsel] at h
        simp only [] at h
        obtain ⟨I, hIdef⟩ : ∃ I, (match s.current with
          | some c =>
            if ¬preemptive ∧ (s.remaining.getD c dummyProcess).arrival_time ≤ s.current_time
            then c else i0
          | none => i0) = I := ⟨_, rfl⟩
        rw [hIdef] at h
        have hIlen : I < s.remaining.length := by
          rw [← hIdef]
          cases hc : s.current with
          | none => simp only []; exact hi0len
          | some c =>
            simp only []
            split
            · exact hcur c hc
            · exact hi0len
        have hselmem : s.remaining.getD I dummyProcess ∈ s.remaining := getD_mem hIlen
        obtain ⟨M, hMdef⟩ : ∃ M, (if s.current ≠ some I then
            markStarted (s.remaining.getD I dummyProcess) s.current_time
          else s.remaining.getD I dummyProcess) = M := ⟨_, rfl⟩
        rw [hMdef] at h
        have hMrem : M.remaining_time = (s.remaining.getD I dummyProcess).remaining_time := by
          rw [← hMdef]; exact condMark_remaining _ _ _
        have hMpid : M.pid = (s.remaining.getD I dummyProcess).pid := by
          rw [← hMdef]; exact condMark_pid _ _ _
        have hMburst : M.burst_time = (s.remaining.getD I dummyProcess).burst_time := by
          rw [← hMdef]; exact condMark_burst _ _ _
        obtain ⟨E, hEdef⟩ : ∃ E, (if preemptive then
            match nextArrivalAfter s.current_time s.remaining with
            | none => M.remaining_time
            | some next_event_time => min M.remaining_time (next_event_time - s.current_time)
          else M.remaining_time) = E := ⟨_, rfl⟩
        rw [hEdef] at h
        have hnd' := hnd
        rw [pidsOf_append] at hnd'
        obtain ⟨hndrem, hndcomp, hnddisj⟩ := List.nodup_append.mp hnd'
        have hPacc := hinv.1 _ hselmem
        by_cases hdone : M.remaining_time - E = 0
        · rw [if_pos hdone] at h
          have hcpid : (finalizeProcess { M with remaining_time := M.remaining_time - E }
              (s.current_time + E)).pid = (s.remaining.getD I dummyProcess).pid := by
            rw [finalizeProcess_pid]
            exact hMpid
          have hcburst : (finalizeProcess { M with remaining_time := M.remaining_time - E }
              (s.current_time + E)).burst_time =
              (s.remaining.getD I dummyProcess).burst_time := by
            rw [finalizeProcess_burst]
            exact hMburst
          have hs' := ih _ sF h
          apply hs'
          · intro c hc
            cases hc
          · exact nodup_step_complete hIlen hnd _ hcpid
          · constructor
            · intro q hq
              have hqne : q.pid ≠ (s.remaining.getD I dummyProcess).pid :=
                pid_ne_of_mem_eraseIdx hIlen hndrem hq
              show pidDurSum (s.timeline ++ [busySegment M.pid s.current_time E]) q.pid +
                  q.remaining_time = q.burst_time
              rw [hMpid, pidDurSum_busy_ne _ _ _ _ _ hqne.symm]
              exact hinv.1 q ((List.eraseIdx_sublist s.remaining I).subset hq)
            · intro q hq
              rcases List.mem_append.mp hq with hh | hh
              · have hqne : q.pid ≠ (s.remaining.getD I dummyProcess).pid :=
                  pid_disjoint_of_nodup hnd hselmem hh
                show pidDurSum (s.timeline ++ [busySegment M.pid s.current_time E]) q.pid =
                    q.burst_time
                rw [hMpid, pidDurSum_busy_ne _ _ _ _ _ hqne.symm]
                exact hinv.2 q hh
              · rw [List.mem_singleton.mp hh]
                show pidDurSum (s.timeline ++ [busySegment M.pid s.current_time E])
                    (finalizeProcess { M with remaining_time := M.remaining_time - E }
                      (s.current_time + E)).pid =
                    (finalizeProcess { M with remaining_time := M.remaining_time - E }
                      (s.current_time + E)).burst_time
                rw [hcpid, hcburst, ← hMpid, pidDurSum_busy_self, hMpid]
                omega
        · rw [if_neg hdone] at h
          have hs' := ih _ sF h
          apply hs'
          · intro c hc
            have hc2 : I = c := Option.some.inj hc
            subst hc2
            show I < (s.remaining.set I _).length
            rw [List.length_set]
            exact hIlen
          · exact nodup_step_set hIlen hnd _ hMpid
          · constructor
            · intro q hq
              rcases List.mem_cons.mp
                  ((set_perm_cons_eraseIdx s.remaining I _ hIlen).subset hq) with heq | hmem
              · subst heq
                show pidDurSum (s.timeline ++ [busySegment M.pid s.current_time E]) M.pid +
                    (M.remaining_time - E) = M.burst_time
                rw [hMpid, pidDurSum_busy_self]
                omega
              · have hqne : q.pid ≠ (s.remaining.getD I dummyProcess).pid :=
                  pid_ne_of_mem_eraseIdx hIlen hndrem hmem
                show pidDurSum (s.timeline ++ [busySegment M.pid s.current_time E]) q.pid +
                    q.remaining_time = q.burst_time
                rw [hMpid, pidDurSum_busy_ne _ _ _ _ _ hqne.symm]
                exact hinv.1 q ((List.eraseIdx_sublist s.remaining I).subset hmem)
            · intro q hq
              have hqne : q.pid ≠ (s.remaining.getD I dummyProcess).pid :=
                pid_disjoint_of_nodup hnd hselmem hq
              show pidDurSum (s.timeline ++ [busySegment M.pid s.current_time E]) q.pid =
                  q.burst_time
              rw [hMpid, pidDurSum_busy_ne _ _ _ _ _ hqne.symm]
              exact hinv.2 q hq

theorem prioLoop_nonpre_pidsegs :
    ∀ (fuel : Nat) (s sF : PrioState),
      prioLoop false fuel s = some sF →
      s.current = none →
      ValRemNP s.remaining →
      (pidsOf (s.remaining ++ s.completed)).Nodup →
      PidSegsNP s.timeline s.remaining s.completed →
      PidSegsNP sF.timeline sF.remaining sF.completed := by
  intro fuel
  induction fuel with
  | zero => intro s sF h; cases h
  | succ n ih =>
    intro s sF h hcur hval hnd hinv
    rw [prioLoop] at h
    by_cases hrem : s.remaining = []
    · rw [if_pos hrem] at h
      cases h
      exact hinv
    · rw [if_neg hrem] at h
      cases hsel : pyMinIdx (fun p => p.priority)
          (fun p => decide (p.arrival_time ≤ s.current_time)) s.remaining with
      | none =>
        have hstep := prioStep_idle false s hsel
        have hs' := ih (prioStep false s) sF h
        rw [hstep] at hs'
        apply hs' rfl hval hnd
        constructor
        · intro q hq
          show pidSegs (if s.current_time < minArrivalTime s.remaining then
              s.timeline ++ [idleSegment s.current_time (minArrivalTime s.remaining)]
            else s.timeline) q.pid = []
          split
          · rw [pidSegs_append, hinv.1 q hq, pidSegs_idle, List.nil_append]
          · exact hinv.1 q hq
        · intro q hq
          show (pidSegs (if s.current_time < minArrivalTime s.remaining then
              s.timeline ++ [idleSegment s.current_time (minArrivalTime s.remaining)]
            else s.timeline) q.pid).map (fun seg => seg.duration) = [q.burst_time]
          split
          · rw [pidSegs_append, pidSegs_idle, List.append_nil]
            exact hinv.2 q hq
          · exact hinv.2 q hq
      | some i0 =>
        obtain ⟨hi0len, hi0ok, hi0min, hi0first⟩ := pyMinIdx_spec _ _ _ _ hsel
        rw [prioStep_busy_eq false s i0 hsel] at h
        simp only [] at h
        obtain ⟨I, hIdef⟩ : ∃ I, (match s.current with
          | some c =>
            if ¬false ∧ (s.remaining.getD c dummyProcess).arrival_time ≤ s.current_time
            then c else i0
          | none => i0) = I := ⟨_, rfl⟩
        rw [hIdef] at h
        have hIeq : I = i0 := by
          rw [← hIdef, hcur]
        have hIlen : I < s.remaining.length := by
          rw [hIeq]; exact hi0len
        have hselmem : s.remaining.getD I dummyProcess ∈ s.remaining := getD_mem hIlen
        obtain ⟨hqburst, hqarr, hremeq⟩ := hval _ hselmem
        obtain ⟨M, hMdef⟩ : ∃ M, (if s.current ≠ some I then
            markStarted (s.remaining.getD I dummyProcess) s.current_time
          else s.remaining.getD I dummyProcess) = M := ⟨_, rfl⟩
        rw [hMdef] at h
        have hMrem : M.remaining_time = (s.remaining.getD I dummyProcess).remaining_time := by
          rw [← hMdef]; exact condMark_remaining _ _ _
        have hMpid : M.pid = (s.remaining.getD I dummyProcess).pid := by
          rw [← hMdef]; exact condMark_pid _ _ _
        have hMburst : M.burst_time = (s.remaining.getD I dummyProcess).burst_time := by
          rw [← hMdef]; exact condMark_burst _ _ _
        obtain ⟨E, hEdef⟩ : ∃ E, (if false then
            match nextArrivalAfter s.current_time s.remaining with
            | none => M.remaining_time
            | some next_event_time => min M.remaining_time (next_event_time - s.current_time)
          else M.remaining_time) = E := ⟨_, rfl⟩
        rw [hEdef] at h
        have hEeq : E = M.remaining_time := by
          rw [← hEdef]
          simp
        have hdone : M.remaining_time - E = 0 := by
          rw [hEeq]
          exact sub_self _
        rw [if_pos hdone] at h
        have hnd' := hnd
        rw [pidsOf_append] at hnd'
        obtain ⟨hndrem, hndcomp, hnddisj⟩ := List.nodup_append.mp hnd'
        have hcpid : (finalizeProcess { M with remaining_time := M.remaining_time - E }
            (s.current_time + E)).pid = (s.remaining.getD I dummyProcess).pid := by
          rw [finalizeProcess_pid]
          exact hMpid
        have hcburst : (finalizeProcess { M with remaining_time := M.remaining_time - E }
            (s.current_time + E)).burst_time =
            (s.remaining.getD I dummyProcess).burst_time := by
          rw [finalizeProcess_burst]
          exact hMburst
        have hs' := ih _ sF h
        apply hs' rfl
        · intro q hq
          exact hval q ((List.eraseIdx_sublist s.remaining I).subset hq)
        · exact nodup_step_complete hIlen hnd _ hcpid
        · constructor
          · intro q hq
            have hqne : q.pid ≠ (s.remaining.getD I dummyProcess).pid :=
              pid_ne_of_mem_eraseIdx hIlen hndrem hq
            show pidSegs (s.timeline ++ [busySegment M.pid s.current_time E]) q.pid = []
            rw [hMpid, pidSegs_append,
              hinv.1 q ((List.eraseIdx_sublist s.remaining I).subset hq),
              pidSegs_busy_ne _ _ _ _ hqne.symm, List.nil_append]
          · intro q hq
            rcases List.mem_append.mp hq with hh | hh
            · have hqne : q.pid ≠ (s.remaining.getD I dummyProcess).pid :=
                pid_disjoint_of_nodup hnd hselmem hh
              show (pidSegs (s.timeline ++ [busySegment M.pid s.current_time E])
                  q.pid).map (fun seg => seg.duration) = [q.burst_time]
              rw [hMpid, pidSegs_append, pidSegs_busy_ne _ _ _ _ hqne.symm, List.append_nil]
              exact hinv.2 q hh
            · rw [List.mem_singleton.mp hh]
              show (pidSegs (s.timeline ++ [busySegment M.pid s.current_time E])
                  (finalizeProcess { M with remaining_time := M.remaining_time - E }
                    (s.current_time + E)).pid).map (fun seg => seg.duration) =
                  [(finalizeProcess { M with remaining_time := M.remaining_time - E }
                    (s.current_time + E)).burst_time]
              rw [hcpid, hcburst, ← hMpid, pidSegs_append, hMpid,
                hinv.1 _ hselmem, pidSegs_busy_self, List.nil_append]
              show [E] = [(s.remaining.getD I dummyProcess).burst_time]
              rw [hEeq, hMrem, hremeq]

theorem rrLoop_pidaccount (time_quantum : Int) :
    ∀ (fuel : Nat) (s sF : RRState),
      rrLoop time_quantum fuel s = some sF →
      (pidsOf (s.remaining ++ s.ready_queue ++ s.completed)).Nodup →
      PidAccount s.timeline (s.remaining ++ s.ready_queue) s.completed →
      PidAccount sF.timeline (sF.remaining ++ sF.ready_queue) sF.completed := by
  intro fuel
  induction fuel with
  | zero => intro s sF h; cases h
  | succ n ih =>
    intro s sF h hnd hinv
    rw [rrLoop] at h
    by_cases hterm : s.remaining = [] ∧ s.ready_queue = []
    · rw [if_pos hterm] at h
      cases h
      exact hinv
    · rw [if_neg hterm] at h
      obtain ⟨adm1, hadm1, hq1eq, hhead1⟩ :=
        admitArrived_spec s.current_time s.remaining s.ready_queue
      cases hA : admitArrived s.current_time s.remaining s.ready_queue with
      | mk rem1 q1 =>
        rw [hA] at hadm1 hq1eq hhead1
        simp only [] at hadm1 hq1eq hhead1
        cases q1 with
        | nil =>
          obtain ⟨hqnil, hadm1nil⟩ := List.append_eq_nil.mp hq1eq.symm
          cases rem1 with
          | nil =>
            exfalso
            apply hterm
            refine ⟨?_, hqnil⟩
            rw [hadm1, hadm1nil]
            rfl
          | cons q rest =>
            have hstep : rrStep time_quantum s =
                { current_time := q.arrival_time, remaining := q :: rest, ready_queue := [],
                  timeline :=
                    if s.current_time < q.arrival_time then
                      s.timeline ++ [idleSegment s.current_time q.arrival_time]
                    else s.timeline,
                  completed := s.completed } := by
              unfold rrStep
              simp only [hA]
            rw [hstep] at h
            have hremfull : s.remaining = q :: rest := by
              rw [hadm1, hadm1nil]
              rfl
            have hs' := ih _ sF h
            apply hs'
            · rw [hremfull, hqnil] at hnd
              exact hnd
            · rw [hremfull, hqnil] at hinv
              constructor
              · intro p hp
                show pidDurSum (if s.current_time < q.arrival_time then
                    s.timeline ++ [idleSegment s.current_time q.arrival_time]
                  else s.timeline) p.pid + p.remaining_time = p.burst_time
                split
                · rw [pidDurSum_idle]
                  exact hinv.1 p hp
                · exact hinv.1 p hp
              · intro p hp
                show pidDurSum (if s.current_time < q.arrival_time then
                    s.timeline ++ [idleSegment s.current_time q.arrival_time]
                  else s.timeline) p.pid = p.burst_time
                split
                · rw [pidDurSum_idle]
                  exact hinv.2 p hp
                · exact hinv.2 p hp
        | cons process queue_rest =>
          have hstep : rrStep time_quantum s =
              (let process := markStarted process s.current_time
              let execution_time := min time_quantum process.remaining_time
              let process :=
                { process with remaining_time := process.remaining_time - execution_time }
              let timeline :=
                s.timeline ++ [busySegment process.pid s.current_time execution_time]
              let current_time := s.current_time + execution_time
              let (remaining, ready_queue) := admitArrived current_time rem1 queue_rest
              if process.remaining_time > 0 then
                { current_time := current_time, remaining := remaining,
                  ready_queue := ready_queue ++ [process], timeline := timeline,
                  completed := s.completed }
              else
                { current_time := current_time, remaining := remaining,
                  ready_queue := ready_queue, timeline := timeline,
                  completed := s.completed ++ [finalizeProcess process current_time] }) := by
            unfold rrStep
            simp only [hA]
          rw [hstep] at h
          simp only [] at h
          obtain ⟨P1, hP1def⟩ : ∃ P1, markStarted process s.current_time = P1 := ⟨_, rfl⟩
          rw [hP1def] at h
          obtain ⟨E, hEdef⟩ : ∃ E, min time_quantum P1.remaining_time = E := ⟨_, rfl⟩
          rw [hEdef] at h
          obtain ⟨P2, hP2def⟩ : ∃ P2,
            { P1 with remaining_time := P1.remaining_time - E } = P2 := ⟨_, rfl⟩
          rw [hP2def] at h
          have hP1rem : P1.remaining_time = process.remaining_time := by
            rw [← hP1def]; exact markStarted_remaining _ _
          have hP2rem : P2.remaining_time = P1.remaining_time - E := by
            rw [← hP2def]
          have hP2pid : P2.pid = process.pid := by
            rw [← hP2def]
            show P1.pid = process.pid
            rw [← hP1def]
            exact markStarted_pid _ _
          have hP2burst : P2.burst_time = process.burst_time := by
            rw [← hP2def]
            show P1.burst_time = process.burst_time
            rw [← hP1def]
            exact markStarted_burst _ _
          have hEleP : E ≤ P1.remaining_time := by
            rw [← hEdef]; exact min_le_right _ _
          obtain ⟨adm2, hadm2, hq2eq, hhead2⟩ :=
            admitArrived_spec (s.current_time + E) rem1 queue_rest
          cases hA2 : admitArrived (s.current_time + E) rem1 queue_rest with
          | mk rem2 q2 =>
            rw [hA2] at hadm2 hq2eq hhead2 h
            simp only [] at hadm2 hq2eq hhead2 h
            have hremfull : s.remaining = adm1 ++ (adm2 ++ rem2) := by
              rw [hadm1, hadm2]
            have hpoolperm : (s.remaining ++ s.ready_queue).Perm
                (process :: (queue_rest ++ (adm2 ++ rem2))) := by
              rw [hremfull]
              refine List.Perm.trans List.perm_append_comm ?_
              rw [← List.append_assoc, ← hq1eq]
              exact List.Perm.refl _
            have hpidperm := hpoolperm.map (fun p : Process => p.pid)
            rw [pidsOf_append] at hnd
            obtain ⟨hndpool, hndcomp, hnddisj⟩ := List.nodup_append.mp hnd
            have hndpool2 : (process.pid ::
                pidsOf (queue_rest ++ (adm2 ++ rem2))).Nodup :=
              hpidperm.nodup hndpool
            obtain ⟨hPnotin, hndR⟩ := List.nodup_cons.mp hndpool2
            have hprocmem : process ∈ s.remaining ++ s.ready_queue :=
              hpoolperm.symm.subset (List.mem_cons_self _ _)
            have hPacc := hinv.1 process hprocmem
            have hRsub : ∀ p ∈ queue_rest ++ (adm2 ++ rem2),
                p ∈ s.remaining ++ s.ready_queue := by
              intro p hp
              exact hpoolperm.symm.subset (List.mem_cons_of_mem _ hp)
            have hRne : ∀ p ∈ queue_rest ++ (adm2 ++ rem2), p.pid ≠ process.pid := by
              intro p hp hcontra
              exact hPnotin (hcontra ▸ List.mem_map_of_mem (fun r => r.pid) hp)
            have hP1pid : P1.pid = process.pid := by
              rw [← hP1def]
              exact markStarted_pid _ _
            have hCne : ∀ p ∈ s.completed, p.pid ≠ process.pid := by
              intro p hp hcontra
              have h1 : process.pid ∈ pidsOf (s.remaining ++ s.ready_queue) :=
                List.mem_map_of_mem (fun r : Process => r.pid) hprocmem
              have h2 : process.pid ∈ pidsOf s.completed := by
                rw [← hcontra]
                exact List.mem_map_of_mem (fun r : Process => r.pid) hp
              exact hnddisj h1 h2
            have hinner : (rem2 ++ (queue_rest ++ adm2)).Perm
                (queue_rest ++ (adm2 ++ rem2)) := by
              refine List.Perm.trans List.perm_append_comm ?_
              rw [List.append_assoc]
            by_cases hreq : P1.remaining_time - E > 0
            · rw [if_pos hreq] at h
              have hnewperm : (rem2 ++ (q2 ++ [P2])).Perm
                  (P2 :: (queue_rest ++ (adm2 ++ rem2))) := by
                rw [hq2eq]
                exact (perm_cons_middle P2 rem2 (queue_rest ++ adm2)).trans (hinner.cons P2)
              have hs' := ih _ sF h
              apply hs'
              · show (pidsOf (rem2 ++ (q2 ++ [P2]) ++ s.completed)).Nodup
                rw [pidsOf_append]
                have h1 := hnewperm.map (fun p : Process => p.pid)
                have h1b : (pidsOf (rem2 ++ (q2 ++ [P2]))).Perm
                    (process.pid :: pidsOf (queue_rest ++ (adm2 ++ rem2))) := by
                  rw [← hP2pid]
                  exact h1
                have h2 : (pidsOf (rem2 ++ (q2 ++ [P2]))).Perm
                    (pidsOf (s.remaining ++ s.ready_queue)) :=
                  h1b.trans hpidperm.symm
                exact ((h2.symm.append_right (pidsOf s.completed)).nodup) hnd
              · constructor
                · intro p hp
                  show pidDurSum (s.timeline ++ [busySegment P1.pid s.current_time E]) p.pid +
                      p.remaining_time = p.burst_time
                  rcases List.mem_cons.mp (hnewperm.subset hp) with heq | hmem
                  · subst heq
                    rw [hP2pid, hP1pid, pidDurSum_busy_self, hP2rem, hP2burst]
                    omega
                  · rw [hP1pid, pidDurSum_busy_ne _ _ _ _ _ (hRne p hmem).symm]
                    exact hinv.1 p (hRsub p hmem)
                · intro p hp
                  show pidDurSum (s.timeline ++ [busySegment P1.pid s.current_time E]) p.pid =
                      p.burst_time
                  rw [hP1pid, pidDurSum_busy_ne _ _ _ _ _ (hCne p hp).symm]
                  exact hinv.2 p hp
            · rw [if_neg hreq] at h
              have hEfull : E = process.remaining_time := by omega
              have hcpid : (finalizeProcess P2 (s.current_time + E)).pid = process.pid := by
                rw [finalizeProcess_pid]
                exact hP2pid
              have hcburst : (finalizeProcess P2 (s.current_time + E)).burst_time =
                  process.burst_time := by
                rw [finalizeProcess_burst]
                exact hP2burst
              have hnewperm2 : (rem2 ++ q2).Perm (queue_rest ++ (adm2 ++ rem2)) := by
                rw [hq2eq]
                exact hinner
              have hs' := ih _ sF h
              apply hs'
              · show (pidsOf (rem2 ++ q2 ++
                    (s.completed ++ [finalizeProcess P2 (s.current_time + E)]))).Nodup
                have hsplit : pidsOf (s.completed ++
                    [finalizeProcess P2 (s.current_time + E)]) =
                    pidsOf s.completed ++ [process.pid] := by
                  rw [pidsOf_append]
                  rw [show pidsOf [finalizeProcess P2 (s.current_time + E)] =
                      [(finalizeProcess P2 (s.current_time + E)).pid] from rfl, hcpid]
                rw [pidsOf_append, hsplit]
                have hend : (pidsOf (rem2 ++ q2) ++
                    (pidsOf s.completed ++ [process.pid])).Perm
                    (pidsOf (s.remaining ++ s.ready_queue) ++ pidsOf s.completed) := by
                  refine List.Perm.trans
                    (perm_cons_middle process.pid (pidsOf (rem2 ++ q2)) (pidsOf s.completed))
                    ?_
                  have h2 := hnewperm2.map (fun p : Process => p.pid)
                  have h3 : (process.pid :: (pidsOf (rem2 ++ q2) ++ pidsOf s.completed)).Perm
                      (process.pid :: (pidsOf (queue_rest ++ (adm2 ++ rem2)) ++
                        pidsOf s.completed)) :=
                    (h2.append_right (pidsOf s.completed)).cons process.pid
                  refine h3.trans ?_
                  have h4 : ((process.pid :: pidsOf (queue_rest ++ (adm2 ++ rem2))) ++
                      pidsOf s.completed).Perm
                      (pidsOf (s.remaining ++ s.ready_queue) ++ pidsOf s.completed) :=
                    hpidperm.symm.append_right (pidsOf s.completed)
                  exact h4
                exact hend.symm.nodup hnd
              · constructor
                · intro p hp
                  show pidDurSum (s.timeline ++ [busySegment P1.pid s.current_time E]) p.pid +
                      p.remaining_time = p.burst_time
                  have hmem := hnewperm2.subset hp
                  rw [hP1pid, pidDurSum_busy_ne _ _ _ _ _ (hRne p hmem).symm]
                  exact hinv.1 p (hRsub p hmem)
                · intro p hp
                  rcases List.mem_append.mp hp with hh | hh
                  · show pidDurSum (s.timeline ++ [busySegment P1.pid s.current_time E])
                        p.pid = p.burst_time
                    rw [hP1pid, pidDurSum_busy_ne _ _ _ _ _ (hCne p hh).symm]
                    exact hinv.2 p hh
                  · rw [List.mem_singleton.mp hh]
                    show pidDurSum (s.timeline ++ [busySegment P1.pid s.current_time E])
                        (finalizeProcess P2 (s.current_time + E)).pid =
                        (finalizeProcess P2 (s.current_time + E)).burst_time
                    rw [hcpid, hcburst, hP1pid, pidDurSum_busy_self]
                    omega

theorem sorted_copy_pids_nodup (ps : List Process) (hnd : (pidsOf ps).Nodup) :
    (pidsOf (sortByArrival (ps.map copyProcess))).Nodup := by
  have h1 : (pidsOf (sortByArrival (ps.map copyProcess))).Perm (pidsOf (ps.map copyProcess)) :=
    (sortByArrival_perm (ps.map copyProcess)).map (fun p : Process => p.pid)
  rw [pidsOf_map_copy] at h1
  exact h1.symm.nodup hnd

theorem init_pidsegsnp (l : List Process) : PidSegsNP [] l [] :=
  ⟨fun _ _ => rfl, fun q hq => absurd hq (List.not_mem_nil q)⟩

theorem init_pidaccount (ps : List Process) (hval : ValidInput ps) :
    PidAccount [] (sortByArrival (ps.map copyProcess)) [] := by
  constructor
  · intro q hq
    have h3 := (sorted_copy_valRemNP ps hval q hq).2.2
    rw [show pidDurSum [] q.pid = 0 from rfl]
    omega
  · intro q hq
    exact absurd hq (List.not_mem_nil q)

theorem fcfs_pidsegs (ps : List Process) (hval : ValidInput ps)
    (hnd : (pidsOf ps).Nodup) :
    ∀ q ∈ (fcfs ps).2, (pidSegs (fcfs ps).1 q.pid).map (fun seg => seg.duration) =
      [q.burst_time] := by
  have hvalNP := sorted_copy_valRemNP ps hval
  have hnds := sorted_copy_pids_nodup ps hnd
  have hfc : fcfs ps =
      (((sortByArrival (ps.map copyProcess)).foldl fcfsStep
          { current_time := 0, timeline := [], completed := [] }).timeline,
       ((sortByArrival (ps.map copyProcess)).foldl fcfsStep
          { current_time := 0, timeline := [], completed := [] }).completed) := rfl
  cases hs : sortByArrival (ps.map copyProcess) with
  | nil =>
    rw [hs] at hfc
    rw [hfc]
    intro q hq
    exact absurd hq (List.not_mem_nil q)
  | cons p0 rest =>
    rw [hs] at hvalNP hfc hnds
    obtain ⟨hp0b, hp0a, hp0r⟩ := hvalNP p0 (List.mem_cons_self p0 rest)
    obtain ⟨hp0notin, hndrest⟩ := List.nodup_cons.mp hnds
    have hstep := fcfsStep_first p0 hp0a
    set acc1 : FcfsAcc :=
      { current_time := p0.arrival_time + p0.remaining_time,
        timeline := [busySegment p0.pid p0.arrival_time p0.remaining_time],
        completed := [finalizeProcess
          { markStarted p0 p0.arrival_time with remaining_time := 0 }
          (p0.arrival_time + p0.remaining_time)] } with hacc1
    have hc0pid : (finalizeProcess
        { markStarted p0 p0.arrival_time with remaining_time := 0 }
        (p0.arrival_time + p0.remaining_time)).pid = p0.pid := by
      rw [finalizeProcess_pid]
      exact markStarted_pid _ _
    have hc0burst : (finalizeProcess
        { markStarted p0 p0.arrival_time with remaining_time := 0 }
        (p0.arrival_time + p0.remaining_time)).burst_time = p0.burst_time := by
      rw [finalizeProcess_burst]
      exact markStarted_burst _ _
    have hfold := fcfsFold_spec rest acc1
      (fun q hq => hvalNP q (List.mem_cons_of_mem p0 hq))
      (by rw [hacc1]; show 0 < p0.arrival_time + p0.remaining_time; omega)
      (by
        rw [hacc1]
        intro q hq
        simp only [List.mem_singleton] at hq
        subst hq
        exact le_of_eq (finalizeProcess_completion _ _))
      (by rw [hacc1]; exact ⟨[], _, rfl, finalizeProcess_completion _ _⟩)
      (by rw [hacc1]; simp [SortedByCompletion])
    obtain ⟨hpos, hmono, hsum, hcbF, hlastF, hsortF, hquadeq, hsegs⟩ := hfold
    have hout := hsegs ?_
    · intro q hq
      rw [hfc]
      simp only []
      rw [List.foldl_cons, hstep]
      refine hout q ?_
      rw [hfc] at hq
      simp only [] at hq
      rw [List.foldl_cons, hstep] at hq
      exact hq
    · refine ⟨?_, ?_, ?_⟩
      · rw [hacc1]
        show (pidsOf (rest ++ [finalizeProcess
          { markStarted p0 p0.arrival_time with remaining_time := 0 }
          (p0.arrival_time + p0.remaining_time)])).Nodup
        have hperm : (pidsOf (rest ++ [finalizeProcess
            { markStarted p0 p0.arrival_time with remaining_time := 0 }
            (p0.arrival_time + p0.remaining_time)])).Perm (p0.pid :: pidsOf rest) := by
          rw [pidsOf_append]
          rw [show pidsOf [finalizeProcess
            { markStarted p0 p0.arrival_time with remaining_time := 0 }
            (p0.arrival_time + p0.remaining_time)] = [(finalizeProcess
            { markStarted p0 p0.arrival_time with remaining_time := 0 }
            (p0.arrival_time + p0.remaining_time)).pid] from rfl, hc0pid]
          exact List.perm_append_comm
        exact hperm.symm.nodup hnds
      · intro q hq
        rw [hacc1]
        show pidSegs [busySegment p0.pid p0.arrival_time p0.remaining_time] q.pid = []
        refine pidSegs_busy_ne _ _ _ _ ?_
        intro hcontra
        apply hp0notin
        show p0.pid ∈ pidsOf rest
        rw [hcontra]
        exact List.mem_map_of_mem (fun r : Process => r.pid) hq
      · intro q hq
        rw [hacc1] at hq ⊢
        simp only [List.mem_singleton] at hq
        subst hq
        show (pidSegs [busySegment p0.pid p0.arrival_time p0.remaining_time]
            (finalizeProcess { markStarted p0 p0.arrival_time with remaining_time := 0 }
              (p0.arrival_time + p0.remaining_time)).pid).map (fun seg => seg.duration) =
          [(finalizeProcess { markStarted p0 p0.arrival_time with remaining_time := 0 }
              (p0.arrival_time + p0.remaining_time)).burst_time]
        rw [hc0pid, hc0burst, pidSegs_busy_self]
        show [p0.remaining_time] = [p0.burst_time]
        rw [hp0r]

/-- C6: under a pid-distinct valid input, the non-preemptive algorithms (fcfs,
sjf_non_preemptive, priority_scheduling with preemptive=False) give each finalized process
exactly one timeline segment, whose duration is its full burst_time; under the preemptive
algorithms (sjf_preemptive, priority_scheduling with preemptive=True, round_robin) the
durations of all segments carrying a process's id sum to its burst_time.  Loop-based
algorithms are stated conditionally on the fuelled loop returning a result. -/
theorem claim_C6_burst_accounting (ps : List Process) (hval : ValidInput ps)
    (hnd : (pidsOf ps).Nodup) :
    (∀ q ∈ (fcfs ps).2, (pidSegs (fcfs ps).1 q.pid).map (fun seg => seg.duration) =
      [q.burst_time]) ∧
    (∀ tl cs, sjf_non_preemptive ps = some (tl, cs) →
      ∀ q ∈ cs, (pidSegs tl q.pid).map (fun seg => seg.duration) = [q.burst_time]) ∧
    (∀ tl cs, priority_scheduling ps false = some (tl, cs) →
      ∀ q ∈ cs, (pidSegs tl q.pid).map (fun seg => seg.duration) = [q.burst_time]) ∧
    (∀ tl cs, sjf_preemptive ps = some (tl, cs) →
      ∀ q ∈ cs, pidDurSum tl q.pid = q.burst_time) ∧
    (∀ tl cs, priority_scheduling ps true = some (tl, cs) →
      ∀ q ∈ cs, pidDurSum tl q.pid = q.burst_time) ∧
    (∀ time_quantum tl cs, round_robin ps time_quantum = some (tl, cs) →
      ∀ q ∈ cs, pidDurSum tl q.pid = q.burst_time) := by
  refine ⟨fcfs_pidsegs ps hval hnd, ?_, ?_, ?_, ?_, ?_⟩
  · intro tl cs hrun q hq
    obtain ⟨sF, hloop, htl, hcs⟩ := sjf_non_preemptive_eq_loop ps tl cs hrun
    have hout := sjfNPLoop_pidsegs _ _ sF hloop
      (by exact sorted_copy_valRemNP ps hval)
      (by
        show (pidsOf (sortByArrival (ps.map copyProcess) ++ [])).Nodup
        rw [List.append_nil]
        exact sorted_copy_pids_nodup ps hnd)
      (by exact init_pidsegsnp _)
    rw [← htl]
    exact hout.2 q (by rw [hcs]; exact hq)
  · intro tl cs hrun q hq
    obtain ⟨sF, hloop, htl, hcs⟩ := priority_scheduling_eq_loop ps false tl cs hrun
    have hout := prioLoop_nonpre_pidsegs _ _ sF hloop rfl
      (by exact sorted_copy_valRemNP ps hval)
      (by
        show (pidsOf (sortByArrival (ps.map copyProcess) ++ [])).Nodup
        rw [List.append_nil]
        exact sorted_copy_pids_nodup ps hnd)
      (by exact init_pidsegsnp _)
    rw [← htl]
    exact hout.2 q (by rw [hcs]; exact hq)
  · intro tl cs hrun q hq
    obtain ⟨sF, hloop, htl, hcs⟩ := sjf_preemptive_eq_loop ps tl cs hrun
    have hout := srtfLoop_pidaccount _ _ sF hloop
      (by
        show (pidsOf (sortByArrival (ps.map copyProcess) ++ [])).Nodup
        rw [List.append_nil]
        exact sorted_copy_pids_nodup ps hnd)
      (by exact init_pidaccount ps hval)
    rw [← htl]
    exact hout.2 q (by rw [hcs]; exact hq)
  · intro tl cs hrun q hq
    obtain ⟨sF, hloop, htl, hcs⟩ := priority_scheduling_eq_loop ps true tl cs hrun
    have hout := prioLoop_pidaccount true _ _ sF hloop
      (by intro c hc; exact Option.noConfusion hc)
      (by
        show (pidsOf (sortByArrival (ps.map copyProcess) ++ [])).Nodup
        rw [List.append_nil]
        exact sorted_copy_pids_nodup ps hnd)
      (by exact init_pidaccount ps hval)
    rw [← htl]
    exact hout.2 q (by rw [hcs]; exact hq)
  · intro time_quantum tl cs hrun q hq
    obtain ⟨sF, hloop, htl, hcs⟩ := round_robin_eq_loop ps time_quantum tl cs hrun
    have hout := rrLoop_pidaccount time_quantum _ _ sF hloop
      (by
        show (pidsOf (sortByArrival (ps.map copyProcess) ++ [] ++ [])).Nodup
        rw [List.append_nil, List.append_nil]
        exact sorted_copy_pids_nodup ps hnd)
      (by
        show PidAccount [] (sortByArrival (ps.map copyProcess) ++ []) []
        rw [List.append_nil]
        exact init_pidaccount ps hval)
    rw [← htl]
    exact hout.2 q (by rw [hcs]; exact hq)

/-- C6 witness: the single-segment property evaluated on the concrete single-process input
`Process(pid=1, arrival_time=0, burst_time=2)` for `fcfs`. -/
theorem claim_C6_burst_accounting_witness :
    (ValidInput [Process.init 1 0 2 0] ∧ (pidsOf [Process.init 1 0 2 0]).Nodup) ∧
    (∀ q ∈ (fcfs [Process.init 1 0 2 0]).2,
      (pidSegs (fcfs [Process.init 1 0 2 0]).1 q.pid).map (fun seg => seg.duration) =
        [q.burst_time]) :=
  ⟨⟨by unfold ValidInput; decide, by decide⟩,
   (claim_C6_burst_accounting [Process.init 1 0 2 0] (by unfold ValidInput; decide)
     (by decide)).1⟩

/-! ### The sjf_preemptive selection discipline -/

theorem getD_set_self :
    ∀ (l : List Process) (i : Nat) (a : Process), i < l.length →
      (l.set i a).getD i dummyProcess = a := by
  intro l
  induction l with
  | nil => intro i a hi; exact absurd hi (Nat.not_lt_zero i)
  | cons p rest ih =>
    intro i a hi
    cases i with
    | zero => rfl
    | succ j => exact ih j a (by simpa using hi)

theorem getD_set_ne :
    ∀ (l : List Process) (i j : Nat) (a : Process), j ≠ i →
      (l.set i a).getD j dummyProcess = l.getD j dummyProcess := by
  intro l
  induction l with
  | nil => intro i j a hne; rfl
  | cons p rest ih =>
    intro i j a hne
    cases i with
    | zero =>
      cases j with
      | zero => exact absurd rfl hne
      | succ j2 => rfl
    | succ i2 =>
      cases j with
      | zero => rfl
      | succ j2 => exact ih i2 j2 a (fun hc => hne (by rw [hc]))

theorem sorted_getD_le {l : List Process} (hs : List.Pairwise arrivalLE l) {j i : Nat}
    (hj : j < i) (hi : i < l.length) :
    (l.getD j dummyProcess).arrival_time ≤ (l.getD i dummyProcess).arrival_time := by
  have hj2 : j < l.length := lt_trans hj hi
  rw [getD_eq_getElem hj2, getD_eq_getElem hi]
  exact List.pairwise_iff_getElem.mp hs j i hj2 hi hj

theorem pairwise_set_of_arrival_eq :
    ∀ (l : List Process) (i : Nat) (a : Process), i < l.length →
      a.arrival_time = (l.getD i dummyProcess).arrival_time →
      List.Pairwise arrivalLE l → List.Pairwise arrivalLE (l.set i a) := by
  intro l
  induction l with
  | nil => intro i a hi _ _; exact absurd hi (Nat.not_lt_zero i)
  | cons p rest ih =>
    intro i a hi harr hs
    obtain ⟨hhead, htail⟩ := List.pairwise_cons.mp hs
    cases i with
    | zero =>
      refine List.pairwise_cons.mpr ⟨?_, htail⟩
      intro b hb
      show a.arrival_time ≤ b.arrival_time
      rw [harr]
      exact hhead b hb
    | succ j =>
      have hj : j < rest.length := by simpa using hi
      refine List.pairwise_cons.mpr ⟨?_, ih j a hj harr htail⟩
      intro b hb
      rcases List.mem_or_eq_of_mem_set hb with hmem | heq
      · exact hhead b hmem
      · subst heq
        show p.arrival_time ≤ b.arrival_time
        rw [harr]
        exact hhead _ (getD_mem hj)

theorem srtfLoopT_spec :
    ∀ (fuel : Nat) (s : SrtfState) (ds : List Decision) (out : SrtfState × List Decision),
      srtfLoopT fuel s ds = some out →
      ValRemP s.remaining →
      List.Pairwise arrivalLE s.remaining →
      (∀ c, s.current = some c → c < s.remaining.length ∧
        (s.remaining.getD c dummyProcess).arrival_time ≤ s.current_time ∧
        ∀ j, j < c → (s.remaining.getD j dummyProcess).arrival_time ≤ s.current_time →
          (s.remaining.getD c dummyProcess).remaining_time <
            (s.remaining.getD j dummyProcess).remaining_time) →
      (∀ d ∈ ds, GoodDecision d) →
      ∀ d ∈ out.2, GoodDecision d := by
  intro fuel
  induction fuel with
  | zero => intro s ds out h; cases h
  | succ n ih =>
    intro s ds out h hval hsorted hcur hds
    rw [srtfLoopT] at h
    by_cases hrem : s.remaining = []
    · rw [if_pos hrem] at h
      cases h
      exact hds
    · rw [if_neg hrem] at h
      simp only [] at h
      cases hsel : pyMinIdx (fun p => p.remaining_time)
          (fun p => decide (p.arrival_time ≤ s.current_time)) s.remaining with
      | none =>
        rw [hsel] at h
        simp only [] at h
        have hstep := srtfStep_idle s hsel
        rw [hstep] at h
        refine ih _ ds out h hval hsorted ?_ hds
        intro c hc
        exact absurd hc (fun hcontra => Option.noConfusion hcontra)
      | some i =>
        rw [hsel] at h
        simp only [] at h
        obtain ⟨hilen, hiok, himin, hifirst⟩ := pyMinIdx_spec _ _ _ _ hsel
        have hiokle : (s.remaining.getD i dummyProcess).arrival_time ≤ s.current_time :=
          of_decide_eq_true hiok
        have hSmem : s.remaining.getD i dummyProcess ∈ s.remaining := getD_mem hilen
        obtain ⟨hSrem, hSarr⟩ := hval _ hSmem
        have hgood : GoodDecision
            { clock := s.current_time, remaining := s.remaining,
              current := s.current, selected := i } := by
          refine ⟨hsorted, ⟨⟨hilen, hiokle⟩, ?_⟩, ?_, ?_⟩
          · intro j hj
            have hj' : j < s.remaining.length ∧
                (s.remaining.getD j dummyProcess).arrival_time ≤ s.current_time := hj
            exact himin _ (getD_mem hj'.1) (decide_eq_true hj'.2)
          · intro j hjlt hj
            have hj' : j < s.remaining.length ∧
                (s.remaining.getD j dummyProcess).arrival_time ≤ s.current_time := hj
            exact hifirst j hjlt (decide_eq_true hj'.2)
          · intro c hc hcav hcmin
            have hc2 : s.current = some c := hc
            obtain ⟨hclen, hcarr, hcstrict⟩ := hcur c hc2
            have h1 : ¬ c < i := by
              intro hlt
              have hfi := hifirst c hlt (decide_eq_true hcarr)
              have h2 : (s.remaining.getD c dummyProcess).remaining_time ≤
                  (s.remaining.getD i dummyProcess).remaining_time :=
                hcmin i ⟨hilen, hiokle⟩
              omega
            have h3 : ¬ i < c := by
              intro hlt
              have hst := hcstrict i hlt hiokle
              have h4 := himin _ (getD_mem hclen) (decide_eq_true hcarr)
              omega
            show i = c
            omega
        have hds2 : ∀ d ∈ ds ++
            [{ clock := s.current_time, remaining := s.remaining,
               current := s.current, selected := i }], GoodDecision d := by
          intro d hd
          rcases List.mem_append.mp hd with hh | hh
          · exact hds d hh
          · rw [List.mem_singleton.mp hh]
            exact hgood
        rw [srtfStep_busy_eq s i hsel] at h
        simp only [] at h
        obtain ⟨M, hMdef⟩ : ∃ M, (if s.current ≠ some i then
            markStarted (s.remaining.getD i dummyProcess) s.current_time
          else s.remaining.getD i dummyProcess) = M := ⟨_, rfl⟩
        rw [hMdef] at h
        have hMrem : M.remaining_time = (s.remaining.getD i dummyProcess).remaining_time := by
          rw [← hMdef]; exact condMark_remaining _ _ _
        have hMarr : M.arrival_time = (s.remaining.getD i dummyProcess).arrival_time := by
          rw [← hMdef]; exact condMark_arrival _ _ _
        obtain ⟨E, hEdef⟩ : ∃ E, (match nextArrivalAfter s.current_time s.remaining with
          | none => M.remaining_time
          | some next_event_time => min M.remaining_time (next_event_time - s.current_time)) =
            E := ⟨_, rfl⟩
        rw [hEdef] at h
        have hE1 : 1 ≤ E := by
          rw [← hEdef]
          cases hnaa : nextArrivalAfter s.current_time s.remaining with
          | none => simp only []; rw [hMrem]; exact hSrem
          | some t2 =>
            simp only []
            have hgt := nextArrivalAfter_some_gt _ _ _ hnaa
            rw [hMrem]
            exact le_min hSrem (by omega)
        have hEle : E ≤ M.remaining_time := by
          rw [← hEdef]
          cases hnaa : nextArrivalAfter s.current_time s.remaining with
          | none => simp only []; exact le_refl _
          | some t2 => simp only []; exact min_le_left _ _
        by_cases hdone : M.remaining_time - E = 0
        · rw [if_pos hdone] at h
          refine ih _ _ out h ?_ ?_ ?_ hds2
          · intro p hp
            exact hval p ((List.eraseIdx_sublist s.remaining i).subset hp)
          · exact List.Pairwise.sublist (List.eraseIdx_sublist s.remaining i) hsorted
          · intro c hc
            exact absurd hc (fun hcontra => Option.noConfusion hcontra)
        · rw [if_neg hdone] at h
          refine ih _ _ out h ?_ ?_ ?_ hds2
          · intro p hp
            rcases List.mem_or_eq_of_mem_set hp with hmem | heq
            · exact hval p hmem
            · subst heq
              constructor
              · show 1 ≤ M.remaining_time - E
                omega
              · show 0 ≤ M.arrival_time
                rw [hMarr]; exact hSarr
          · refine pairwise_set_of_arrival_eq s.remaining i _ hilen ?_ hsorted
            show M.arrival_time = (s.remaining.getD i dummyProcess).arrival_time
            exact hMarr
          · intro c hc
            have hic : i = c := Option.some.inj hc
            subst hic
            refine ⟨?_, ?_, ?_⟩
            · show i < (s.remaining.set i { M with
                remaining_time := M.remaining_time - E }).length
              rw [List.length_set]
              exact hilen
            · rw [getD_set_self s.remaining i _ hilen]
              show M.arrival_time ≤ s.current_time + E
              rw [hMarr]
              omega
            · intro j hjlt hjarr
              rw [getD_set_self s.remaining i _ hilen]
              rw [getD_set_ne s.remaining i j _ (Nat.ne_of_lt hjlt)] at hjarr ⊢
              show M.remaining_time - E <
                  (s.remaining.getD j dummyProcess).remaining_time
              have harrj : (s.remaining.getD j dummyProcess).arrival_time ≤
                  s.current_time :=
                le_trans (sorted_getD_le hsorted hjlt hilen) hiokle
              have hfi := hifirst j hjlt (decide_eq_true harrj)
              omega

theorem sjf_preemptive_decisions_eq_loop (ps : List Process) (ds : List Decision)
    (h : sjf_preemptive_decisions ps = some ds) :
    ∃ out, srtfLoopT (3 * (sortByArrival (ps.map copyProcess)).length + 1)
      { current_time := 0, remaining := sortByArrival (ps.map copyProcess), current := none,
        timeline := [], completed := [] } [] = some out ∧ out.2 = ds := by
  unfold sjf_preemptive_decisions at h
  simp only [] at h
  cases hloop : srtfLoopT (3 * (sortByArrival (ps.map copyProcess)).length + 1)
      { current_time := 0, remaining := sortByArrival (ps.map copyProcess), current := none,
        timeline := [], completed := [] } [] with
  | none => rw [hloop] at h; cases h
  | some out =>
    cases out with
    | mk sF ds2 =>
      rw [hloop] at h
      simp only [Option.some.injEq] at h
      exact ⟨(sF, ds2), rfl, h⟩

/-- C4: every selection that a (terminating) run of `sjf_preemptive` performs picks an
arrived process with the minimal `remaining_time`; it is the first such index of the
arrival-sorted remaining list, so among tied minima the earliest arrival wins; and whenever
the currently-running process is still available and tied for the minimum, the selection
returns its index, i.e. the running process is retained. -/
theorem claim_C4_srtf_selection (ps : List Process) (hval : ValidInput ps)
    (ds : List Decision) (hrun : sjf_preemptive_decisions ps = some ds) :
    ∀ d ∈ ds, GoodDecision d := by
  obtain ⟨out, hloop, houtds⟩ := sjf_preemptive_decisions_eq_loop ps ds hrun
  have hout := srtfLoopT_spec _ _ _ _ hloop
    (by exact sorted_copy_valRemP ps hval)
    (by exact sortByArrival_sorted (ps.map copyProcess))
    (by intro c hc; exact absurd hc (fun hcontra => Option.noConfusion hcontra))
    (by intro d hd; exact absurd hd (List.not_mem_nil d))
  rw [← houtds]
  exact hout

/-- C4 witness: the selection discipline evaluated on the concrete single-process input
`Process(pid=1, arrival_time=0, burst_time=2)`, whose run performs exactly one selection. -/
theorem claim_C4_srtf_selection_witness :
    (ValidInput [Process.init 1 0 2 0] ∧
      sjf_preemptive_decisions [Process.init 1 0 2 0] =
        some [{ clock := 0, remaining := [Process.init 1 0 2 0],
                current := none, selected := 0 }]) ∧
    ∀ d ∈ [({ clock := 0, remaining := [Process.init 1 0 2 0],
              current := none, selected := 0 } : Decision)], GoodDecision d :=
  ⟨⟨by unfold ValidInput; decide, by decide⟩,
   claim_C4_srtf_selection [Process.init 1 0 2 0] (by unfold ValidInput; decide)
     [{ clock := 0, remaining := [Process.init 1 0 2 0], current := none, selected := 0 }]
     (by decide)⟩
